import Mathlib

/-!
Verification development for `sitedown.py`, a single-file web crawler.

The crawler's URL handling is inherited from CPython 3.11.6's
`urllib.parse` (`urlparse`, `urlunparse`, `urljoin`, and the
`_replace(fragment='').geturl()` normalization idiom), so that library is
embedded here first, faithfully, over `List Char`.  Python strings are
modelled as `List Char`; `str.lower()` is modelled on the ASCII letters
(the inputs of interest are ASCII; Unicode case folding is out of scope
and noted where relevant).  The NFKC netloc check `_checknetloc`, a no-op
for ASCII netlocs, is modelled as a no-op.  Raising `ValueError` is
modelled by `Except String`.

The crawler itself (`crawl_website`, `list_paths`) is embedded as a step
function over an explicit state, with the external collaborators (HTTP
transport, link extraction, HTML-to-markdown conversion) passed in as
functions; the list `fetched` records the URLs on which the HTTP
collaborator was invoked.
-/

abbrev Chars := List Char

/-- Unsafe bytes removed by `urlsplit` per the WHATWG spec
(`_UNSAFE_URL_BYTES_TO_REMOVE = ['\t', '\r', '\n']`). -/
def unsafeByte (c : Char) : Bool := c = '\t' || c = '\r' || c = '\n'

/-- Model of `url.replace(b, "")` for each unsafe byte. -/
def removeUnsafe (l : Chars) : Chars := l.filter (fun c => !unsafeByte c)

/-- Characters valid in scheme names (`scheme_chars`). -/
def schemeChar (c : Char) : Bool := c.isAlpha || c.isDigit || c = '+' || c = '-' || c = '.'

/-- Split a list at the first occurrence of `sep` (model of
`s.split(sep, 1)` when `sep` occurs; `none` when it does not). -/
def splitFirst (sep : Char) : Chars → Option (Chars × Chars)
  | [] => none
  | c :: cs => if c = sep then some ([], cs) else (splitFirst sep cs).map (fun p => (c :: p.1, p.2))

/-- ASCII model of Python `str.lower` on one character. -/
def lowerChar (c : Char) : Char :=
  match c with
  | 'A' => 'a' | 'B' => 'b' | 'C' => 'c' | 'D' => 'd' | 'E' => 'e' | 'F' => 'f'
  | 'G' => 'g' | 'H' => 'h' | 'I' => 'i' | 'J' => 'j' | 'K' => 'k' | 'L' => 'l'
  | 'M' => 'm' | 'N' => 'n' | 'O' => 'o' | 'P' => 'p' | 'Q' => 'q' | 'R' => 'r'
  | 'S' => 's' | 'T' => 't' | 'U' => 'u' | 'V' => 'v' | 'W' => 'w' | 'X' => 'x'
  | 'Y' => 'y' | 'Z' => 'z'
  | c => c

/-- ASCII model of Python `str.lower`. -/
def lowerChars (l : Chars) : Chars := l.map lowerChar

/-- Model of `urlsplit`'s scheme detection: the portion before the first
`':'` is taken as the scheme iff it is non-empty, starts with an ASCII
letter and consists of scheme characters only; the detected scheme is
lower-cased.  Returns `none` when no scheme is detected. -/
def schemeSplit (l : Chars) : Option (Chars × Chars) :=
  match splitFirst ':' l with
  | none => none
  | some (pre, rest) =>
    match pre with
    | [] => none
    | c :: _ => if c.isAlpha && pre.all schemeChar then some (lowerChars pre, rest) else none

/-- Delimiters ending the netloc portion (`_splitnetloc` looks for `/?#`). -/
def netlocDelim (c : Char) : Bool := c = '/' || c = '?' || c = '#'

/-- Result of `urlsplit`: scheme, netloc, path, query, fragment. -/
structure SplitResult where
  scheme : Chars
  netloc : Chars
  path : Chars
  query : Chars
  fragment : Chars
deriving DecidableEq

/-- The condition under which `urlsplit` raises `ValueError("Invalid IPv6
URL")`: a bracket appearing in the netloc without its counterpart. -/
def bracketMismatch (netloc : Chars) : Bool :=
  (netloc.contains '[' && !netloc.contains ']') || (netloc.contains ']' && !netloc.contains '[')

/-- The netloc detection of `urlsplit`: when the remaining URL starts
with `//`, the netloc extends to the first of `/?#` (`_splitnetloc`). -/
def netSplit (l : Chars) : Chars × Chars :=
  match l with
  | '/' :: '/' :: rest =>
    (rest.takeWhile (fun c => !netlocDelim c), rest.dropWhile (fun c => !netlocDelim c))
  | u => ([], u)

/-- Model of `url.split('#', 1)` guarded by `'#' in url`. -/
def fragSplit (l : Chars) : Chars × Chars :=
  match splitFirst '#' l with
  | some (p, f) => (p, f)
  | none => (l, [])

/-- Model of `url.split('?', 1)` guarded by `'?' in url`. -/
def querySplit (l : Chars) : Chars × Chars :=
  match splitFirst '?' l with
  | some (p, q) => (p, q)
  | none => (l, [])

/-- Scheme detection with a default (the `scheme` parameter of `urlsplit`). -/
def schemeDefSplit (l dflt : Chars) : Chars × Chars :=
  match schemeSplit l with
  | some (s, r) => (s, r)
  | none => (dflt, l)

/-- The characters whose NFKC normalization contains one of `/?#@:`
(CPython 3.11.6 `unicodedata`, exhaustively enumerated over all
codepoints).  `_checknetloc` strips the literal `@ : # ?` from the netloc
and raises iff NFKC normalization of the remainder changes it and yields
one of `/?#@:`; since a netloc produced by `_splitnetloc` never contains
`/`, `?` or `#`, and since none of `/?#@:` arises from canonical
composition, that happens exactly when a character of this list occurs. -/
def nfkcForbidden (c : Char) : Bool :=
  c ∈ ['⁇', '⁈', '⁉', '℀', '℁', '℅', '℆', '⩴', '︓', '︖', '﹕', '﹖', '﹟', '﹫',
       '＃', '／', '：', '？', '＠']

/-- The raise condition of `_checknetloc` on a `_splitnetloc` output. -/
def checknetlocError (netloc : Chars) : Bool := netloc.any nfkcForbidden

/-- The `ValueError` message of `_checknetloc` (character 39 is the
single-quote around the netloc). -/
def nfkcErrorMsg (netloc : Chars) : String :=
  String.mk ("netloc ".data ++ Char.ofNat 39 :: netloc ++ Char.ofNat 39 ::
    " contains invalid characters under NFKC normalization".data)

/-- Model of CPython 3.11.6 `urlsplit(url, scheme, allow_fragments=True)`.
`scheme0` is the default scheme.  `_checknetloc` runs after the fragment
and query splits, so the bracket error takes precedence. -/
def urlsplitCore (url0 scheme0 : Chars) : Except String SplitResult :=
  let sp := schemeDefSplit (removeUnsafe url0) (removeUnsafe scheme0)
  let nsp := netSplit sp.2
  if bracketMismatch nsp.1 then .error "Invalid IPv6 URL"
  else
    let fsp := fragSplit nsp.2
    let qsp := querySplit fsp.1
    if checknetlocError nsp.1 then .error (nfkcErrorMsg nsp.1)
    else .ok ⟨sp.1, nsp.1, qsp.1, qsp.2, fsp.2⟩

/-- The `uses_netloc` scheme list of `urllib.parse`. -/
def usesNetloc : List Chars :=
  ["", "ftp", "http", "gopher", "nntp", "telnet", "imap", "wais", "file", "mms",
   "https", "shttp", "snews", "prospero", "rtsp", "rtspu", "rsync", "svn",
   "svn+ssh", "sftp", "nfs", "git", "git+ssh", "ws", "wss"].map String.data

/-- The `uses_relative` scheme list of `urllib.parse`. -/
def usesRelative : List Chars :=
  ["", "ftp", "http", "gopher", "nntp", "imap", "wais", "file", "https", "shttp",
   "mms", "prospero", "rtsp", "rtspu", "sftp", "svn", "svn+ssh", "ws", "wss"].map String.data

/-- The `uses_params` scheme list of `urllib.parse`. -/
def usesParams : List Chars :=
  ["", "ftp", "hdl", "prospero", "http", "imap", "https", "shttp", "rtsp",
   "rtspu", "sip", "sips", "mms", "sftp", "tel"].map String.data

/-- Model of CPython 3.11.6 `urlunsplit`. -/
def urlunsplit (r : SplitResult) : Chars :=
  let u1 :=
    if r.netloc ≠ [] ∨ (r.scheme ≠ [] ∧ r.scheme ∈ usesNetloc ∧ r.path.take 2 ≠ ['/', '/']) then
      '/' :: '/' :: (r.netloc ++ (if r.path ≠ [] ∧ r.path.take 1 ≠ ['/'] then '/' :: r.path else r.path))
    else r.path
  let u2 := if r.scheme ≠ [] then r.scheme ++ ':' :: u1 else u1
  let u3 := if r.query ≠ [] then u2 ++ '?' :: r.query else u2
  if r.fragment ≠ [] then u3 ++ '#' :: r.fragment else u3

/-- Split a list at the last occurrence of `sep`. -/
def splitLast (sep : Char) (l : Chars) : Option (Chars × Chars) :=
  match splitFirst sep l.reverse with
  | none => none
  | some (x, y) => some (y.reverse, x.reverse)

/-- Model of `_splitparams`: split params off the last path segment
(searching for `';'` from the position of the last `'/'`). -/
def splitparams (p : Chars) : Chars × Chars :=
  if p.contains '/' then
    match splitLast '/' p with
    | some (a, b) =>
      match splitFirst ';' b with
      | none => (p, [])
      | some (b1, b2) => (a ++ '/' :: b1, b2)
    | none => (p, [])
  else
    match splitFirst ';' p with
    | none => (p, [])
    | some (p1, p2) => (p1, p2)

/-- Result of `urlparse`: scheme, netloc, path, params, query, fragment. -/
structure ParseResult where
  scheme : Chars
  netloc : Chars
  path : Chars
  params : Chars
  query : Chars
  fragment : Chars
deriving DecidableEq

/-- Model of CPython 3.11.6 `urlparse(url, scheme, allow_fragments=True)`:
`urlsplit` followed by the params split (only for schemes in
`uses_params` and paths containing `';'`). -/
def urlparseCore (url0 scheme0 : Chars) : Except String ParseResult := do
  let r ← urlsplitCore url0 scheme0
  let pp := if r.scheme ∈ usesParams ∧ r.path.contains ';' then splitparams r.path else (r.path, [])
  .ok ⟨r.scheme, r.netloc, pp.1, pp.2, r.query, r.fragment⟩

/-- Model of `urlunparse` (used by `ParseResult.geturl()`): re-attach the
params to the last path segment and `urlunsplit`. -/
def urlunparse (r : ParseResult) : Chars :=
  urlunsplit ⟨r.scheme, r.netloc, (if r.params ≠ [] then r.path ++ ';' :: r.params else r.path), r.query, r.fragment⟩

/-- Resolution of `.` and `..` path segments in `urljoin` (the
`resolved_path` loop; `..` pops, ignoring the error on an empty stack). -/
def resolveSegs : List Chars → List Chars → List Chars
  | [], acc => acc
  | s :: rest, acc =>
    if s = ['.', '.'] then resolveSegs rest acc.dropLast
    else if s = ['.'] then resolveSegs rest acc
    else resolveSegs rest (acc ++ [s])

/-- Model of `s.split(sep)` (all occurrences; always non-empty). -/
def splitAllAux (sep : Char) : Chars → Chars → List Chars
  | [], acc => [acc.reverse]
  | c :: cs, acc => if c = sep then acc.reverse :: splitAllAux sep cs [] else splitAllAux sep cs (c :: acc)

/-- Model of `s.split(sep)`. -/
def splitAll (sep : Char) (l : Chars) : List Chars := splitAllAux sep l []

/-- Model of `segments[1:-1] = filter(None, segments[1:-1])`: drop empty
segments strictly between the first and the last. -/
def filterMiddle : List Chars → List Chars
  | [] => []
  | x :: xs =>
    match xs.getLast? with
    | none => [x]
    | some last => x :: (xs.dropLast.filter (fun s => !s.isEmpty)) ++ [last]

/-- Model of CPython 3.11.6 `urljoin(base, url)`. -/
def urljoinCore (base url : Chars) : Except String Chars :=
  if base = [] then .ok url
  else if url = [] then .ok base
  else
    match urlparseCore base [] with
    | .error e => .error e
    | .ok b =>
      match urlparseCore url b.scheme with
      | .error e => .error e
      | .ok r =>
        if r.scheme ≠ b.scheme ∨ r.scheme ∉ usesRelative then .ok url
        else if r.scheme ∈ usesNetloc ∧ r.netloc ≠ [] then .ok (urlunparse r)
        else
          let netloc := if r.scheme ∈ usesNetloc then b.netloc else r.netloc
          if r.path = [] ∧ r.params = [] then
            let query := if r.query = [] then b.query else r.query
            .ok (urlunparse ⟨r.scheme, netloc, b.path, b.params, query, r.fragment⟩)
          else
            let baseParts0 := splitAll '/' b.path
            let baseParts := if baseParts0.getLast? ≠ some [] then baseParts0.dropLast else baseParts0
            let segments :=
              if r.path.take 1 = ['/'] then splitAll '/' r.path
              else filterMiddle (baseParts ++ splitAll '/' r.path)
            let resolved0 := resolveSegs segments []
            let resolved :=
              if segments.getLast? = some ['.'] ∨ segments.getLast? = some ['.', '.'] then resolved0 ++ [[]]
              else resolved0
            let joined := List.intercalate ['/'] resolved
            let path := if joined = [] then ['/'] else joined
            .ok (urlunparse ⟨r.scheme, netloc, path, r.params, r.query, r.fragment⟩)

/-- Model of `sitedown.get_domain`: `urlparse(url).netloc`. -/
def get_domain (url : String) : Except String String := do
  let r ← urlparseCore url.data []
  .ok (String.mk r.netloc)

/-- Model of `sitedown.get_path`: `urlparse(url).path`. -/
def get_path (url : String) : Except String String := do
  let r ← urlparseCore url.data []
  .ok (String.mk r.path)

/-- Model of `sitedown.is_internal_link`: the parsed netloc is empty or
equal to `domain`. -/
def is_internal_link (link domain : String) : Except String Bool := do
  let r ← urlparseCore link.data []
  .ok (r.netloc.isEmpty || r.netloc == domain.data)

/-- Model of `sitedown.is_in_subpath`: always true when `start_path` is
`"/"`, otherwise `parsed_link_path.startswith(start_path)`. -/
def is_in_subpath (link start_path : String) : Except String Bool := do
  let r ← urlparseCore link.data []
  if start_path = "/" then .ok true
  else .ok (decide (start_path.data <+: r.path))

/-- Model of `sitedown.is_excluded`: the lower-cased parsed path contains
some lower-cased entry of `exclude_paths` as a substring. -/
def is_excluded (link : String) (exclude_paths : List String) : Except String Bool := do
  let r ← urlparseCore link.data []
  let p := lowerChars r.path
  .ok (exclude_paths.any (fun e => decide (lowerChars e.data <:+: p)))

/-- Model of the normalization idiom used at the top of both crawl loops
(`urlparse(current_url)._replace(fragment='').geturl()`). -/
def normalizeUrl (u : String) : Except String String := do
  let r ← urlparseCore u.data []
  .ok (String.mk (urlunparse { r with fragment := [] }))

/-- Model of the per-href processing shared by both loops (sitedown.py
lines 146-159): skip fragment-only hrefs, `urljoin` against the current
(normalized) URL, skip resolved links that still carry a fragment, and
otherwise yield `full_url`, the resolved link with the fragment field
cleared.  `.ok none` is a skip; `.error` models an uncaught `ValueError`. -/
def linkCandidate (base href : String) : Except String (Option String) :=
  match href.data with
  | '#' :: _ => .ok none
  | _ => do
    let link_url ← urljoinCore base.data href.data
    let parsed ← urlparseCore link_url []
    if parsed.fragment ≠ [] then .ok none
    else .ok (some (String.mk (urlunparse { parsed with fragment := [] })))

/-- External collaborators of the crawler: the HTTP transport (`None`
models a `requests` failure or non-2xx status), the link extractor
(BeautifulSoup `find_all("a", href=True)`) and the HTML-to-markdown
converter (`html2text`). -/
structure Collab where
  http : String → Option String
  extractLinks : String → List String
  htmlToText : String → String

/-- State of the `crawl_website` loop.  `fetched` records each invocation
of the HTTP collaborator (successful or not), in order. -/
structure CWState where
  to_visit : List String
  visited : List String
  pages_content : List (String × String)
  fetched : List String
deriving DecidableEq

/-- Python 3.7+ dict insertion: update in place if the key is present,
else append, preserving insertion order. -/
def dictSet (d : List (String × String)) (k v : String) : List (String × String) :=
  if d.any (fun p => p.1 == k) then d.map (fun p => if p.1 == k then (k, v) else p)
  else d ++ [(k, v)]

/-- The admission test of `crawl_website` (lines 161-164), with Python's
short-circuit evaluation order: `is_internal_link and full_url not in
visited and is_in_subpath and not is_excluded`. -/
def admitLink (domain start_path : String) (exclude : List String) (visited : List String)
    (full : String) : Except String Bool := do
  let internal ← is_internal_link full domain
  if internal then
    if full ∈ visited then .ok false
    else do
      let sub ← is_in_subpath full start_path
      if sub then do
        let ex ← is_excluded full exclude
        .ok (!ex)
      else .ok false
  else .ok false

/-- The link-extraction loop of `crawl_website` (lines 145-165): process
each href in order, appending admitted candidates to `to_visit`. -/
def pushLinks (domain start_path : String) (exclude : List String) (visited : List String)
    (base : String) : List String → List String → Except String (List String)
  | [], to_visit => .ok to_visit
  | href :: rest, to_visit => do
    let cand ← linkCandidate base href
    match cand with
    | none => pushLinks domain start_path exclude visited base rest to_visit
    | some full => do
      let adm ← admitLink domain start_path exclude visited full
      pushLinks domain start_path exclude visited base rest (if adm then to_visit ++ [full] else to_visit)

/-- Model of `to_visit.pop()`: Python list pop removes the last element. -/
def popLast (l : List String) : Option (String × List String) :=
  match l.getLast? with
  | none => none
  | some u => some (u, l.dropLast)

/-- One iteration of the `crawl_website` while-loop (lines 119-165). -/
def crawlStep (domain start_path : String) (exclude : List String) (C : Collab)
    (s : CWState) : Except String CWState :=
  match popLast s.to_visit with
  | none => .ok s
  | some (current, rest) => do
    let normalized ← normalizeUrl current
    if normalized ∈ s.visited then .ok { s with to_visit := rest }
    else
      let visited' := normalized :: s.visited
      match C.http normalized with
      | none =>
        .ok { to_visit := rest, visited := visited', pages_content := s.pages_content,
              fetched := s.fetched ++ [normalized] }
      | some body => do
        let pages' := dictSet s.pages_content normalized (C.htmlToText body)
        let tv ← pushLinks domain start_path exclude visited' normalized (C.extractLinks body) rest
        .ok { to_visit := tv, visited := visited', pages_content := pages',
              fetched := s.fetched ++ [normalized] }

/-- The `crawl_website` while-loop, fuel-bounded: stops with the current
state when `to_visit` is empty. -/
def runCW (domain start_path : String) (exclude : List String) (C : Collab) :
    Nat → CWState → Except String CWState
  | 0, s => .ok s
  | n + 1, s =>
    if s.to_visit = [] then .ok s
    else do
      let s' ← crawlStep domain start_path exclude C s
      runCW domain start_path exclude C n s'

/-- Initial state of `crawl_website`: the Frontier is seeded with the raw
start URL (line 113: `to_visit = [start_url]`). -/
def initCW (start_url : String) : CWState := ⟨[start_url], [], [], []⟩

/-- Model of `sitedown.crawl_website(start_url, exclude_paths)`. -/
def crawl_website (fuel : Nat) (start_url : String) (exclude_paths : List String)
    (C : Collab) : Except String CWState := do
  let domain ← get_domain start_url
  let start_path ← get_path start_url
  runCW domain start_path exclude_paths C fuel (initCW start_url)

/-- State of the `list_paths` loop. -/
structure LPState where
  to_visit : List String
  visited : List String
  urls_found : List String
  fetched : List String
deriving DecidableEq

/-- The link-extraction loop of `list_paths` (lines 80-100): every
resolved, fragment-free link is recorded in `urls_found`; admission to
`to_visit` tests only `is_internal_link`, membership in `visited` and
`is_in_subpath` (no exclusion test in this mode). -/
def pushLinksLP (domain start_path : String) (visited : List String) (base : String) :
    List String → List String → List String → Except String (List String × List String)
  | [], to_visit, urls_found => .ok (to_visit, urls_found)
  | href :: rest, to_visit, urls_found => do
    let cand ← linkCandidate base href
    match cand with
    | none => pushLinksLP domain start_path visited base rest to_visit urls_found
    | some full => do
      let urls' := urls_found ++ [full]
      let internal ← is_internal_link full domain
      if internal ∧ full ∉ visited then do
        let sub ← is_in_subpath full start_path
        pushLinksLP domain start_path visited base rest (if sub then to_visit ++ [full] else to_visit) urls'
      else pushLinksLP domain start_path visited base rest to_visit urls'

/-- One iteration of the `list_paths` while-loop (lines 56-100).  The
ghost `fetched` trace records each invocation of the HTTP collaborator
(successful or not), in order, exactly as in `CWState`. -/
def listPathsStep (domain start_path : String) (C : Collab) (s : LPState) :
    Except String LPState :=
  match popLast s.to_visit with
  | none => .ok s
  | some (current, rest) => do
    let normalized ← normalizeUrl current
    if normalized ∈ s.visited then .ok { s with to_visit := rest }
    else
      let visited' := normalized :: s.visited
      match C.http normalized with
      | none => .ok { to_visit := rest, visited := visited', urls_found := s.urls_found,
                      fetched := s.fetched ++ [normalized] }
      | some body => do
        let urls1 := s.urls_found ++ [normalized]
        let r ← pushLinksLP domain start_path visited' normalized (C.extractLinks body) rest urls1
        .ok { to_visit := r.1, visited := visited', urls_found := r.2,
              fetched := s.fetched ++ [normalized] }

/-- The path-with-params reconstruction performed by `urlunparse`. -/
def rejoinedPath (p : ParseResult) : Chars :=
  if p.params ≠ [] then p.path ++ ';' :: p.params else p.path

/-- The slash prepended by `urlunsplit` before a non-absolute path when a
netloc is emitted. -/
def prepSlash (l : Chars) : Chars :=
  if l ≠ [] ∧ l.take 1 ≠ ['/'] then '/' :: l else l

/-- The params round trip performed by `urlparse` followed by
`urlunparse`: split params off the last segment and re-attach them. -/
def canonPath (x : Chars) : Chars :=
  if x.contains ';' then
    (fun pr => if pr.2 ≠ [] then pr.1 ++ ';' :: pr.2 else pr.1) (splitparams x)
  else x

/-- The `list_paths` while-loop, fuel-bounded. -/
def runLP (domain start_path : String) (C : Collab) : Nat → LPState → Except String LPState
  | 0, s => .ok s
  | n + 1, s =>
    if s.to_visit = [] then .ok s
    else do
      let s' ← listPathsStep domain start_path C s
      runLP domain start_path C n s'

/-- Bookkeeping invariant of the `crawl_website` loop: the Visited Tracker
and the fetch trace are duplicate-free, every fetched URL was inserted in
the Visited Tracker (insertion happens before the fetch is attempted), and
every Page Record belongs to a URL whose fetch was invoked and succeeded. -/
def CrawlInv (C : Collab) (s : CWState) : Prop :=
  s.visited.Nodup ∧ s.fetched.Nodup ∧ (∀ u ∈ s.fetched, u ∈ s.visited) ∧
  (∀ p ∈ s.pages_content, p.1 ∈ s.fetched ∧ C.http p.1 ≠ none)

/-- Bookkeeping invariant of the `list_paths` loop: the Visited Tracker
and the fetch trace are duplicate-free, and every fetched URL was
inserted in the Visited Tracker (insertion happens before the fetch is
attempted). -/
def ListPathsInv (s : LPState) : Prop :=
  s.visited.Nodup ∧ s.fetched.Nodup ∧ (∀ u ∈ s.fetched, u ∈ s.visited)

/-- Model of `sitedown.list_paths(start_url)` (note: no exclusion-list
parameter exists in this mode). -/
def list_paths (fuel : Nat) (start_url : String) (C : Collab) : Except String LPState := do
  let domain ← get_domain start_url
  let start_path ← get_path start_url
  runLP domain start_path C fuel ⟨[start_url], [], [], []⟩

/-- Scenario A of the specification: a single page at
`https://example.com/docs` linking to `/docs/a`, `/docs/b#section`,
`https://external.com/x` and `/other`; every other fetch fails. -/
def scenarioA : Collab :=
  { http := fun u => if u = "https://example.com/docs" then some "page" else none,
    extractLinks := fun _ => ["/docs/a", "/docs/b#section", "https://external.com/x", "/other"],
    htmlToText := fun b => b }

/-- A collaborator on which every fetch fails. -/
def failCollab : Collab :=
  { http := fun _ => none, extractLinks := fun _ => [], htmlToText := fun b => b }

/-- Frontier soundness for the termination argument: every Frontier entry
normalizes into the finite universe `U` of reachable normalized URLs. -/
def FrontierInU (U : List String) (s : CWState) : Prop :=
  ∀ v ∈ s.to_visit, ∀ w, normalizeUrl v = .ok w → w ∈ U

/-- Termination measure of the `crawl_website` loop: universe entries not
yet in the Visited Tracker, weighted by the per-page link bound, plus the
Frontier length. -/
def measureCW (U : List String) (L : Nat) (s : CWState) : Nat :=
  (U.filter (fun x => decide (x ∉ s.visited))).length * (L + 1) + s.to_visit.length

/-- Frontier soundness of the `list_paths` loop for the termination
argument: every Frontier entry normalizes into the universe `U`. -/
def FrontierInULP (U : List String) (s : LPState) : Prop :=
  ∀ v ∈ s.to_visit, ∀ w, normalizeUrl v = .ok w → w ∈ U

/-- Termination measure of the `list_paths` loop. -/
def measureLP (U : List String) (L : Nat) (s : LPState) : Nat :=
  (U.filter (fun x => decide (x ∉ s.visited))).length * (L + 1) + s.to_visit.length

/-- C1, counterexample.  Crawling `https://example.com/docs` over Scenario
A to exhaustion, `https://example.com/docs/b` is never admitted to the
Frontier: the final Visited Tracker and fetch trace contain only the start
URL and `/docs/a`, so the admissions were not "exactly `/docs/a` and
`/docs/b`" as claimed — the href `/docs/b#section` resolves to a link that
still carries a fragment and is skipped outright (line 155), not stripped
and admitted. -/
theorem scenarioA_docs_b_never_admitted :
    crawl_website 4 "https://example.com/docs" [] scenarioA =
      .ok ⟨[], ["https://example.com/docs/a", "https://example.com/docs"],
           [("https://example.com/docs", "page")],
           ["https://example.com/docs", "https://example.com/docs/a"]⟩ ∧
    "https://example.com/docs/b" ∉
      ["https://example.com/docs/a", "https://example.com/docs"] :=
  ⟨by rfl, by decide⟩

/-- C1, amended.  On Scenario A, the Frontier admissions from the page at
`https://example.com/docs` are exactly `https://example.com/docs/a`:
`/docs/b#section` is skipped because the resolved link still carries a
fragment, the external link is rejected by the domain predicate, and
`/other` by the subpath predicate. -/
theorem scenarioA_admissions :
    crawlStep "example.com" "/docs" [] scenarioA (initCW "https://example.com/docs") =
      .ok ⟨["https://example.com/docs/a"], ["https://example.com/docs"],
           [("https://example.com/docs", "page")], ["https://example.com/docs"]⟩ ∧
    get_domain "https://example.com/docs" = .ok "example.com" ∧
    get_path "https://example.com/docs" = .ok "/docs" ∧
    linkCandidate "https://example.com/docs" "/docs/b#section" = .ok none ∧
    is_internal_link "https://external.com/x" "example.com" = .ok false ∧
    is_in_subpath "https://example.com/other" "/docs" = .ok false :=
  ⟨by rfl, by rfl, by rfl, by rfl, by rfl, by rfl⟩

/-- C2, counterexample.  In enumerate mode (`list_paths`) the exclusion
predicate is never consulted (the function takes no exclusion list, and
`main` does not pass `args.exclude` to it): with Exclusion List
`["/docs/a"]`, the link `https://example.com/docs/a` satisfies
`is_excluded` and is nevertheless pushed onto the Frontier. -/
theorem enumerate_mode_pushes_excluded_link :
    is_excluded "https://example.com/docs/a" ["/docs/a"] = .ok true ∧
    listPathsStep "example.com" "/docs" scenarioA ⟨["https://example.com/docs"], [], [], []⟩ =
      .ok ⟨["https://example.com/docs/a"], ["https://example.com/docs"],
           ["https://example.com/docs", "https://example.com/docs/a",
            "https://external.com/x", "https://example.com/other"],
           ["https://example.com/docs"]⟩ ∧
    "https://example.com/docs/a" ∈ ["https://example.com/docs/a"] :=
  ⟨by rfl, by rfl, by decide⟩

/-- C6, counterexample.  The Frontier is seeded with the raw start URL
(line 113), so at crawl start it can hold a URL that is not normalized: a
fragment-carrying seed is stored as given, and a relative seed ends up in
the Visited Tracker as a non-absolute string. -/
theorem seed_not_normalized :
    (initCW "https://example.com/docs#top").to_visit = ["https://example.com/docs#top"] ∧
    normalizeUrl "https://example.com/docs#top" = .ok "https://example.com/docs" ∧
    ("https://example.com/docs#top" : String) ≠ "https://example.com/docs" ∧
    crawl_website 2 "docs/a" [] failCollab = .ok ⟨[], ["docs/a"], [], ["docs/a"]⟩ ∧
    get_domain "docs/a" = .ok "" :=
  ⟨by rfl, by rfl, by decide, by rfl, by rfl⟩

/-- C7, counterexample.  Normalization is not idempotent: when the parsed
netloc is empty and the path begins with `//`, re-parsing the normalized
string re-interprets part of the path as a netloc, so a second
normalization changes the string again. -/
theorem normalize_not_idempotent :
    normalizeUrl "http://////a" = .ok "http:////a" ∧
    normalizeUrl "http:////a" = .ok "http://a" ∧
    ("http://a" : String) ≠ "http:////a" :=
  ⟨by rfl, by rfl, by decide⟩

/-- Computation rule for `Except` bind on a success value. -/
theorem exbind_ok {α β : Type} (a : α) (f : α → Except String β) :
    (Except.ok a >>= f) = f a := rfl

/-- Computation rule for `Except` bind on an error value. -/
theorem exbind_error {α β : Type} (e : String) (f : α → Except String β) :
    ((Except.error e : Except String α) >>= f) = Except.error e := rfl

/-- C5.  The within-subpath predicate: under root path `"/"` (and equally
the empty root path, for which `startswith("")` is vacuously true) every
link whose parse succeeds is admitted; for any other root path, admission
is literal string-prefix matching on the parsed path, with no
path-segment-boundary awareness, so `/docs2` is admitted under `/doc`. -/
theorem is_in_subpath_spec :
    (∀ link p, get_path link = .ok p →
      is_in_subpath link "/" = .ok true ∧
      is_in_subpath link "" = .ok true ∧
      ∀ sp : String, sp ≠ "/" → is_in_subpath link sp = .ok (decide (sp.data <+: p.data)))
    ∧ is_in_subpath "https://example.com/docs2" "/doc" = .ok true := by
  constructor
  · intro link p h
    cases hr : urlparseCore link.data [] with
    | error e => simp [get_path, hr, exbind_error] at h
    | ok r =>
      simp only [get_path, hr, exbind_ok, Except.ok.injEq] at h
      cases h
      refine ⟨?_, ?_, ?_⟩
      · simp [is_in_subpath, hr, exbind_ok]
      · simp [is_in_subpath, hr, exbind_ok, List.nil_prefix]
      · intro sp hsp
        simp [is_in_subpath, hr, exbind_ok, hsp]
  · rfl

/-- Witness for `is_in_subpath_spec` at a concrete link and root path. -/
theorem is_in_subpath_spec_witness :
    is_in_subpath "https://example.com/docs/x" "/docs" =
      .ok (decide ("/docs".data <+: "/docs/x".data)) :=
  (is_in_subpath_spec.1 "https://example.com/docs/x" "/docs/x" (by rfl)).2.2 "/docs"
    (by decide)

/-- C10.  The start URL is seeded into the Frontier as-is (`initCW`) and,
once popped, is normalized and fetched without ever being run through the
Link Filter, whether the fetch succeeds or fails: no hypothesis below
mentions the domain, subpath or exclusion predicates, and in both fetch
outcomes the normalized seed enters the fetch trace and the Visited
Tracker — when the fetch succeeds, its Page Record is emitted and only
the links discovered on the page go through the filters. -/
theorem seed_fetched_unfiltered (domain start_path start v : String) (exclude : List String)
    (C : Collab) (h1 : normalizeUrl start = .ok v) :
    (C.http v = none →
      crawlStep domain start_path exclude C (initCW start) = .ok ⟨[], [v], [], [v]⟩) ∧
    (∀ body, C.http v = some body →
      ∀ tv, pushLinks domain start_path exclude [v] v (C.extractLinks body) [] = .ok tv →
        crawlStep domain start_path exclude C (initCW start) =
          .ok ⟨tv, [v], [(v, C.htmlToText body)], [v]⟩) := by
  constructor
  · intro h2
    simp [crawlStep, initCW, popLast, h1, h2, exbind_ok]
  · intro body h2 tv h3
    simp [crawlStep, initCW, popLast, h1, h2, h3, exbind_ok, dictSet]

/-- Witness for `seed_fetched_unfiltered`: a start URL whose path matches
the exclusion entry `"/docs"` is still fetched, in both outcomes — a
failing fetch (`failCollab`) and a successful one (`scenarioA`, whose page
links are then all rejected by the filters, `/docs/a` by that same
exclusion entry). -/
theorem seed_fetched_unfiltered_witness :
    is_excluded "https://example.com/docs" ["/docs"] = .ok true ∧
    crawlStep "example.com" "/docs" ["/docs"] failCollab (initCW "https://example.com/docs") =
      .ok ⟨[], ["https://example.com/docs"], [], ["https://example.com/docs"]⟩ ∧
    crawlStep "example.com" "/docs" ["/docs"] scenarioA (initCW "https://example.com/docs") =
      .ok ⟨[], ["https://example.com/docs"], [("https://example.com/docs", "page")],
           ["https://example.com/docs"]⟩ :=
  ⟨by rfl,
   (seed_fetched_unfiltered "example.com" "/docs" "https://example.com/docs"
      "https://example.com/docs" ["/docs"] failCollab (by rfl)).1 (by rfl),
   (seed_fetched_unfiltered "example.com" "/docs" "https://example.com/docs"
      "https://example.com/docs" ["/docs"] scenarioA (by rfl)).2 "page" (by rfl) [] (by rfl)⟩

/-- Any element of `l.dropLast` is an element of `l`. -/
theorem mem_of_mem_dropLast {α : Type} {u : α} {l : List α} (h : u ∈ l.dropLast) : u ∈ l :=
  (List.dropLast_sublist l).subset h

/-- Decomposition of a successful `popLast`. -/
theorem popLast_some {l rest : List String} {a : String}
    (h : popLast l = some (a, rest)) : l.getLast? = some a ∧ rest = l.dropLast := by
  unfold popLast at h
  cases hg : l.getLast? with
  | none => simp [hg] at h
  | some b => simp [hg] at h; exact ⟨by rw [h.1], h.2.symm⟩

/-- A link that passes the `crawl_website` admission test satisfies all
three filter predicates and is unvisited. -/
theorem admitLink_ok_true {domain sp : String} {exclude : List String}
    {visited : List String} {u : String}
    (h : admitLink domain sp exclude visited u = .ok true) :
    is_internal_link u domain = .ok true ∧ u ∉ visited ∧
      is_in_subpath u sp = .ok true ∧ is_excluded u exclude = .ok false := by
  unfold admitLink at h
  cases hi : is_internal_link u domain with
  | error e => simp [hi, exbind_error] at h
  | ok bi =>
    simp only [hi, exbind_ok] at h
    cases bi with
    | false => simp at h
    | true =>
      simp only [if_true] at h
      by_cases hv : u ∈ visited
      · simp [hv] at h
      · simp only [hv, if_false] at h
        cases hs : is_in_subpath u sp with
        | error e => simp [hs, exbind_error] at h
        | ok bs =>
          simp only [hs, exbind_ok] at h
          cases bs with
          | false => simp at h
          | true =>
            simp only [if_true] at h
            cases he : is_excluded u exclude with
            | error e => simp [he, exbind_error] at h
            | ok be =>
              simp only [he, exbind_ok, Except.ok.injEq] at h
              cases be with
              | false => exact ⟨rfl, hv, rfl, rfl⟩
              | true => simp at h

/-- Every URL present after the link-extraction loop of `crawl_website`
was either already in the Frontier or passed the admission test. -/
theorem pushLinks_mem {domain sp base : String} {exclude : List String}
    {visited : List String} :
    ∀ (hrefs : List String) (tv tv' : List String),
      pushLinks domain sp exclude visited base hrefs tv = .ok tv' →
      ∀ u ∈ tv', u ∈ tv ∨ admitLink domain sp exclude visited u = .ok true := by
  intro hrefs
  induction hrefs with
  | nil =>
    intro tv tv' h u hu
    simp only [pushLinks, Except.ok.injEq] at h
    subst h
    exact Or.inl hu
  | cons href rest ih =>
    intro tv tv' h u hu
    simp only [pushLinks] at h
    cases hc : linkCandidate base href with
    | error e => simp [hc, exbind_error] at h
    | ok cand =>
      simp only [hc, exbind_ok] at h
      cases cand with
      | none => exact ih tv tv' h u hu
      | some full =>
        cases ha : admitLink domain sp exclude visited full with
        | error e => simp [ha, exbind_error] at h
        | ok adm =>
          simp only [ha, exbind_ok] at h
          cases adm with
          | false =>
            simp only [if_false, Bool.false_eq_true, if_neg] at h
            exact ih _ tv' (by simpa using h) u hu
          | true =>
            simp only [if_true] at h
            rcases ih _ tv' (by simpa using h) u hu with h1 | h1
            · rcases List.mem_append.mp h1 with h2 | h2
              · exact Or.inl h2
              · right
                rcases List.mem_singleton.mp h2 with rfl
                exact ha
            · exact Or.inr h1

/-- C2, amended.  In fetch mode every URL newly admitted to the Frontier
by a step passes all three Link Filter predicates (same-domain,
within-subpath, not-excluded) and is absent from the Visited Tracker at
admission time; in enumerate mode the exclusion predicate is not consulted
(see the counterexample). -/
theorem crawl_admission_requires_filters (domain sp : String) (exclude : List String)
    (C : Collab) (s s' : CWState) (h : crawlStep domain sp exclude C s = .ok s')
    (u : String) (hu : u ∈ s'.to_visit) :
    u ∈ s.to_visit ∨
      (is_internal_link u domain = .ok true ∧ u ∉ s'.visited ∧
       is_in_subpath u sp = .ok true ∧ is_excluded u exclude = .ok false) := by
  unfold crawlStep at h
  cases hp : popLast s.to_visit with
  | none => simp only [hp, Except.ok.injEq] at h; subst h; exact Or.inl hu
  | some pr =>
    obtain ⟨cur, rest⟩ := pr
    simp only [hp] at h
    cases hn : normalizeUrl cur with
    | error e => simp [hn, exbind_error] at h
    | ok v =>
      simp only [hn, exbind_ok] at h
      by_cases hv : v ∈ s.visited
      · simp only [hv, if_true, Except.ok.injEq] at h
        subst h
        exact Or.inl (mem_of_mem_dropLast ((popLast_some hp).2 ▸ hu))
      · simp only [hv, if_false] at h
        cases hh : C.http v with
        | none =>
          simp only [hh, Except.ok.injEq] at h
          subst h
          exact Or.inl (mem_of_mem_dropLast ((popLast_some hp).2 ▸ hu))
        | some body =>
          simp only [hh] at h
          cases ht : pushLinks domain sp exclude (v :: s.visited) v (C.extractLinks body) rest with
          | error e => simp [ht, exbind_error] at h
          | ok tv =>
            simp only [ht, exbind_ok, Except.ok.injEq] at h
            subst h
            rcases pushLinks_mem (C.extractLinks body) rest tv ht u hu with h1 | h1
            · exact Or.inl (mem_of_mem_dropLast ((popLast_some hp).2 ▸ h1))
            · exact Or.inr (admitLink_ok_true h1)

/-- Witness for `crawl_admission_requires_filters`: the admitted link of
Scenario A indeed satisfies the three predicates. -/
theorem crawl_admission_requires_filters_witness :
    "https://example.com/docs/a" ∈ (initCW "https://example.com/docs").to_visit ∨
      (is_internal_link "https://example.com/docs/a" "example.com" = .ok true ∧
       "https://example.com/docs/a" ∉ ["https://example.com/docs"] ∧
       is_in_subpath "https://example.com/docs/a" "/docs" = .ok true ∧
       is_excluded "https://example.com/docs/a" [] = .ok false) :=
  crawl_admission_requires_filters "example.com" "/docs" [] scenarioA
    (initCW "https://example.com/docs")
    ⟨["https://example.com/docs/a"], ["https://example.com/docs"],
     [("https://example.com/docs", "page")], ["https://example.com/docs"]⟩
    (by rfl) "https://example.com/docs/a" (by decide)

/-- Membership in the result of a `dictSet` insertion. -/
theorem mem_dictSet {d : List (String × String)} {k v : String} {p : String × String}
    (h : p ∈ dictSet d k v) : p ∈ d ∨ p = (k, v) := by
  unfold dictSet at h
  by_cases ha : d.any (fun q => q.1 == k)
  · simp only [ha, if_true] at h
    rcases List.mem_map.mp h with ⟨q, hq, hfq⟩
    by_cases hk : q.1 == k
    · simp only [hk, if_true] at hfq
      exact Or.inr hfq.symm
    · simp only [hk] at hfq
      simp only [Bool.false_eq_true, if_false] at hfq
      exact Or.inl (hfq ▸ hq)
  · simp only [ha, if_false] at h
    rcases List.mem_append.mp h with h1 | h1
    · exact Or.inl h1
    · exact Or.inr (List.mem_singleton.mp h1)

/-- One step of `crawl_website` preserves the bookkeeping invariant. -/
theorem crawlStep_inv {domain sp : String} {exclude : List String} {C : Collab}
    {s s' : CWState} (h : crawlStep domain sp exclude C s = .ok s')
    (hi : CrawlInv C s) : CrawlInv C s' := by
  obtain ⟨h1, h2, h3, h4⟩ := hi
  unfold crawlStep at h
  cases hp : popLast s.to_visit with
  | none => simp only [hp, Except.ok.injEq] at h; subst h; exact ⟨h1, h2, h3, h4⟩
  | some pr =>
    obtain ⟨cur, rest⟩ := pr
    simp only [hp] at h
    cases hn : normalizeUrl cur with
    | error e => simp [hn, exbind_error] at h
    | ok v =>
      simp only [hn, exbind_ok] at h
      by_cases hv : v ∈ s.visited
      · simp only [hv, if_true, Except.ok.injEq] at h
        subst h
        exact ⟨h1, h2, h3, h4⟩
      · simp only [hv, if_false] at h
        have hvn : (v :: s.visited).Nodup := List.nodup_cons.mpr ⟨hv, h1⟩
        have hfn : (s.fetched ++ [v]).Nodup := by
          refine List.Nodup.append h2 (List.nodup_singleton v) ?_
          intro a ha hb
          rcases List.mem_singleton.mp hb with rfl
          exact hv (h3 a ha)
        have hsub : ∀ u ∈ s.fetched ++ [v], u ∈ v :: s.visited := by
          intro u hu
          rcases List.mem_append.mp hu with h5 | h5
          · exact List.mem_cons_of_mem v (h3 u h5)
          · rw [List.mem_singleton.mp h5]
            exact List.mem_cons_self v s.visited
        cases hh : C.http v with
        | none =>
          simp only [hh, Except.ok.injEq] at h
          subst h
          refine ⟨hvn, hfn, hsub, ?_⟩
          intro p hpc
          exact ⟨List.mem_append_left _ (h4 p hpc).1, (h4 p hpc).2⟩
        | some body =>
          simp only [hh] at h
          cases ht : pushLinks domain sp exclude (v :: s.visited) v (C.extractLinks body) rest with
          | error e => simp [ht, exbind_error] at h
          | ok tv =>
            simp only [ht, exbind_ok, Except.ok.injEq] at h
            subst h
            refine ⟨hvn, hfn, hsub, ?_⟩
            intro p hpc
            rcases mem_dictSet hpc with h5 | h5
            · exact ⟨List.mem_append_left _ (h4 p h5).1, (h4 p h5).2⟩
            · subst h5
              refine ⟨List.mem_append_right _ (List.mem_singleton_self v), ?_⟩
              simp [hh]

/-- The whole `crawl_website` loop preserves the bookkeeping invariant. -/
theorem runCW_inv {domain sp : String} {exclude : List String} {C : Collab} :
    ∀ (fuel : Nat) (s s' : CWState), runCW domain sp exclude C fuel s = .ok s' →
      CrawlInv C s → CrawlInv C s' := by
  intro fuel
  induction fuel with
  | zero => intro s s' h hi; simp only [runCW, Except.ok.injEq] at h; subst h; exact hi
  | succ n ih =>
    intro s s' h hi
    simp only [runCW] at h
    by_cases he : s.to_visit = []
    · simp only [he, if_true, Except.ok.injEq] at h; subst h; exact hi
    · simp only [he, if_false] at h
      cases hs : crawlStep domain sp exclude C s with
      | error e => simp [hs, exbind_error] at h
      | ok s1 =>
        simp only [hs, exbind_ok] at h
        exact ih s1 s' h (crawlStep_inv hs hi)

/-- A completed `crawl_website` run satisfies the bookkeeping invariant. -/
theorem crawl_website_inv {fuel : Nat} {start : String} {exclude : List String}
    {C : Collab} {s' : CWState} (h : crawl_website fuel start exclude C = .ok s') :
    CrawlInv C s' := by
  unfold crawl_website at h
  cases hd : get_domain start with
  | error e => simp [hd, exbind_error] at h
  | ok d =>
    simp only [hd, exbind_ok] at h
    cases hp : get_path start with
    | error e => simp [hp, exbind_error] at h
    | ok p =>
      simp only [hp, exbind_ok] at h
      refine runCW_inv fuel _ s' h ?_
      refine ⟨List.nodup_nil, List.nodup_nil, ?_, ?_⟩ <;> intro u hu <;> simp [initCW] at hu

/-- One `list_paths` step preserves the bookkeeping invariant. -/
theorem listPathsStep_inv {domain sp : String} {C : Collab} {s s' : LPState}
    (h : listPathsStep domain sp C s = .ok s') (hi : ListPathsInv s) : ListPathsInv s' := by
  obtain ⟨h1, h2, h3⟩ := hi
  unfold listPathsStep at h
  cases hp : popLast s.to_visit with
  | none => simp only [hp, Except.ok.injEq] at h; subst h; exact ⟨h1, h2, h3⟩
  | some pr =>
    obtain ⟨cur, rest⟩ := pr
    simp only [hp] at h
    cases hn : normalizeUrl cur with
    | error e => simp [hn, exbind_error] at h
    | ok v =>
      simp only [hn, exbind_ok] at h
      by_cases hv : v ∈ s.visited
      · simp only [hv, if_true, Except.ok.injEq] at h
        subst h
        exact ⟨h1, h2, h3⟩
      · simp only [hv, if_false] at h
        have hvn : (v :: s.visited).Nodup := List.nodup_cons.mpr ⟨hv, h1⟩
        have hfn : (s.fetched ++ [v]).Nodup := by
          refine List.Nodup.append h2 (List.nodup_singleton v) ?_
          intro a ha hb
          rcases List.mem_singleton.mp hb with rfl
          exact hv (h3 a ha)
        have hsub : ∀ u ∈ s.fetched ++ [v], u ∈ v :: s.visited := by
          intro u hu
          rcases List.mem_append.mp hu with h5 | h5
          · exact List.mem_cons_of_mem v (h3 u h5)
          · rw [List.mem_singleton.mp h5]
            exact List.mem_cons_self v s.visited
        cases hh : C.http v with
        | none =>
          simp only [hh, Except.ok.injEq] at h
          subst h
          exact ⟨hvn, hfn, hsub⟩
        | some body =>
          simp only [hh] at h
          cases ht : pushLinksLP domain sp (v :: s.visited) v (C.extractLinks body) rest
              (s.urls_found ++ [v]) with
          | error e => simp [ht, exbind_error] at h
          | ok r =>
            simp only [ht, exbind_ok, Except.ok.injEq] at h
            subst h
            exact ⟨hvn, hfn, hsub⟩

/-- The whole `list_paths` loop preserves the bookkeeping invariant. -/
theorem runLP_inv {domain sp : String} {C : Collab} :
    ∀ (fuel : Nat) (s s' : LPState), runLP domain sp C fuel s = .ok s' →
      ListPathsInv s → ListPathsInv s' := by
  intro fuel
  induction fuel with
  | zero => intro s s' h hi; simp only [runLP, Except.ok.injEq] at h; subst h; exact hi
  | succ n ih =>
    intro s s' h hi
    simp only [runLP] at h
    by_cases he : s.to_visit = []
    · simp only [he, if_true, Except.ok.injEq] at h; subst h; exact hi
    · simp only [he, if_false] at h
      cases hs : listPathsStep domain sp C s with
      | error e => simp [hs, exbind_error] at h
      | ok s1 =>
        simp only [hs, exbind_ok] at h
        exact ih s1 s' h (listPathsStep_inv hs hi)

/-- A completed `list_paths` run satisfies the bookkeeping invariant. -/
theorem list_paths_inv {fuel : Nat} {start : String} {C : Collab} {t' : LPState}
    (h : list_paths fuel start C = .ok t') : ListPathsInv t' := by
  unfold list_paths at h
  cases hd : get_domain start with
  | error e => simp [hd, exbind_error] at h
  | ok d =>
    simp only [hd, exbind_ok] at h
    cases hp : get_path start with
    | error e => simp [hp, exbind_error] at h
    | ok p =>
      simp only [hp, exbind_ok] at h
      refine runLP_inv fuel _ t' h ?_
      refine ⟨List.nodup_nil, List.nodup_nil, ?_⟩
      intro u hu
      simp at hu

/-- C3.  In every completed run of either traversal mode, every
normalized URL appears at most once in the Visited Tracker, the HTTP
collaborator is invoked at most once per URL (the fetch trace is
duplicate-free, so a URL whose fetch failed is never fetched again), and
every fetched URL had been inserted into the Visited Tracker. -/
theorem at_most_once_visitation :
    (∀ (fuel : Nat) (start : String) (exclude : List String) (C : Collab) (s' : CWState),
      crawl_website fuel start exclude C = .ok s' →
      s'.visited.Nodup ∧ s'.fetched.Nodup ∧ ∀ u ∈ s'.fetched, u ∈ s'.visited) ∧
    (∀ (fuel : Nat) (start : String) (C : Collab) (t' : LPState),
      list_paths fuel start C = .ok t' →
      t'.visited.Nodup ∧ t'.fetched.Nodup ∧ ∀ u ∈ t'.fetched, u ∈ t'.visited) :=
  ⟨fun _ _ _ _ _ h =>
    ⟨(crawl_website_inv h).1, (crawl_website_inv h).2.1, (crawl_website_inv h).2.2.1⟩,
   fun _ _ _ _ h => list_paths_inv h⟩

/-- Witness for `at_most_once_visitation` on the completed Scenario A
runs of both modes. -/
theorem at_most_once_visitation_witness :
    ((["https://example.com/docs/a", "https://example.com/docs"] : List String).Nodup ∧
     (["https://example.com/docs", "https://example.com/docs/a"] : List String).Nodup ∧
     ∀ u ∈ ["https://example.com/docs", "https://example.com/docs/a"],
       u ∈ ["https://example.com/docs/a", "https://example.com/docs"]) ∧
    ((["https://example.com/docs/a", "https://example.com/docs"] : List String).Nodup ∧
     (["https://example.com/docs", "https://example.com/docs/a"] : List String).Nodup ∧
     ∀ u ∈ ["https://example.com/docs", "https://example.com/docs/a"],
       u ∈ ["https://example.com/docs/a", "https://example.com/docs"]) :=
  ⟨at_most_once_visitation.1 4 "https://example.com/docs" [] scenarioA
    ⟨[], ["https://example.com/docs/a", "https://example.com/docs"],
     [("https://example.com/docs", "page")],
     ["https://example.com/docs", "https://example.com/docs/a"]⟩ (by rfl),
   at_most_once_visitation.2 4 "https://example.com/docs" scenarioA
    ⟨[], ["https://example.com/docs/a", "https://example.com/docs"],
     ["https://example.com/docs", "https://example.com/docs/a",
      "https://external.com/x", "https://example.com/other"],
     ["https://example.com/docs", "https://example.com/docs/a"]⟩ (by rfl)⟩

/-- C8.  A failed fetch is non-fatal: the step returns normally with the
URL marked visited, no Page Record added, and traversal continuing on the
remaining Frontier; and in any completed run, a URL whose fetch fails is
fetched exactly once, stays in the Visited Tracker, and never owns a Page
Record. -/
theorem failed_fetch_skipped :
    (∀ (domain sp : String) (exclude : List String) (C : Collab) (s : CWState)
       (cur : String) (rest : List String) (v : String),
       popLast s.to_visit = some (cur, rest) → normalizeUrl cur = .ok v →
       v ∉ s.visited → C.http v = none →
       crawlStep domain sp exclude C s =
         .ok ⟨rest, v :: s.visited, s.pages_content, s.fetched ++ [v]⟩) ∧
    (∀ (fuel : Nat) (start : String) (exclude : List String) (C : Collab) (s' : CWState),
       crawl_website fuel start exclude C = .ok s' →
       ∀ u ∈ s'.fetched, C.http u = none →
         u ∈ s'.visited ∧ (∀ pr ∈ s'.pages_content, pr.1 ≠ u) ∧ s'.fetched.count u = 1) := by
  constructor
  · intro domain sp exclude C s cur rest v hp hn hv hh
    unfold crawlStep
    simp [hp, hn, exbind_ok, hv, hh]
  · intro fuel start exclude C s' h u hu hnone
    obtain ⟨h1, h2, h3, h4⟩ := crawl_website_inv h
    refine ⟨h3 u hu, ?_, List.count_eq_one_of_mem h2 hu⟩
    intro pr hpr heq
    exact (h4 pr hpr).2 (heq ▸ hnone)

/-- Witness for `failed_fetch_skipped`: a concrete failing step and the
completed Scenario A run, in which the fetch of `/docs/a` fails. -/
theorem failed_fetch_skipped_witness :
    crawlStep "example.com" "/docs" [] failCollab ⟨["https://example.com/x"], [], [], []⟩ =
      .ok ⟨[], ["https://example.com/x"], [], ["https://example.com/x"]⟩ ∧
    ("https://example.com/docs/a" ∈ ["https://example.com/docs/a", "https://example.com/docs"] ∧
     (∀ pr ∈ [("https://example.com/docs", "page")], pr.1 ≠ "https://example.com/docs/a") ∧
     (["https://example.com/docs", "https://example.com/docs/a"] : List String).count
        "https://example.com/docs/a" = 1) :=
  ⟨failed_fetch_skipped.1 "example.com" "/docs" [] failCollab
      ⟨["https://example.com/x"], [], [], []⟩ "https://example.com/x" [] "https://example.com/x"
      (by rfl) (by rfl) (by decide) (by rfl),
   failed_fetch_skipped.2 4 "https://example.com/docs" [] scenarioA
      ⟨[], ["https://example.com/docs/a", "https://example.com/docs"],
       [("https://example.com/docs", "page")],
       ["https://example.com/docs", "https://example.com/docs/a"]⟩ (by rfl)
      "https://example.com/docs/a" (by decide) (by rfl)⟩

/-- Characterization of `splitFirst`: success splits at the first
occurrence of the separator. -/
theorem splitFirst_eq_some {sep : Char} :
    ∀ {l a b : Chars}, splitFirst sep l = some (a, b) → l = a ++ sep :: b ∧ sep ∉ a := by
  intro l
  induction l with
  | nil => intro a b h; simp [splitFirst] at h
  | cons c cs ih =>
    intro a b h
    by_cases hc : c = sep
    · subst hc
      simp only [splitFirst, if_true] at h
      obtain ⟨rfl, rfl⟩ := Prod.mk.injEq .. ▸ (Option.some.injEq _ _ ▸ h)
      exact ⟨rfl, List.not_mem_nil c⟩
    · simp only [splitFirst, hc, if_false] at h
      cases hr : splitFirst sep cs with
      | none => simp [hr] at h
      | some pr =>
        obtain ⟨a1, b1⟩ := pr
        simp only [hr, Option.map_some, Option.some.injEq, Prod.mk.injEq] at h
        obtain ⟨rfl, rfl⟩ := h
        obtain ⟨h1, h2⟩ := ih hr
        constructor
        · simp [h1]
        · intro hm
          rcases List.mem_cons.mp hm with h3 | h3
          · exact hc h3.symm
          · exact h2 h3

/-- `splitFirst` fails exactly when the separator does not occur. -/
theorem splitFirst_eq_none {sep : Char} :
    ∀ {l : Chars}, splitFirst sep l = none ↔ sep ∉ l := by
  intro l
  induction l with
  | nil => simp [splitFirst]
  | cons c cs ih =>
    by_cases hc : c = sep
    · subst hc
      simp [splitFirst]
    · rw [show splitFirst sep (c :: cs) = (splitFirst sep cs).map (fun p => (c :: p.1, p.2)) by
        simp [splitFirst, hc]]
      cases hr : splitFirst sep cs with
      | none =>
        have hcs : sep ∉ cs := ih.mp hr
        refine ⟨fun _ h => ?_, fun _ => rfl⟩
        rcases List.mem_cons.mp h with h1 | h1
        · exact hc h1.symm
        · exact hcs h1
      | some pr =>
        have h1 := (splitFirst_eq_some hr).1
        simp only [Option.map_some, List.mem_cons]
        constructor
        · intro h; exact absurd h (by simp)
        · intro h; exact absurd (Or.inr (by simp [h1])) h

/-- `splitFirst` on a list built around its first separator occurrence. -/
theorem splitFirst_append {sep : Char} :
    ∀ {a : Chars} (b : Chars), sep ∉ a → splitFirst sep (a ++ sep :: b) = some (a, b) := by
  intro a
  induction a with
  | nil => intro b _; simp [splitFirst]
  | cons c cs ih =>
    intro b hna
    have hc : ¬ c = sep := fun h => hna (h ▸ List.mem_cons_self c cs)
    have hcs : sep ∉ cs := fun h => hna (List.mem_cons_of_mem c h)
    rw [List.cons_append]
    show (if c = sep then some ([], cs ++ sep :: b) else
      (splitFirst sep (cs ++ sep :: b)).map (fun p => (c :: p.1, p.2))) = some (c :: cs, b)
    rw [if_neg hc, ih b hcs]
    rfl

/-- `takeWhile` ignores everything from an appended failing stopper on. -/
theorem takeWhile_append_stop {p : Char → Bool} {d : Char} (hd : p d = false) :
    ∀ (l m : Chars), (l ++ d :: m).takeWhile p = l.takeWhile p := by
  intro l m
  induction l with
  | nil => simp [List.takeWhile, hd]
  | cons c cs ih =>
    by_cases hc : p c
    · simp [List.takeWhile_cons, hc, ih]
    · simp [List.takeWhile_cons, hc]

/-- `dropWhile` keeps everything from an appended failing stopper on. -/
theorem dropWhile_append_stop {p : Char → Bool} {d : Char} (hd : p d = false) :
    ∀ (l m : Chars), (l ++ d :: m).dropWhile p = l.dropWhile p ++ d :: m := by
  intro l m
  induction l with
  | nil => simp [List.dropWhile, hd]
  | cons c cs ih =>
    by_cases hc : p c
    · simp [List.dropWhile_cons, hc, ih]
    · simp [List.dropWhile_cons, hc]

/-- `takeWhile` passes over a fully satisfying prefix. -/
theorem takeWhile_append_all {p : Char → Bool} :
    ∀ {l : Chars} (m : Chars), (∀ c ∈ l, p c = true) →
      (l ++ m).takeWhile p = l ++ m.takeWhile p := by
  intro l
  induction l with
  | nil => intro m _; simp
  | cons c cs ih =>
    intro m hall
    have hc : p c = true := hall c (List.mem_cons_self c cs)
    simp only [List.cons_append, List.takeWhile_cons, hc, if_true]
    rw [ih m (fun d hd => hall d (List.mem_cons_of_mem c hd))]

/-- `dropWhile` passes over a fully satisfying prefix. -/
theorem dropWhile_append_all {p : Char → Bool} :
    ∀ {l : Chars} (m : Chars), (∀ c ∈ l, p c = true) →
      (l ++ m).dropWhile p = m.dropWhile p := by
  intro l
  induction l with
  | nil => intro m _; simp
  | cons c cs ih =>
    intro m hall
    have hc : p c = true := hall c (List.mem_cons_self c cs)
    simp only [List.cons_append, List.dropWhile_cons, hc, if_true]
    exact ih m (fun d hd => hall d (List.mem_cons_of_mem c hd))

/-- Characterization of `splitLast`: success splits at the last
occurrence of the separator. -/
theorem splitLast_eq_some {sep : Char} {l a b : Chars}
    (h : splitLast sep l = some (a, b)) : l = a ++ sep :: b ∧ sep ∉ b := by
  unfold splitLast at h
  cases hr : splitFirst sep l.reverse with
  | none => simp [hr] at h
  | some pr =>
    obtain ⟨x, y⟩ := pr
    simp only [hr, Option.some.injEq, Prod.mk.injEq] at h
    obtain ⟨rfl, rfl⟩ := h
    obtain ⟨h1, h2⟩ := splitFirst_eq_some hr
    constructor
    · have := congrArg List.reverse h1
      simpa [List.reverse_append] using this
    · simpa using h2

/-- Construction of `splitLast` at the last occurrence. -/
theorem splitLast_append {sep : Char} (a : Chars) {b : Chars} (hb : sep ∉ b) :
    splitLast sep (a ++ sep :: b) = some (a, b) := by
  unfold splitLast
  have : (a ++ sep :: b).reverse = b.reverse ++ sep :: a.reverse := by
    simp [List.reverse_append]
  rw [this, splitFirst_append a.reverse (by simpa using hb)]
  simp

/-- `splitLast` fails exactly when the separator does not occur. -/
theorem splitLast_eq_none {sep : Char} {l : Chars} :
    splitLast sep l = none ↔ sep ∉ l := by
  unfold splitLast
  cases hr : splitFirst sep l.reverse with
  | none =>
    have := splitFirst_eq_none.mp hr
    simpa using fun h => this (by simpa using h)
  | some pr =>
    have h1 := (splitFirst_eq_some hr).1
    simp only []
    constructor
    · intro h; exact absurd h (by simp)
    · intro h
      exfalso
      exact h (by
        have : sep ∈ l.reverse := by simp [h1]
        simpa using this)

/-- Lower-casing maps into the lower-case letters or fixes its input. -/
theorem lowerChar_spec (c : Char) :
    lowerChar c ∈ ['a', 'b', 'c', 'd', 'e', 'f', 'g', 'h', 'i', 'j', 'k', 'l', 'm',
      'n', 'o', 'p', 'q', 'r', 's', 't', 'u', 'v', 'w', 'x', 'y', 'z'] ∨ lowerChar c = c := by
  unfold lowerChar
  split <;> first | exact Or.inl (by decide) | exact Or.inr rfl

/-- Lower-casing is idempotent. -/
theorem lowerChar_lowerChar (c : Char) : lowerChar (lowerChar c) = lowerChar c := by
  rcases lowerChar_spec c with hmem | h
  · revert hmem
    generalize lowerChar c = d
    intro hmem
    fin_cases hmem <;> rfl
  · rw [h]
    exact h

/-- Lower-casing preserves scheme characters. -/
theorem schemeChar_lowerChar {c : Char} (h : schemeChar c = true) :
    schemeChar (lowerChar c) = true := by
  unfold lowerChar
  split <;> first | rfl | exact h

/-- Lower-casing preserves ASCII alphabeticity. -/
theorem isAlpha_lowerChar {c : Char} (h : c.isAlpha = true) :
    (lowerChar c).isAlpha = true := by
  unfold lowerChar
  split <;> first | rfl | exact h

/-- Fixpoint of `removeUnsafe` on clean input. -/
theorem removeUnsafe_eq_self {l : Chars} (h : ∀ c ∈ l, unsafeByte c = false) :
    removeUnsafe l = l := by
  unfold removeUnsafe
  apply List.filter_eq_self.mpr
  intro c hc
  simp [h c hc]

/-- Members of `removeUnsafe` output. -/
theorem mem_removeUnsafe {c : Char} {l : Chars} (h : c ∈ removeUnsafe l) :
    c ∈ l ∧ unsafeByte c = false := by
  unfold removeUnsafe at h
  have := List.mem_filter.mp h
  exact ⟨this.1, by simpa using this.2⟩

/-- `fragSplit` on input without `'#'`. -/
theorem fragSplit_no_hash {l : Chars} (h : '#' ∉ l) : fragSplit l = (l, []) := by
  unfold fragSplit
  rw [splitFirst_eq_none.mpr h]

/-- `fragSplit` splits at the first `'#'`. -/
theorem fragSplit_eq {l a b : Chars} (h : fragSplit l = (a, b)) :
    ('#' ∉ a) ∧ (l = a ++ '#' :: b ∨ (l = a ∧ b = [])) := by
  unfold fragSplit at h
  cases hr : splitFirst '#' l with
  | none =>
    rw [hr] at h
    obtain ⟨rfl, rfl⟩ := Prod.mk.injEq .. ▸ h
    exact ⟨splitFirst_eq_none.mp hr, Or.inr ⟨rfl, rfl⟩⟩
  | some pr =>
    rw [hr] at h
    obtain ⟨x, y⟩ := pr
    obtain ⟨rfl, rfl⟩ := Prod.mk.injEq .. ▸ h
    obtain ⟨h1, h2⟩ := splitFirst_eq_some hr
    exact ⟨h2, Or.inl h1⟩

/-- `querySplit` on input without `'?'`. -/
theorem querySplit_no_query {l : Chars} (h : '?' ∉ l) : querySplit l = (l, []) := by
  unfold querySplit
  rw [splitFirst_eq_none.mpr h]

/-- `querySplit` splits at the first `'?'`. -/
theorem querySplit_eq {l a b : Chars} (h : querySplit l = (a, b)) :
    ('?' ∉ a) ∧ (l = a ++ '?' :: b ∨ (l = a ∧ b = [])) := by
  unfold querySplit at h
  cases hr : splitFirst '?' l with
  | none =>
    rw [hr] at h
    obtain ⟨rfl, rfl⟩ := Prod.mk.injEq .. ▸ h
    exact ⟨splitFirst_eq_none.mp hr, Or.inr ⟨rfl, rfl⟩⟩
  | some pr =>
    rw [hr] at h
    obtain ⟨x, y⟩ := pr
    obtain ⟨rfl, rfl⟩ := Prod.mk.injEq .. ▸ h
    obtain ⟨h1, h2⟩ := splitFirst_eq_some hr
    exact ⟨h2, Or.inl h1⟩

/-- `querySplit` on a construction around the first `'?'`. -/
theorem querySplit_append {a : Chars} (b : Chars) (h : '?' ∉ a) :
    querySplit (a ++ '?' :: b) = (a, b) := by
  unfold querySplit
  rw [splitFirst_append b h]

/-- `netSplit` on input not starting with `//`. -/
theorem netSplit_not_slash2 {l : Chars} (h : l.take 2 ≠ ['/', '/']) : netSplit l = ([], l) := by
  unfold netSplit
  split
  · exact absurd rfl h
  · rfl

/-- Inversion of a successful scheme detection. -/
theorem schemeSplit_eq_some {l sch rest : Chars} (h : schemeSplit l = some (sch, rest)) :
    ∃ c0 cs, l = (c0 :: cs) ++ ':' :: rest ∧ c0.isAlpha = true ∧
      (∀ c ∈ c0 :: cs, schemeChar c = true) ∧ sch = lowerChars (c0 :: cs) ∧
      ':' ∉ (c0 :: cs) := by
  unfold schemeSplit at h
  cases hr : splitFirst ':' l with
  | none => rw [hr] at h; exact absurd h (by simp)
  | some pr =>
    rw [hr] at h
    obtain ⟨pre, rest'⟩ := pr
    obtain ⟨h1, h2⟩ := splitFirst_eq_some hr
    cases pre with
    | nil => exact absurd h (by simp)
    | cons c0 cs =>
      simp only [] at h
      by_cases hcond : c0.isAlpha && (c0 :: cs).all schemeChar
      · rw [if_pos hcond] at h
        obtain ⟨rfl, rfl⟩ := Prod.mk.injEq .. ▸ (Option.some.injEq _ _ ▸ h)
        obtain ⟨ha, hall⟩ := Bool.and_eq_true_iff.mp hcond
        exact ⟨c0, cs, h1, ha, fun c hc => List.all_eq_true.mp hall c hc, rfl, h2⟩
      · rw [if_neg hcond] at h
        exact absurd h (by simp)

/-- Construction of a successful scheme detection. -/
theorem schemeSplit_build {c0 : Char} {cs : Chars} (rest : Chars)
    (ha : c0.isAlpha = true) (hall : ∀ c ∈ c0 :: cs, schemeChar c = true) :
    schemeSplit ((c0 :: cs) ++ ':' :: rest) = some (lowerChars (c0 :: cs), rest) := by
  have hnc : ':' ∉ c0 :: cs := by
    intro hc
    have := hall ':' hc
    simp [schemeChar] at this
  unfold schemeSplit
  rw [splitFirst_append rest hnc]
  simp only [if_pos (Bool.and_eq_true_iff.mpr ⟨ha, List.all_eq_true.mpr (fun c hc => hall c hc)⟩)]

/-- No scheme is detected when the input starts with a non-letter. -/
theorem schemeSplit_none_head {c : Char} {cs : Chars} (h : c.isAlpha = false) :
    schemeSplit (c :: cs) = none := by
  unfold schemeSplit
  cases hr : splitFirst ':' (c :: cs) with
  | none => rfl
  | some pr =>
    obtain ⟨pre, rest⟩ := pr
    obtain ⟨h1, h2⟩ := splitFirst_eq_some hr
    cases pre with
    | nil => rfl
    | cons d ds =>
      have hd : d = c := by
        have := congrArg (fun l => l.head?) h1
        simpa using this.symm
      subst hd
      simp [h]

/-- No scheme is detected on the empty input. -/
theorem schemeSplit_nil : schemeSplit [] = none := rfl

/-- Transfer of scheme non-detection across a replaced tail whose head is
neither a scheme character nor a colon. -/
theorem schemeSplit_none_transfer {x y yp : Chars}
    (hyp : yp = [] ∨ ∃ c cs, yp = c :: cs ∧ schemeChar c = false ∧ c ≠ ':')
    (h : schemeSplit (x ++ y) = none) : schemeSplit (x ++ yp) = none := by
  cases hx : splitFirst ':' x with
  | some pr =>
    obtain ⟨a, b⟩ := pr
    obtain ⟨h1, h2⟩ := splitFirst_eq_some hx
    subst h1
    have e1 : (a ++ ':' :: b) ++ y = a ++ ':' :: (b ++ y) := by simp
    have e2 : (a ++ ':' :: b) ++ yp = a ++ ':' :: (b ++ yp) := by simp
    unfold schemeSplit at h ⊢
    rw [e2, splitFirst_append (b ++ yp) h2]
    rw [e1, splitFirst_append (b ++ y) h2] at h
    cases a with
    | nil => rfl
    | cons c0 cs =>
      simp only [] at h ⊢
      by_cases hcond : c0.isAlpha && (c0 :: cs).all schemeChar
      · rw [if_pos hcond] at h; exact absurd h (by simp)
      · rw [if_neg hcond]
  | none =>
    have hnx : ':' ∉ x := splitFirst_eq_none.mp hx
    rcases hyp with rfl | ⟨c, cs, rfl, hsc, hcc⟩
    · rw [List.append_nil]
      unfold schemeSplit
      rw [hx]
    · cases hz : splitFirst ':' (x ++ c :: cs) with
      | none => unfold schemeSplit; rw [hz]
      | some pr =>
        obtain ⟨a, b⟩ := pr
        obtain ⟨h1, h2⟩ := splitFirst_eq_some hz
        have hca : c ∈ a := by
          rcases List.append_eq_append_iff.mp h1 with ⟨a', ha1, ha2⟩ | ⟨c', hc1, hc2⟩
          · cases a' with
            | nil =>
              exfalso
              rw [List.append_nil] at ha1
              have : c = ':' := by
                have := congrArg (fun l => l.head?) ha2
                simpa using this
              exact hcc this
            | cons d ds =>
              have hd : c = d := by
                have := congrArg (fun l => l.head?) ha2
                simpa using this
              subst ha1
              rw [hd]
              exact List.mem_append_right x (List.mem_cons_self d ds)
          · exfalso
            cases c' with
            | nil =>
              rw [List.append_nil] at hc1
              have : c = ':' := by
                have := congrArg (fun l => l.head?) hc2
                simpa using this.symm
              exact hcc this
            | cons d ds =>
              have hd : d = ':' := by
                have := congrArg (fun l => l.head?) hc2
                simpa using this.symm
              subst hd
              subst hc1
              exact hnx (List.mem_append_right a (List.mem_cons_self ':' ds))
        unfold schemeSplit
        rw [hz]
        cases a with
        | nil => rfl
        | cons a0 as =>
          simp only []
          have : (a0 :: as).all schemeChar = false := by
            apply List.all_eq_false.mpr
            exact ⟨c, hca, by simp [hsc]⟩
          rw [this]
          simp

/-- Elements of a `takeWhile` satisfy the predicate. -/
theorem mem_takeWhile_pred {p : Char → Bool} :
    ∀ {l : Chars} {c : Char}, c ∈ l.takeWhile p → p c = true := by
  intro l
  induction l with
  | nil => intro c h; simp [List.takeWhile] at h
  | cons d ds ih =>
    intro c h
    by_cases hd : p d
    · rw [List.takeWhile_cons, if_pos hd] at h
      rcases List.mem_cons.mp h with rfl | h1
      · exact hd
      · exact ih h1
    · rw [List.takeWhile_cons, if_neg hd] at h
      exact absurd h (List.not_mem_nil c)

/-- Elements of a `takeWhile` are elements of the list. -/
theorem mem_of_mem_takeWhile {p : Char → Bool} {l : Chars} {c : Char}
    (h : c ∈ l.takeWhile p) : c ∈ l :=
  List.takeWhile_append_dropWhile (p := p) (l := l) ▸ List.mem_append_left _ h

/-- Elements of a `dropWhile` are elements of the list. -/
theorem mem_of_mem_dropWhile {p : Char → Bool} {l : Chars} {c : Char}
    (h : c ∈ l.dropWhile p) : c ∈ l :=
  List.takeWhile_append_dropWhile (p := p) (l := l) ▸ List.mem_append_right _ h

/-- The head of a `dropWhile` result fails the predicate. -/
theorem dropWhile_head_false {p : Char → Bool} :
    ∀ {l t : Chars} {c : Char}, l.dropWhile p = c :: t → p c = false := by
  intro l
  induction l with
  | nil => intro t c h; simp [List.dropWhile] at h
  | cons d ds ih =>
    intro t c h
    by_cases hd : p d
    · rw [List.dropWhile_cons, if_pos hd] at h
      exact ih h
    · rw [List.dropWhile_cons, if_neg hd] at h
      obtain ⟨rfl, _⟩ := List.cons.injEq .. ▸ h
      simpa using hd

/-- Shape of a list whose first two characters are `//`. -/
theorem take2_shape {l : Chars} (h : l.take 2 = ['/', '/']) :
    ∃ rest, l = '/' :: '/' :: rest := by
  match l with
  | [] => simp at h
  | [c] => simp at h
  | c1 :: c2 :: rest =>
    simp only [List.take, List.cons.injEq] at h
    obtain ⟨rfl, rfl, -⟩ := h
    exact ⟨rest, rfl⟩

/-- Inversion of a successful `urlsplit`: the components are the result of
the successive splits, and the bracket check passed. -/
theorem urlsplitCore_inv {u s0 : Chars} {r : SplitResult} (h : urlsplitCore u s0 = .ok r) :
    bracketMismatch (netSplit (schemeDefSplit (removeUnsafe u) (removeUnsafe s0)).2).1 = false ∧
    checknetlocError (netSplit (schemeDefSplit (removeUnsafe u) (removeUnsafe s0)).2).1 = false ∧
    r = ⟨(schemeDefSplit (removeUnsafe u) (removeUnsafe s0)).1,
         (netSplit (schemeDefSplit (removeUnsafe u) (removeUnsafe s0)).2).1,
         (querySplit (fragSplit (netSplit (schemeDefSplit (removeUnsafe u) (removeUnsafe s0)).2).2).1).1,
         (querySplit (fragSplit (netSplit (schemeDefSplit (removeUnsafe u) (removeUnsafe s0)).2).2).1).2,
         (fragSplit (netSplit (schemeDefSplit (removeUnsafe u) (removeUnsafe s0)).2).2).2⟩ := by
  simp only [urlsplitCore] at h
  split at h
  · exact absurd h (by simp)
  · next hb =>
    split at h
    · exact absurd h (by simp)
    · next hn =>
      refine ⟨by simpa using hb, by simpa using hn, ?_⟩
      injection h with h1
      exact h1.symm

/-- Construction of a successful `urlsplit` when the bracket and NFKC
checks pass. -/
theorem urlsplitCore_build {u s0 : Chars}
    (hb : bracketMismatch (netSplit (schemeDefSplit (removeUnsafe u) (removeUnsafe s0)).2).1 = false)
    (hn : checknetlocError (netSplit (schemeDefSplit (removeUnsafe u) (removeUnsafe s0)).2).1 = false) :
    urlsplitCore u s0 =
      .ok ⟨(schemeDefSplit (removeUnsafe u) (removeUnsafe s0)).1,
           (netSplit (schemeDefSplit (removeUnsafe u) (removeUnsafe s0)).2).1,
           (querySplit (fragSplit (netSplit (schemeDefSplit (removeUnsafe u) (removeUnsafe s0)).2).2).1).1,
           (querySplit (fragSplit (netSplit (schemeDefSplit (removeUnsafe u) (removeUnsafe s0)).2).2).1).2,
           (fragSplit (netSplit (schemeDefSplit (removeUnsafe u) (removeUnsafe s0)).2).2).2⟩ := by
  simp only [urlsplitCore]
  rw [if_neg (by simp [hb]), if_neg (by simp [hn])]

/-- `fragSplit` of a list starting with `'#'`. -/
theorem fragSplit_cons_hash (t : Chars) : fragSplit ('#' :: t) = ([], t) := by
  unfold fragSplit splitFirst
  simp

/-- The first component of `fragSplit` keeps a non-`'#'` head. -/
theorem fragSplit_cons_ne {c : Char} (t : Chars) (h : c ≠ '#') :
    ∃ t', (fragSplit (c :: t)).1 = c :: t' := by
  unfold fragSplit
  rw [show splitFirst '#' (c :: t) = (splitFirst '#' t).map (fun p => (c :: p.1, p.2)) by
    simp [splitFirst, h]]
  cases splitFirst '#' t with
  | none => exact ⟨t, rfl⟩
  | some pr => exact ⟨pr.1, rfl⟩

/-- `querySplit` of a list starting with `'?'`. -/
theorem querySplit_cons_query (t : Chars) : querySplit ('?' :: t) = ([], t) := by
  unfold querySplit splitFirst
  simp

/-- The first component of `querySplit` keeps a non-`'?'` head. -/
theorem querySplit_cons_ne {c : Char} (t : Chars) (h : c ≠ '?') :
    ∃ t', (querySplit (c :: t)).1 = c :: t' := by
  unfold querySplit
  rw [show splitFirst '?' (c :: t) = (splitFirst '?' t).map (fun p => (c :: p.1, p.2)) by
    simp [splitFirst, h]]
  cases splitFirst '?' t with
  | none => exact ⟨t, rfl⟩
  | some pr => exact ⟨pr.1, rfl⟩

/-- Decomposition of the input of the fragment/query splits around the
computed path: what follows the path is empty or starts with `'?'`/`'#'`. -/
theorem tail_decomp (url3 : Chars) :
    ∃ y, url3 = (querySplit (fragSplit url3).1).1 ++ y ∧
      (y = [] ∨ ∃ c cs, y = c :: cs ∧ (c = '?' ∨ c = '#')) := by
  rcases hpq : fragSplit url3 with ⟨pq, fg⟩
  rcases hqv : querySplit pq with ⟨pa, qv⟩
  obtain ⟨-, hf2⟩ := fragSplit_eq hpq
  obtain ⟨-, hq2⟩ := querySplit_eq hqv
  rcases hf2 with hf | ⟨hf, -⟩ <;> rcases hq2 with hqe | ⟨hqe, -⟩
  · exact ⟨'?' :: (qv ++ '#' :: fg), by rw [hf, hqe]; simp, Or.inr ⟨'?', _, rfl, Or.inl rfl⟩⟩
  · exact ⟨'#' :: fg, by rw [hf, hqe], Or.inr ⟨'#', _, rfl, Or.inr rfl⟩⟩
  · exact ⟨'?' :: qv, by rw [hf, hqe], Or.inr ⟨'?', _, rfl, Or.inl rfl⟩⟩
  · exact ⟨[], by rw [hf, hqe]; simp, Or.inl rfl⟩

/-- Wellformedness of the components produced by `urlsplit` with an empty
default scheme: the facts needed to re-parse its reconstruction. -/
theorem urlsplitCore_wf {u : Chars} {r : SplitResult} (h : urlsplitCore u [] = .ok r) :
    (r.scheme = [] ∨ ∃ c0 cs, r.scheme = c0 :: cs ∧ c0.isAlpha = true ∧
      (∀ c ∈ r.scheme, schemeChar c = true) ∧ lowerChars r.scheme = r.scheme) ∧
    (∀ c ∈ r.netloc, netlocDelim c = false ∧ unsafeByte c = false) ∧
    bracketMismatch r.netloc = false ∧
    checknetlocError r.netloc = false ∧
    '#' ∉ r.path ∧ '?' ∉ r.path ∧ (∀ c ∈ r.path, unsafeByte c = false) ∧
    '#' ∉ r.query ∧ (∀ c ∈ r.query, unsafeByte c = false) ∧
    (r.scheme = [] → r.netloc = [] →
      schemeSplit (r.path ++ (if r.query = [] then [] else '?' :: r.query)) = none) := by
  obtain ⟨hbr, hnf, hr⟩ := urlsplitCore_inv h
  rw [removeUnsafe_eq_self (l := ([] : Chars)) (by intro c hc; simp at hc)] at hbr hnf hr
  subst hr
  have F0 : ∀ c ∈ removeUnsafe u, unsafeByte c = false := fun c hc => (mem_removeUnsafe hc).2
  have F2 : ∀ c ∈ (schemeDefSplit (removeUnsafe u) []).2, unsafeByte c = false := by
    unfold schemeDefSplit
    cases hss : schemeSplit (removeUnsafe u) with
    | none => exact F0
    | some pr =>
      obtain ⟨sch, rest⟩ := pr
      obtain ⟨c0, cs, hu1, -, -, -, -⟩ := schemeSplit_eq_some hss
      intro c hc
      exact F0 c (hu1 ▸ List.mem_append_right _ (List.mem_cons_of_mem ':' hc))
  have FS : (schemeDefSplit (removeUnsafe u) []).1 = [] ∨
      ∃ c0 cs, (schemeDefSplit (removeUnsafe u) []).1 = c0 :: cs ∧ c0.isAlpha = true ∧
        (∀ c ∈ (schemeDefSplit (removeUnsafe u) []).1, schemeChar c = true) ∧
        lowerChars (schemeDefSplit (removeUnsafe u) []).1 =
          (schemeDefSplit (removeUnsafe u) []).1 := by
    unfold schemeDefSplit
    cases hss : schemeSplit (removeUnsafe u) with
    | none => exact Or.inl rfl
    | some pr =>
      obtain ⟨sch, rest⟩ := pr
      obtain ⟨c0, cs, hu1, ha, hall, hsch, -⟩ := schemeSplit_eq_some hss
      refine Or.inr ⟨lowerChar c0, lowerChars cs, ?_, isAlpha_lowerChar ha, ?_, ?_⟩
      · simp [hsch, lowerChars]
      · intro c hc
        simp only [hsch, lowerChars] at hc
        obtain ⟨d, hd, rfl⟩ := List.mem_map.mp hc
        exact schemeChar_lowerChar (hall d hd)
      · simp only [hsch, lowerChars, List.map_map]
        congr 1
        funext d
        exact lowerChar_lowerChar d
  -- netloc facts
  have FN : (∀ c ∈ (netSplit (schemeDefSplit (removeUnsafe u) []).2).1,
      netlocDelim c = false ∧ unsafeByte c = false) ∧
      (∀ c ∈ (netSplit (schemeDefSplit (removeUnsafe u) []).2).2, unsafeByte c = false) := by
    by_cases hsl : (schemeDefSplit (removeUnsafe u) []).2.take 2 = ['/', '/']
    · obtain ⟨rest2, hrest⟩ := take2_shape hsl
      rw [hrest]
      unfold netSplit
      constructor
      · intro c hc
        refine ⟨by simpa using mem_takeWhile_pred hc, ?_⟩
        exact F2 c (hrest ▸ List.mem_cons_of_mem _ (List.mem_cons_of_mem _
          (mem_of_mem_takeWhile hc)))
      · intro c hc
        exact F2 c (hrest ▸ List.mem_cons_of_mem _ (List.mem_cons_of_mem _
          (mem_of_mem_dropWhile hc)))
    · rw [netSplit_not_slash2 hsl]
      exact ⟨fun c hc => absurd hc (List.not_mem_nil c), F2⟩
  -- path/query facts from the tail splits
  obtain ⟨hpq1, hpq2⟩ := fragSplit_eq
    (l := (netSplit (schemeDefSplit (removeUnsafe u) []).2).2) Prod.mk.eta.symm
  obtain ⟨hq1, hq2⟩ := querySplit_eq
    (l := (fragSplit (netSplit (schemeDefSplit (removeUnsafe u) []).2).2).1) Prod.mk.eta.symm
  have hmem_pq : ∀ c ∈ (fragSplit (netSplit (schemeDefSplit (removeUnsafe u) []).2).2).1,
      c ∈ (netSplit (schemeDefSplit (removeUnsafe u) []).2).2 := by
    intro c hc
    rcases hpq2 with h5 | ⟨h5, -⟩
    · rw [h5]; exact List.mem_append_left _ hc
    · rw [h5]; exact hc
  have hmem_path : ∀ c ∈ (querySplit (fragSplit (netSplit (schemeDefSplit (removeUnsafe u) []).2).2).1).1,
      c ∈ (fragSplit (netSplit (schemeDefSplit (removeUnsafe u) []).2).2).1 := by
    intro c hc
    rcases hq2 with h5 | ⟨h5, -⟩
    · rw [h5]; exact List.mem_append_left _ hc
    · rw [h5]; exact hc
  have hmem_query : ∀ c ∈ (querySplit (fragSplit (netSplit (schemeDefSplit (removeUnsafe u) []).2).2).1).2,
      c ∈ (fragSplit (netSplit (schemeDefSplit (removeUnsafe u) []).2).2).1 := by
    intro c hc
    rcases hq2 with h5 | ⟨h5, h6⟩
    · rw [h5]; exact List.mem_append_right _ (List.mem_cons_of_mem '?' hc)
    · rw [h6] at hc; exact absurd hc (List.not_mem_nil c)
  refine ⟨FS, FN.1, hbr, hnf, ?_, hq1, ?_, ?_, ?_, ?_⟩
  · exact fun hc => hpq1 (hmem_path '#' hc)
  · exact fun c hc => FN.2 c (hmem_pq c (hmem_path c hc))
  · exact fun hc => hpq1 (hmem_query '#' hc)
  · exact fun c hc => FN.2 c (hmem_pq c (hmem_query c hc))
  · -- no false scheme when both scheme and netloc are empty
    simp only []
    intro hsch hnet
    have hss : schemeSplit (removeUnsafe u) = none := by
      cases hss : schemeSplit (removeUnsafe u) with
      | none => rfl
      | some pr =>
        exfalso
        obtain ⟨sch, rest⟩ := pr
        obtain ⟨c0, cs, -, -, -, hsch2, -⟩ := schemeSplit_eq_some hss
        have h9 : (schemeDefSplit (removeUnsafe u) []).1 = sch := by
          unfold schemeDefSplit
          rw [hss]
        rw [hsch] at h9
        rw [hsch2] at h9
        simp [lowerChars] at h9
    have hsp : schemeDefSplit (removeUnsafe u) [] = ([], removeUnsafe u) := by
      unfold schemeDefSplit
      rw [hss]
    have hyp : ∀ q : Chars, (if q = [] then ([] : Chars) else '?' :: q) = [] ∨
        ∃ c cs, (if q = [] then ([] : Chars) else '?' :: q) = c :: cs ∧
          schemeChar c = false ∧ c ≠ ':' := by
      intro q
      split
      · exact Or.inl rfl
      · exact Or.inr ⟨'?', q, rfl, by decide, by decide⟩
    by_cases hsl : (schemeDefSplit (removeUnsafe u) []).2.take 2 = ['/', '/']
    · -- netloc branch was taken but produced an empty netloc: the path
      -- starts with a delimiter (or is empty), so no scheme is detected
      obtain ⟨rest2, hrest⟩ := take2_shape hsl
      have hurl3 : (netSplit (schemeDefSplit (removeUnsafe u) []).2).2 =
          rest2.dropWhile (fun c => !netlocDelim c) := by
        rw [hrest]
        rfl
      cases hd : rest2.dropWhile (fun c => !netlocDelim c) with
      | nil =>
        have hpath : (querySplit (fragSplit (netSplit (schemeDefSplit (removeUnsafe u) []).2).2).1).1 = [] ∧
            (querySplit (fragSplit (netSplit (schemeDefSplit (removeUnsafe u) []).2).2).1).2 = [] := by
          rw [hurl3, hd]
          exact ⟨rfl, rfl⟩
        rw [hpath.1, hpath.2]
        exact schemeSplit_nil
      | cons d t =>
        have hdelim : netlocDelim d = true := by
          have := dropWhile_head_false hd
          simpa using this
        have hdc : d = '/' ∨ d = '?' ∨ d = '#' := by
          revert hdelim
          unfold netlocDelim
          intro hdelim
          rcases Bool.or_eq_true_iff.mp hdelim with h5 | h5
          · rcases Bool.or_eq_true_iff.mp h5 with h6 | h6
            · exact Or.inl (by simpa using h6)
            · exact Or.inr (Or.inl (by simpa using h6))
          · exact Or.inr (Or.inr (by simpa using h5))
        rw [hurl3, hd]
        rcases hdc with rfl | rfl | rfl
        · obtain ⟨t1, hpq⟩ := fragSplit_cons_ne (c := '/') t (by decide)
          rw [hpq]
          obtain ⟨t2, hpath⟩ := querySplit_cons_ne (c := '/') t1 (by decide)
          rw [hpath]
          exact schemeSplit_none_head (by decide)
        · obtain ⟨t1, hpq⟩ := fragSplit_cons_ne (c := '?') t (by decide)
          rw [hpq, querySplit_cons_query]
          simp only []
          split
          · exact schemeSplit_nil
          · exact schemeSplit_none_head (by decide)
        · rw [fragSplit_cons_hash]
          simp only [querySplit, splitFirst]
          exact schemeSplit_nil
    · -- no netloc branch: the whole remaining URL fails scheme detection
      have hurl3 : (netSplit (schemeDefSplit (removeUnsafe u) []).2).2 =
          removeUnsafe u := by
        rw [netSplit_not_slash2 hsl, hsp]
      obtain ⟨y, hy1, hy2⟩ := tail_decomp (removeUnsafe u)
      rw [hurl3]
      exact schemeSplit_none_transfer (y := y) (hyp _) (by rw [← hy1]; exact hss)

/-- Decomposition of `_splitparams`: either the split is exact, or no
params were found. -/
theorem splitparams_eq {p a b : Chars} (h : splitparams p = (a, b)) :
    (p = a ++ ';' :: b) ∨ (b = [] ∧ a = p) := by
  unfold splitparams at h
  by_cases hs : p.contains '/'
  · rw [if_pos hs] at h
    cases hl : splitLast '/' p with
    | none =>
      rw [hl] at h
      obtain ⟨rfl, rfl⟩ := Prod.mk.injEq .. ▸ h
      exact Or.inr ⟨rfl, rfl⟩
    | some pr =>
      obtain ⟨x, y⟩ := pr
      rw [hl] at h
      simp only [] at h
      obtain ⟨hdec, hny⟩ := splitLast_eq_some hl
      cases hf : splitFirst ';' y with
      | none =>
        rw [hf] at h
        obtain ⟨rfl, rfl⟩ := Prod.mk.injEq .. ▸ h
        exact Or.inr ⟨rfl, rfl⟩
      | some pr2 =>
        obtain ⟨y1, y2⟩ := pr2
        rw [hf] at h
        obtain ⟨rfl, rfl⟩ := Prod.mk.injEq .. ▸ h
        obtain ⟨hy, -⟩ := splitFirst_eq_some hf
        left
        rw [hdec, hy]
        simp
  · rw [if_neg hs] at h
    cases hf : splitFirst ';' p with
    | none =>
      rw [hf] at h
      obtain ⟨rfl, rfl⟩ := Prod.mk.injEq .. ▸ h
      exact Or.inr ⟨rfl, rfl⟩
    | some pr2 =>
      obtain ⟨y1, y2⟩ := pr2
      rw [hf] at h
      obtain ⟨rfl, rfl⟩ := Prod.mk.injEq .. ▸ h
      exact Or.inl (splitFirst_eq_some hf).1

/-- Relation between the `urlparse` components and the underlying
`urlsplit` components: the re-joined path-with-params is the split path,
possibly with a trailing `';'` dropped. -/
theorem urlparseCore_path_shape {u : Chars} {p : ParseResult}
    (h : urlparseCore u [] = .ok p) :
    ∃ r, urlsplitCore u [] = .ok r ∧ p.scheme = r.scheme ∧ p.netloc = r.netloc ∧
      p.query = r.query ∧ p.fragment = r.fragment ∧
      ((if p.params ≠ [] then p.path ++ ';' :: p.params else p.path) = r.path ∨
        r.path = (if p.params ≠ [] then p.path ++ ';' :: p.params else p.path) ++ [';']) := by
  unfold urlparseCore at h
  cases hr : urlsplitCore u [] with
  | error e => simp [hr, exbind_error] at h
  | ok r =>
    simp only [hr, exbind_ok, Except.ok.injEq] at h
    subst h
    refine ⟨r, rfl, rfl, rfl, rfl, rfl, ?_⟩
    by_cases hg : r.scheme ∈ usesParams ∧ r.path.contains ';'
    · show (if ((if r.scheme ∈ usesParams ∧ r.path.contains ';' then splitparams r.path
          else (r.path, [])).2 ≠ []) then _ ++ ';' :: _ else _) = r.path ∨ _
      rw [if_pos hg]
      rcases hsp : splitparams r.path with ⟨a, b⟩
      rcases splitparams_eq hsp with hdec | ⟨hb, ha⟩
      · by_cases hbe : b = []
        · subst hbe
          right
          show r.path = (if ([] : Chars) ≠ [] then a ++ ';' :: [] else a) ++ [';']
          rw [if_neg (by simp)]
          exact hdec
        · left
          show (if b ≠ [] then a ++ ';' :: b else a) = r.path
          rw [if_pos (by simpa using hbe)]
          exact hdec.symm
      · subst hb
        left
        show (if ([] : Chars) ≠ [] then a ++ ';' :: [] else a) = r.path
        rw [if_neg (by simp)]
        exact ha
    · show (if ((if r.scheme ∈ usesParams ∧ r.path.contains ';' then splitparams r.path
          else (r.path, [])).2 ≠ []) then _ ++ ';' :: _ else _) = r.path ∨ _
      rw [if_neg hg]
      left
      show (if ([] : Chars) ≠ [] then r.path ++ ';' :: [] else r.path) = r.path
      rw [if_neg (by simp)]

set_option maxHeartbeats 1000000 in
/-- Membership in the output of `urlunsplit` with an empty fragment:
every character comes from a component or is a separator other than `'#'`. -/
theorem mem_urlunsplit {s : SplitResult} {c : Char} (hf : s.fragment = [])
    (h : c ∈ urlunsplit s) :
    c ∈ s.scheme ∨ c ∈ s.netloc ∨ c ∈ s.path ∨ c ∈ s.query ∨
      c = '/' ∨ c = ':' ∨ c = '?' := by
  unfold urlunsplit at h
  rw [hf, if_neg (by simp)] at h
  split at h
  all_goals split at h
  all_goals (try split at h)
  all_goals (try split at h)
  all_goals (try simp only [List.mem_append, List.mem_cons, List.not_mem_nil,
    or_false, false_or] at h)
  all_goals tauto

/-- The fragment-stripped reconstruction of a parsed URL contains no
`'#'` character. -/
theorem unparse_no_hash {u : Chars} {p : ParseResult} (h : urlparseCore u [] = .ok p) :
    '#' ∉ urlunparse { p with fragment := [] } := by
  intro hc
  obtain ⟨r, hr, hs, hn, hq, -, hshape⟩ := urlparseCore_path_shape h
  obtain ⟨wfS, wfN, -, -, wfP1, -, -, wfQ1, -, -⟩ := urlsplitCore_wf hr
  have hc' : '#' ∈ urlunsplit ⟨p.scheme, p.netloc,
      (if p.params ≠ [] then p.path ++ ';' :: p.params else p.path), p.query, []⟩ := hc
  rcases mem_urlunsplit rfl hc' with h1 | h1 | h1 | h1 | h1 | h1 | h1
  · rw [hs] at h1
    rcases wfS with h2 | ⟨c0, cs, -, -, h2, -⟩
    · rw [h2] at h1
      exact absurd h1 (List.not_mem_nil _)
    · have := h2 '#' h1
      simp [schemeChar] at this
  · rw [hn] at h1
    have := (wfN '#' h1).1
    simp [netlocDelim] at this
  · rcases hshape with h2 | h2
    · exact wfP1 (h2 ▸ h1)
    · exact wfP1 (h2 ▸ List.mem_append_left _ h1)
  · rw [hq] at h1
    exact wfQ1 h1
  · exact absurd h1 (by decide)
  · exact absurd h1 (by decide)
  · exact absurd h1 (by decide)

/-- Normalized URLs contain no `'#'` character. -/
theorem normalizeUrl_no_hash {u v : String} (h : normalizeUrl u = .ok v) :
    '#' ∉ v.data := by
  unfold normalizeUrl at h
  cases hp : urlparseCore u.data [] with
  | error e => simp [hp, exbind_error] at h
  | ok p =>
    simp only [hp, exbind_ok, Except.ok.injEq] at h
    subst h
    exact unparse_no_hash hp

/-- Admissible link candidates contain no `'#'` character. -/
theorem linkCandidate_no_hash {base href full : String}
    (h : linkCandidate base href = .ok (some full)) : '#' ∉ full.data := by
  unfold linkCandidate at h
  split at h
  · simp at h
  · cases hj : urljoinCore base.data href.data with
    | error e => simp [hj, exbind_error] at h
    | ok lu =>
      simp only [hj, exbind_ok] at h
      cases hp : urlparseCore lu [] with
      | error e => simp [hp, exbind_error] at h
      | ok r =>
        simp only [hp, exbind_ok] at h
        split at h
        · simp at h
        · simp only [Except.ok.injEq, Option.some.injEq] at h
          subst h
          exact unparse_no_hash hp

/-- Every URL present after the link-extraction loop of `crawl_website`
was already in the Frontier or is the output of `linkCandidate`. -/
theorem pushLinks_mem_src {domain sp base : String} {exclude : List String}
    {visited : List String} :
    ∀ (hrefs : List String) (tv tv' : List String),
      pushLinks domain sp exclude visited base hrefs tv = .ok tv' →
      ∀ u ∈ tv', u ∈ tv ∨ ∃ href, linkCandidate base href = .ok (some u) := by
  intro hrefs
  induction hrefs with
  | nil =>
    intro tv tv' h u hu
    simp only [pushLinks, Except.ok.injEq] at h
    subst h
    exact Or.inl hu
  | cons href rest ih =>
    intro tv tv' h u hu
    simp only [pushLinks] at h
    cases hc : linkCandidate base href with
    | error e => simp [hc, exbind_error] at h
    | ok cand =>
      simp only [hc, exbind_ok] at h
      cases cand with
      | none => exact ih tv tv' h u hu
      | some full =>
        cases ha : admitLink domain sp exclude visited full with
        | error e => simp [ha, exbind_error] at h
        | ok adm =>
          simp only [ha, exbind_ok] at h
          cases adm with
          | false =>
            simp only [Bool.false_eq_true, if_neg] at h
            exact ih _ tv' (by simpa using h) u hu
          | true =>
            simp only [if_true] at h
            rcases ih _ tv' (by simpa using h) u hu with h1 | h1
            · rcases List.mem_append.mp h1 with h2 | h2
              · exact Or.inl h2
              · right
                rcases List.mem_singleton.mp h2 with rfl
                exact ⟨href, hc⟩
            · exact Or.inr h1

/-- One step of `crawl_website` preserves fragment-freeness of the
Visited Tracker and of every Frontier entry other than the seed. -/
theorem crawlStep_hash_inv {domain sp start : String} {exclude : List String} {C : Collab}
    {s s' : CWState} (h : crawlStep domain sp exclude C s = .ok s')
    (hv : ∀ u ∈ s.visited, '#' ∉ u.data)
    (ht : ∀ u ∈ s.to_visit, u = start ∨ '#' ∉ u.data) :
    (∀ u ∈ s'.visited, '#' ∉ u.data) ∧ (∀ u ∈ s'.to_visit, u = start ∨ '#' ∉ u.data) := by
  unfold crawlStep at h
  cases hp : popLast s.to_visit with
  | none =>
    simp only [hp, Except.ok.injEq] at h
    subst h
    exact ⟨hv, ht⟩
  | some pr =>
    obtain ⟨cur, rest⟩ := pr
    simp only [hp] at h
    cases hn : normalizeUrl cur with
    | error e => simp [hn, exbind_error] at h
    | ok v =>
      simp only [hn, exbind_ok] at h
      have hrest : ∀ u ∈ rest, u = start ∨ '#' ∉ u.data := by
        intro u hu
        exact ht u (mem_of_mem_dropLast ((popLast_some hp).2 ▸ hu))
      by_cases hvis : v ∈ s.visited
      · simp only [hvis, if_true, Except.ok.injEq] at h
        subst h
        exact ⟨hv, hrest⟩
      · simp only [hvis, if_false] at h
        have hv' : ∀ u ∈ v :: s.visited, '#' ∉ u.data := by
          intro u hu
          rcases List.mem_cons.mp hu with rfl | hu1
          · exact normalizeUrl_no_hash hn
          · exact hv u hu1
        cases hh : C.http v with
        | none =>
          simp only [hh, Except.ok.injEq] at h
          subst h
          exact ⟨hv', hrest⟩
        | some body =>
          simp only [hh] at h
          cases hpl : pushLinks domain sp exclude (v :: s.visited) v (C.extractLinks body) rest with
          | error e => simp [hpl, exbind_error] at h
          | ok tv =>
            simp only [hpl, exbind_ok, Except.ok.injEq] at h
            subst h
            refine ⟨hv', ?_⟩
            intro u hu
            rcases pushLinks_mem_src (C.extractLinks body) rest tv hpl u hu with h1 | ⟨href, h1⟩
            · exact hrest u h1
            · exact Or.inr (linkCandidate_no_hash h1)

/-- In every completed run of `crawl_website`, the Visited Tracker and
every Frontier entry other than the seed are fragment-free. -/
theorem crawl_fragment_free (fuel : Nat) (start : String) (exclude : List String)
    (C : Collab) (s' : CWState) (h : crawl_website fuel start exclude C = .ok s') :
    (∀ u ∈ s'.visited, '#' ∉ u.data) ∧ (∀ u ∈ s'.to_visit, u = start ∨ '#' ∉ u.data) := by
  unfold crawl_website at h
  cases hd : get_domain start with
  | error e => simp [hd, exbind_error] at h
  | ok d =>
    simp only [hd, exbind_ok] at h
    cases hp : get_path start with
    | error e => simp [hp, exbind_error] at h
    | ok pth =>
      simp only [hp, exbind_ok] at h
      have main : ∀ (n : Nat) (s0 s1 : CWState), runCW d pth exclude C n s0 = .ok s1 →
          (∀ u ∈ s0.visited, '#' ∉ u.data) → (∀ u ∈ s0.to_visit, u = start ∨ '#' ∉ u.data) →
          (∀ u ∈ s1.visited, '#' ∉ u.data) ∧ (∀ u ∈ s1.to_visit, u = start ∨ '#' ∉ u.data) := by
        intro n
        induction n with
        | zero =>
          intro s0 s1 hrun hv ht
          simp only [runCW, Except.ok.injEq] at hrun
          subst hrun
          exact ⟨hv, ht⟩
        | succ m ih =>
          intro s0 s1 hrun hv ht
          simp only [runCW] at hrun
          by_cases he : s0.to_visit = []
          · simp only [he, if_true, Except.ok.injEq] at hrun
            subst hrun
            exact ⟨hv, ht⟩
          · simp only [he, if_false] at hrun
            cases hs : crawlStep d pth exclude C s0 with
            | error e => simp [hs, exbind_error] at hrun
            | ok s2 =>
              simp only [hs, exbind_ok] at hrun
              obtain ⟨hv2, ht2⟩ := crawlStep_hash_inv hs hv ht
              exact ih s2 s1 hrun hv2 ht2
      refine main fuel _ s' h ?_ ?_
      · intro u hu; simp [initCW] at hu
      · intro u hu
        simp only [initCW, List.mem_singleton] at hu
        exact Or.inl hu

/-- Every Frontier entry produced by the `list_paths` link-extraction
loop either was already present or is a resolved candidate. -/
theorem pushLinksLP_mem_src {domain sp base : String} {visited : List String} :
    ∀ (hrefs : List String) (tv urls : List String) (r : List String × List String),
      pushLinksLP domain sp visited base hrefs tv urls = .ok r →
      ∀ u ∈ r.1, u ∈ tv ∨ ∃ href, linkCandidate base href = .ok (some u) := by
  intro hrefs
  induction hrefs with
  | nil =>
    intro tv urls r h u hu
    simp only [pushLinksLP, Except.ok.injEq] at h
    subst h
    exact Or.inl hu
  | cons href rest ih =>
    intro tv urls r h u hu
    simp only [pushLinksLP] at h
    cases hc : linkCandidate base href with
    | error e => simp [hc, exbind_error] at h
    | ok cand =>
      simp only [hc, exbind_ok] at h
      cases cand with
      | none => exact ih tv urls r h u hu
      | some full =>
        cases hi : is_internal_link full domain with
        | error e => simp [hi, exbind_error] at h
        | ok internal =>
          simp only [hi, exbind_ok] at h
          by_cases hcond : internal = true ∧ full ∉ visited
          · rw [if_pos hcond] at h
            cases hsub : is_in_subpath full sp with
            | error e => simp [hsub, exbind_error] at h
            | ok sub =>
              simp only [hsub, exbind_ok] at h
              cases sub with
              | false =>
                simp only [Bool.false_eq_true, if_neg] at h
                exact ih _ _ r (by simpa using h) u hu
              | true =>
                simp only [if_true] at h
                rcases ih _ _ r (by simpa using h) u hu with h1 | h1
                · rcases List.mem_append.mp h1 with h2 | h2
                  · exact Or.inl h2
                  · right
                    rcases List.mem_singleton.mp h2 with rfl
                    exact ⟨href, hc⟩
                · exact Or.inr h1
          · rw [if_neg hcond] at h
            exact ih _ _ r h u hu

/-- One step of `list_paths` preserves fragment-freeness of the Visited
Tracker and of every Frontier entry other than the seed. -/
theorem listPathsStep_hash_inv {domain sp start : String} {C : Collab}
    {s s' : LPState} (h : listPathsStep domain sp C s = .ok s')
    (hv : ∀ u ∈ s.visited, '#' ∉ u.data)
    (ht : ∀ u ∈ s.to_visit, u = start ∨ '#' ∉ u.data) :
    (∀ u ∈ s'.visited, '#' ∉ u.data) ∧ (∀ u ∈ s'.to_visit, u = start ∨ '#' ∉ u.data) := by
  unfold listPathsStep at h
  cases hp : popLast s.to_visit with
  | none =>
    simp only [hp, Except.ok.injEq] at h
    subst h
    exact ⟨hv, ht⟩
  | some pr =>
    obtain ⟨cur, rest⟩ := pr
    simp only [hp] at h
    cases hn : normalizeUrl cur with
    | error e => simp [hn, exbind_error] at h
    | ok v =>
      simp only [hn, exbind_ok] at h
      have hrest : ∀ u ∈ rest, u = start ∨ '#' ∉ u.data := by
        intro u hu
        exact ht u (mem_of_mem_dropLast ((popLast_some hp).2 ▸ hu))
      by_cases hvis : v ∈ s.visited
      · simp only [hvis, if_true, Except.ok.injEq] at h
        subst h
        exact ⟨hv, hrest⟩
      · simp only [hvis, if_false] at h
        have hv' : ∀ u ∈ v :: s.visited, '#' ∉ u.data := by
          intro u hu
          rcases List.mem_cons.mp hu with rfl | hu1
          · exact normalizeUrl_no_hash hn
          · exact hv u hu1
        cases hh : C.http v with
        | none =>
          simp only [hh, Except.ok.injEq] at h
          subst h
          exact ⟨hv', hrest⟩
        | some body =>
          simp only [hh] at h
          cases hpl : pushLinksLP domain sp (v :: s.visited) v (C.extractLinks body) rest
              (s.urls_found ++ [v]) with
          | error e => simp [hpl, exbind_error] at h
          | ok r =>
            simp only [hpl, exbind_ok, Except.ok.injEq] at h
            subst h
            refine ⟨hv', ?_⟩
            intro u hu
            rcases pushLinksLP_mem_src (C.extractLinks body) rest _ r hpl u hu with h1 | ⟨href, h1⟩
            · exact hrest u h1
            · exact Or.inr (linkCandidate_no_hash h1)

/-- In every completed run of `list_paths`, the Visited Tracker and every
Frontier entry other than the seed are fragment-free. -/
theorem lp_fragment_free (fuel : Nat) (start : String) (C : Collab) (t' : LPState)
    (h : list_paths fuel start C = .ok t') :
    (∀ u ∈ t'.visited, '#' ∉ u.data) ∧ (∀ u ∈ t'.to_visit, u = start ∨ '#' ∉ u.data) := by
  unfold list_paths at h
  cases hd : get_domain start with
  | error e => simp [hd, exbind_error] at h
  | ok d =>
    simp only [hd, exbind_ok] at h
    cases hp : get_path start with
    | error e => simp [hp, exbind_error] at h
    | ok pth =>
      simp only [hp, exbind_ok] at h
      have main : ∀ (n : Nat) (s0 s1 : LPState), runLP d pth C n s0 = .ok s1 →
          (∀ u ∈ s0.visited, '#' ∉ u.data) → (∀ u ∈ s0.to_visit, u = start ∨ '#' ∉ u.data) →
          (∀ u ∈ s1.visited, '#' ∉ u.data) ∧ (∀ u ∈ s1.to_visit, u = start ∨ '#' ∉ u.data) := by
        intro n
        induction n with
        | zero =>
          intro s0 s1 hrun hv ht
          simp only [runLP, Except.ok.injEq] at hrun
          subst hrun
          exact ⟨hv, ht⟩
        | succ m ih =>
          intro s0 s1 hrun hv ht
          simp only [runLP] at hrun
          by_cases he : s0.to_visit = []
          · simp only [he, if_true, Except.ok.injEq] at hrun
            subst hrun
            exact ⟨hv, ht⟩
          · simp only [he, if_false] at hrun
            cases hs : listPathsStep d pth C s0 with
            | error e => simp [hs, exbind_error] at hrun
            | ok s2 =>
              simp only [hs, exbind_ok] at hrun
              obtain ⟨hv2, ht2⟩ := listPathsStep_hash_inv hs hv ht
              exact ih s2 s1 hrun hv2 ht2
      refine main fuel _ t' h ?_ ?_
      · intro u hu; simp at hu
      · intro u hu
        simp only [List.mem_singleton] at hu
        exact Or.inl hu

/-- C6, amended.  In every completed run of either traversal mode, every
URL in the Visited Tracker and every URL in the Frontier other than the
seed is fragment-free (contains no `'#'`); the seed itself is stored as
given in both modes (see the counterexample: it may carry a fragment, or
be relative, and is normalized only at pop time). -/
theorem frontier_visited_fragment_free :
    (∀ (fuel : Nat) (start : String) (exclude : List String) (C : Collab) (s' : CWState),
      crawl_website fuel start exclude C = .ok s' →
      (∀ u ∈ s'.visited, '#' ∉ u.data) ∧ (∀ u ∈ s'.to_visit, u = start ∨ '#' ∉ u.data)) ∧
    (∀ (fuel : Nat) (start : String) (C : Collab) (t' : LPState),
      list_paths fuel start C = .ok t' →
      (∀ u ∈ t'.visited, '#' ∉ u.data) ∧ (∀ u ∈ t'.to_visit, u = start ∨ '#' ∉ u.data)) :=
  ⟨fun fuel start exclude C s' h => crawl_fragment_free fuel start exclude C s' h,
   fun fuel start C t' h => lp_fragment_free fuel start C t' h⟩

/-- Witness for `frontier_visited_fragment_free` on the Scenario A runs
of both modes. -/
theorem frontier_visited_fragment_free_witness :
    ((∀ u ∈ ["https://example.com/docs/a", "https://example.com/docs"], '#' ∉ u.data) ∧
     (∀ u ∈ ([] : List String), u = "https://example.com/docs" ∨ '#' ∉ u.data)) ∧
    ((∀ u ∈ ["https://example.com/docs/a", "https://example.com/docs"], '#' ∉ u.data) ∧
     (∀ u ∈ ([] : List String), u = "https://example.com/docs" ∨ '#' ∉ u.data)) :=
  ⟨frontier_visited_fragment_free.1 4 "https://example.com/docs" [] scenarioA
    ⟨[], ["https://example.com/docs/a", "https://example.com/docs"],
     [("https://example.com/docs", "page")],
     ["https://example.com/docs", "https://example.com/docs/a"]⟩ (by rfl),
   frontier_visited_fragment_free.2 4 "https://example.com/docs" scenarioA
    ⟨[], ["https://example.com/docs/a", "https://example.com/docs"],
     ["https://example.com/docs", "https://example.com/docs/a",
      "https://external.com/x", "https://example.com/other"],
     ["https://example.com/docs", "https://example.com/docs/a"]⟩ (by rfl)⟩

/-- Bridge between `List.contains` and membership for characters. -/
theorem contains_iff {l : Chars} {c : Char} : l.contains c = true ↔ c ∈ l := by
  unfold List.contains
  exact List.elem_iff

/-- Evaluation of `canonPath` once `splitparams` is known. -/
theorem canonPath_eq_of_splitparams {x a b : Chars} (hx : x.contains ';' = true)
    (h : splitparams x = (a, b)) :
    canonPath x = if b ≠ [] then a ++ ';' :: b else a := by
  unfold canonPath
  rw [if_pos hx, h]

/-- `canonPath` is the identity without `';'`. -/
theorem canonPath_no_semi {x : Chars} (hx : ¬ x.contains ';' = true) : canonPath x = x := by
  unfold canonPath
  rw [if_neg hx]

/-- `splitparams` in the presence of a slash. -/
theorem splitparams_slash {x x1 y : Chars} (hsl : x.contains '/' = true)
    (hl : splitLast '/' x = some (x1, y)) :
    splitparams x = (match splitFirst ';' y with
      | none => (x, [])
      | some (y1, y2) => (x1 ++ '/' :: y1, y2)) := by
  unfold splitparams
  rw [if_pos hsl, hl]

/-- `splitparams` without a slash. -/
theorem splitparams_no_slash {x : Chars} (hsl : ¬ x.contains '/' = true) :
    splitparams x = (match splitFirst ';' x with
      | none => (x, [])
      | some (p1, p2) => (p1, p2)) := by
  unfold splitparams
  rw [if_neg hsl]

/-- The params round trip is idempotent. -/
theorem canonPath_canonPath (x : Chars) : canonPath (canonPath x) = canonPath x := by
  by_cases hx : x.contains ';'
  · by_cases hsl : x.contains '/'
    · cases hl : splitLast '/' x with
      | none => exact absurd (contains_iff.mp hsl) (splitLast_eq_none.mp hl)
      | some pr =>
        obtain ⟨x1, y⟩ := pr
        obtain ⟨hdec, hny⟩ := splitLast_eq_some hl
        have hsp := splitparams_slash hsl hl
        cases hf : splitFirst ';' y with
        | none =>
          rw [hf] at hsp
          simp only [] at hsp
          have hcx : canonPath x = x := by
            rw [canonPath_eq_of_splitparams hx hsp]
            simp
          rw [hcx, hcx]
        | some pr2 =>
          obtain ⟨y1, y2⟩ := pr2
          rw [hf] at hsp
          simp only [] at hsp
          obtain ⟨hy, hny1⟩ := splitFirst_eq_some hf
          cases y2 with
          | nil =>
            have hcx : canonPath x = x1 ++ '/' :: y1 := by
              rw [canonPath_eq_of_splitparams hx hsp]
              simp
            rw [hcx]
            by_cases hc2 : (x1 ++ '/' :: y1).contains ';'
            · have hstable : splitparams (x1 ++ '/' :: y1) = (x1 ++ '/' :: y1, []) := by
                unfold splitparams
                rw [if_pos (contains_iff.mpr
                  (List.mem_append_right x1 (List.mem_cons_self '/' y1)))]
                rw [splitLast_append x1 (fun hc => hny (hy ▸ List.mem_append_left _ hc))]
                simp only []
                rw [splitFirst_eq_none.mpr hny1]
              rw [canonPath_eq_of_splitparams hc2 hstable]
              simp
            · exact canonPath_no_semi hc2
          | cons c2 cs2 =>
            have hcx : canonPath x = x := by
              rw [canonPath_eq_of_splitparams hx hsp]
              have : x1 ++ '/' :: y1 ++ ';' :: c2 :: cs2 = x := by
                rw [hdec, hy]
                simp
              simpa using this
            rw [hcx, hcx]
    · cases hf : splitFirst ';' x with
      | none => exact absurd (contains_iff.mp hx) (splitFirst_eq_none.mp hf)
      | some pr2 =>
        obtain ⟨z1, z2⟩ := pr2
        have hsp := splitparams_no_slash hsl
        rw [hf] at hsp
        simp only [] at hsp
        obtain ⟨hz, hnz1⟩ := splitFirst_eq_some hf
        cases z2 with
        | nil =>
          have hcx : canonPath x = z1 := by
            rw [canonPath_eq_of_splitparams hx hsp]
            simp
          rw [hcx]
          exact canonPath_no_semi (fun hc => hnz1 (contains_iff.mp hc))
        | cons c2 cs2 =>
          have hcx : canonPath x = x := by
            rw [canonPath_eq_of_splitparams hx hsp]
            simpa using hz.symm
          rw [hcx, hcx]
  · rw [canonPath_no_semi hx, canonPath_no_semi hx]

/-- Prepending a slash preserves stability under the params round trip. -/
theorem canonPath_cons_slash {z : Chars} (h : canonPath z = z) :
    canonPath ('/' :: z) = '/' :: z := by
  by_cases hz : z.contains ';'
  · have hz' : ('/' :: z).contains ';' = true :=
      contains_iff.mpr (List.mem_cons_of_mem '/' (contains_iff.mp hz))
    have hsl' : ('/' :: z).contains '/' = true :=
      contains_iff.mpr (List.mem_cons_self '/' z)
    by_cases hsl : z.contains '/'
    · cases hl : splitLast '/' z with
      | none => exact absurd (contains_iff.mp hsl) (splitLast_eq_none.mp hl)
      | some pr =>
        obtain ⟨z1, y⟩ := pr
        obtain ⟨hdec, hny⟩ := splitLast_eq_some hl
        have hl' : splitLast '/' ('/' :: z) = some ('/' :: z1, y) := by
          rw [show ('/' :: z) = ('/' :: z1) ++ '/' :: y from by rw [hdec]; rfl]
          exact splitLast_append ('/' :: z1) hny
        have hsp := splitparams_slash hsl hl
        have hsp' := splitparams_slash hsl' hl'
        cases hf : splitFirst ';' y with
        | none =>
          rw [hf] at hsp'
          simp only [] at hsp'
          rw [canonPath_eq_of_splitparams hz' hsp']
          simp
        | some pr2 =>
          obtain ⟨y1, y2⟩ := pr2
          rw [hf] at hsp hsp'
          simp only [] at hsp hsp'
          obtain ⟨hy, hny1⟩ := splitFirst_eq_some hf
          cases y2 with
          | nil =>
            exfalso
            rw [canonPath_eq_of_splitparams hz hsp,
              if_neg (show ¬(([] : Chars) ≠ []) by simp)] at h
            rw [hdec, hy] at h
            simp at h
          | cons c2 cs2 =>
            rw [canonPath_eq_of_splitparams hz' hsp',
              if_pos (show (c2 :: cs2 : Chars) ≠ [] by simp)]
            rw [hdec, hy]
            simp
    · have hl' : splitLast '/' ('/' :: z) = some ([], z) := by
        rw [show ('/' :: z) = [] ++ '/' :: z from rfl]
        exact splitLast_append [] (fun hc => hsl (contains_iff.mpr hc))
      have hsp' := splitparams_slash hsl' hl'
      have hspz := splitparams_no_slash hsl
      cases hf : splitFirst ';' z with
      | none => exact absurd (contains_iff.mp hz) (splitFirst_eq_none.mp hf)
      | some pr2 =>
        obtain ⟨z1, z2⟩ := pr2
        rw [hf] at hsp' hspz
        simp only [] at hsp' hspz
        obtain ⟨hzz, hnz1⟩ := splitFirst_eq_some hf
        cases z2 with
        | nil =>
          exfalso
          rw [canonPath_eq_of_splitparams hz hspz,
            if_neg (show ¬(([] : Chars) ≠ []) by simp)] at h
          rw [hzz] at h
          simp at h
        | cons c2 cs2 =>
          rw [canonPath_eq_of_splitparams hz' hsp',
            if_pos (show (c2 :: cs2 : Chars) ≠ [] by simp)]
          rw [hzz]
          simp
  · exact canonPath_no_semi (fun hc => by
      rcases List.mem_cons.mp (contains_iff.mp hc) with h1 | h1
      · exact absurd h1 (by decide)
      · exact hz (contains_iff.mpr h1))

/-- Scheme characters are not unsafe bytes. -/
theorem schemeChar_not_unsafe {c : Char} (h : schemeChar c = true) : unsafeByte c = false := by
  by_cases ht : c = '\t'
  · subst ht; simp [schemeChar, Char.isAlpha, Char.isUpper, Char.isLower, Char.isDigit] at h
  · by_cases hr : c = '\r'
    · subst hr; simp [schemeChar, Char.isAlpha, Char.isUpper, Char.isLower, Char.isDigit] at h
    · by_cases hn : c = '\n'
      · subst hn; simp [schemeChar, Char.isAlpha, Char.isUpper, Char.isLower, Char.isDigit] at h
      · simp [unsafeByte, ht, hr, hn]

/-- Shape of `prepSlash`: empty or slash-headed. -/
theorem prepSlash_cases (l : Chars) :
    (l = [] ∧ prepSlash l = []) ∨ ∃ t, prepSlash l = '/' :: t := by
  unfold prepSlash
  match l with
  | [] => exact Or.inl ⟨rfl, by simp⟩
  | c :: t =>
    by_cases hc : c = '/'
    · subst hc
      right
      refine ⟨t, ?_⟩
      rw [if_neg (by simp)]
    · right
      refine ⟨c :: t, ?_⟩
      rw [if_pos ⟨by simp, by simp [List.take, hc]⟩]

/-- Members of `prepSlash` output. -/
theorem mem_prepSlash {l : Chars} {c : Char} (h : c ∈ prepSlash l) : c ∈ l ∨ c = '/' := by
  unfold prepSlash at h
  split at h
  · rcases List.mem_cons.mp h with rfl | h1
    · exact Or.inr rfl
    · exact Or.inl h1
  · exact Or.inl h

/-- A list whose first two characters are not `//` keeps that property
when a `'?'`-headed or empty tail is appended. -/
theorem take2_append_opt {P opt : Chars} (h : P.take 2 ≠ ['/', '/'])
    (hopt : opt = [] ∨ ∃ t, opt = '?' :: t) : (P ++ opt).take 2 ≠ ['/', '/'] := by
  match P with
  | [] =>
    rcases hopt with rfl | ⟨t, rfl⟩
    · simpa using h
    · intro hc
      simp [List.take] at hc
  | [c] =>
    rcases hopt with rfl | ⟨t, rfl⟩
    · simpa using h
    · intro hc
      simp [List.take] at hc
  | c1 :: c2 :: rest =>
    intro hc
    apply h
    simp only [List.cons_append, List.take] at hc ⊢
    exact hc

/-- The fragment-stripped `urlunparse` of a parse result, written through
`urlunsplit` on the re-joined path. -/
theorem urlunparse_eq (p : ParseResult) :
    urlunparse { p with fragment := [] } =
      urlunsplit ⟨p.scheme, p.netloc, rejoinedPath p, p.query, []⟩ := rfl

/-- Explicit form of `urlunsplit` with an empty fragment. -/
theorem urlunsplit_explicit (sch nl P q : Chars) :
    urlunsplit ⟨sch, nl, P, q, []⟩ =
      (if q ≠ [] then
        (if sch ≠ [] then
          sch ++ ':' :: (if nl ≠ [] ∨ (sch ≠ [] ∧ sch ∈ usesNetloc ∧ P.take 2 ≠ ['/', '/']) then
            '/' :: '/' :: (nl ++ prepSlash P) else P)
         else (if nl ≠ [] ∨ (sch ≠ [] ∧ sch ∈ usesNetloc ∧ P.take 2 ≠ ['/', '/']) then
            '/' :: '/' :: (nl ++ prepSlash P) else P)) ++ '?' :: q
       else
        (if sch ≠ [] then
          sch ++ ':' :: (if nl ≠ [] ∨ (sch ≠ [] ∧ sch ∈ usesNetloc ∧ P.take 2 ≠ ['/', '/']) then
            '/' :: '/' :: (nl ++ prepSlash P) else P)
         else (if nl ≠ [] ∨ (sch ≠ [] ∧ sch ∈ usesNetloc ∧ P.take 2 ≠ ['/', '/']) then
            '/' :: '/' :: (nl ++ prepSlash P) else P))) := by
  unfold urlunsplit prepSlash
  rw [if_neg (show ¬(([] : Chars) ≠ []) by simp)]

/-- `netSplit` behind an explicit `//` marker. -/
theorem netSplit_cons2 (X : Chars) :
    netSplit ('/' :: '/' :: X) =
      (X.takeWhile (fun c => !netlocDelim c), X.dropWhile (fun c => !netlocDelim c)) := rfl

/-- Re-splitting a reconstructed URL that carries an authority marker:
the components are recovered verbatim. -/
theorem urlsplitCore_assemble_netloc {sch nl P' q OPT : Chars}
    (hS : sch = [] ∨ ∃ c0 cs, sch = c0 :: cs ∧ c0.isAlpha = true ∧
      (∀ c ∈ sch, schemeChar c = true) ∧ lowerChars sch = sch)
    (hN : ∀ c ∈ nl, netlocDelim c = false ∧ unsafeByte c = false)
    (hB : bracketMismatch nl = false)
    (hNF : checknetlocError nl = false)
    (hPhead : P' = [] ∨ ∃ t, P' = '/' :: t)
    (hPh : '#' ∉ P') (hPq : '?' ∉ P') (hPu : ∀ c ∈ P', unsafeByte c = false)
    (hQh : '#' ∉ q) (hQu : ∀ c ∈ q, unsafeByte c = false)
    (hOPT : (OPT = [] ∧ q = []) ∨ (OPT = '?' :: q ∧ q ≠ [])) :
    urlsplitCore ((if sch ≠ [] then sch ++ ':' :: ('/' :: '/' :: (nl ++ P'))
      else '/' :: '/' :: (nl ++ P')) ++ OPT) [] = .ok ⟨sch, nl, P', q, []⟩ := by
  have hnl : ∀ c ∈ nl, (fun c => !netlocDelim c) c = true := by
    intro c hc
    simp [(hN c hc).1]
  have hXhead : (P' ++ OPT) = [] ∨ ∃ c t, (P' ++ OPT) = c :: t ∧ netlocDelim c = true := by
    rcases hPhead with hp0 | ⟨t, hpt⟩
    · rcases hOPT with ⟨ho, -⟩ | ⟨ho, -⟩
      · exact Or.inl (by rw [hp0, ho]; rfl)
      · exact Or.inr ⟨'?', q, by rw [hp0, ho]; rfl, by decide⟩
    · exact Or.inr ⟨'/', t ++ OPT, by rw [hpt]; rfl, by decide⟩
  have htw : (P' ++ OPT).takeWhile (fun c => !netlocDelim c) = [] := by
    rcases hXhead with he | ⟨c, t, he, hc⟩
    · rw [he]; rfl
    · rw [he, List.takeWhile_cons, if_neg (by simp [hc])]
  have hdw : (P' ++ OPT).dropWhile (fun c => !netlocDelim c) = P' ++ OPT := by
    rcases hXhead with he | ⟨c, t, he, hc⟩
    · rw [he]; rfl
    · rw [he, List.dropWhile_cons, if_neg (by simp [hc])]
  have hfsX : fragSplit (P' ++ OPT) = (P' ++ OPT, []) := by
    apply fragSplit_no_hash
    intro hc
    rcases List.mem_append.mp hc with h1 | h1
    · exact hPh h1
    · rcases hOPT with ⟨ho, -⟩ | ⟨ho, -⟩
      · rw [ho] at h1; exact absurd h1 (List.not_mem_nil _)
      · rw [ho] at h1
        rcases List.mem_cons.mp h1 with h2 | h2
        · exact absurd h2 (by decide)
        · exact hQh h2
  have hqsX : querySplit (P' ++ OPT) = (P', q) := by
    rcases hOPT with ⟨ho, hq0⟩ | ⟨ho, -⟩
    · rw [ho, hq0, List.append_nil]
      exact querySplit_no_query hPq
    · rw [ho]
      exact querySplit_append q hPq
  have hns : netSplit ('/' :: '/' :: ((nl ++ P') ++ OPT)) = (nl, P' ++ OPT) := by
    rw [netSplit_cons2, List.append_assoc, takeWhile_append_all _ hnl,
        dropWhile_append_all _ hnl, htw, hdw, List.append_nil]
  have htailu : ∀ c ∈ '/' :: '/' :: ((nl ++ P') ++ OPT), unsafeByte c = false := by
    intro c hc
    rcases List.mem_cons.mp hc with rfl | hc1
    · decide
    · rcases List.mem_cons.mp hc1 with rfl | hc2
      · decide
      · rcases List.mem_append.mp hc2 with h3 | h3
        · rcases List.mem_append.mp h3 with h4 | h4
          · exact (hN c h4).2
          · exact hPu c h4
        · rcases hOPT with ⟨ho, -⟩ | ⟨ho, -⟩
          · rw [ho] at h3; exact absurd h3 (List.not_mem_nil _)
          · rw [ho] at h3
            rcases List.mem_cons.mp h3 with rfl | h4
            · decide
            · exact hQu c h4
  rcases hS with hsch | ⟨c0, cs, hsch, ha, hall, hlow⟩
  · subst hsch
    rw [if_neg (by simp)]
    have hVe : ('/' :: '/' :: (nl ++ P')) ++ OPT = '/' :: '/' :: ((nl ++ P') ++ OPT) := rfl
    rw [hVe]
    have hclean : removeUnsafe ('/' :: '/' :: ((nl ++ P') ++ OPT)) =
        '/' :: '/' :: ((nl ++ P') ++ OPT) := removeUnsafe_eq_self htailu
    have hss : schemeSplit ('/' :: '/' :: ((nl ++ P') ++ OPT)) = none :=
      schemeSplit_none_head (by decide)
    have hsd : schemeDefSplit ('/' :: '/' :: ((nl ++ P') ++ OPT)) [] =
        ([], '/' :: '/' :: ((nl ++ P') ++ OPT)) := by
      unfold schemeDefSplit
      rw [hss]
    have hb2 : netSplit (schemeDefSplit (removeUnsafe ('/' :: '/' :: ((nl ++ P') ++ OPT)))
        (removeUnsafe ([] : Chars))).2 = (nl, P' ++ OPT) := by
      rw [show removeUnsafe ([] : Chars) = [] from rfl, hclean, hsd]
      exact hns
    have hb : bracketMismatch (netSplit (schemeDefSplit
        (removeUnsafe ('/' :: '/' :: ((nl ++ P') ++ OPT)))
        (removeUnsafe ([] : Chars))).2).1 = false := by
      rw [hb2]
      exact hB
    have hnfk : checknetlocError (netSplit (schemeDefSplit
        (removeUnsafe ('/' :: '/' :: ((nl ++ P') ++ OPT)))
        (removeUnsafe ([] : Chars))).2).1 = false := by
      rw [hb2]
      exact hNF
    rw [urlsplitCore_build hb hnfk, show removeUnsafe ([] : Chars) = [] from rfl, hclean, hsd]
    show Except.ok (SplitResult.mk []
        (netSplit ('/' :: '/' :: ((nl ++ P') ++ OPT))).1
        (querySplit (fragSplit (netSplit ('/' :: '/' :: ((nl ++ P') ++ OPT))).2).1).1
        (querySplit (fragSplit (netSplit ('/' :: '/' :: ((nl ++ P') ++ OPT))).2).1).2
        (fragSplit (netSplit ('/' :: '/' :: ((nl ++ P') ++ OPT))).2).2) = _
    rw [hns]
    show Except.ok (SplitResult.mk [] nl (querySplit (fragSplit (P' ++ OPT)).1).1
        (querySplit (fragSplit (P' ++ OPT)).1).2 (fragSplit (P' ++ OPT)).2) = _
    rw [hfsX]
    show Except.ok (SplitResult.mk [] nl (querySplit (P' ++ OPT)).1
        (querySplit (P' ++ OPT)).2 []) = _
    rw [hqsX]
  · subst hsch
    rw [if_pos (by simp)]
    have hVe : ((c0 :: cs) ++ ':' :: ('/' :: '/' :: (nl ++ P'))) ++ OPT =
        (c0 :: cs) ++ ':' :: ('/' :: '/' :: ((nl ++ P') ++ OPT)) := by
      rw [List.append_assoc]
      rfl
    rw [hVe]
    have hclean : removeUnsafe ((c0 :: cs) ++ ':' :: ('/' :: '/' :: ((nl ++ P') ++ OPT))) =
        (c0 :: cs) ++ ':' :: ('/' :: '/' :: ((nl ++ P') ++ OPT)) := by
      apply removeUnsafe_eq_self
      intro c hc
      rcases List.mem_append.mp hc with h1 | h1
      · exact schemeChar_not_unsafe (hall c h1)
      · rcases List.mem_cons.mp h1 with rfl | h2
        · decide
        · exact htailu c h2
    have hss : schemeSplit ((c0 :: cs) ++ ':' :: ('/' :: '/' :: ((nl ++ P') ++ OPT))) =
        some (c0 :: cs, '/' :: '/' :: ((nl ++ P') ++ OPT)) := by
      rw [schemeSplit_build _ ha hall, hlow]
    have hsd : schemeDefSplit ((c0 :: cs) ++ ':' :: ('/' :: '/' :: ((nl ++ P') ++ OPT))) [] =
        (c0 :: cs, '/' :: '/' :: ((nl ++ P') ++ OPT)) := by
      unfold schemeDefSplit
      rw [hss]
    have hb2 : netSplit (schemeDefSplit
        (removeUnsafe ((c0 :: cs) ++ ':' :: ('/' :: '/' :: ((nl ++ P') ++ OPT))))
        (removeUnsafe ([] : Chars))).2 = (nl, P' ++ OPT) := by
      rw [show removeUnsafe ([] : Chars) = [] from rfl, hclean, hsd]
      exact hns
    have hb : bracketMismatch (netSplit (schemeDefSplit
        (removeUnsafe ((c0 :: cs) ++ ':' :: ('/' :: '/' :: ((nl ++ P') ++ OPT))))
        (removeUnsafe ([] : Chars))).2).1 = false := by
      rw [hb2]
      exact hB
    have hnfk : checknetlocError (netSplit (schemeDefSplit
        (removeUnsafe ((c0 :: cs) ++ ':' :: ('/' :: '/' :: ((nl ++ P') ++ OPT))))
        (removeUnsafe ([] : Chars))).2).1 = false := by
      rw [hb2]
      exact hNF
    rw [urlsplitCore_build hb hnfk, show removeUnsafe ([] : Chars) = [] from rfl, hclean, hsd]
    show Except.ok (SplitResult.mk (c0 :: cs)
        (netSplit ('/' :: '/' :: ((nl ++ P') ++ OPT))).1
        (querySplit (fragSplit (netSplit ('/' :: '/' :: ((nl ++ P') ++ OPT))).2).1).1
        (querySplit (fragSplit (netSplit ('/' :: '/' :: ((nl ++ P') ++ OPT))).2).1).2
        (fragSplit (netSplit ('/' :: '/' :: ((nl ++ P') ++ OPT))).2).2) = _
    rw [hns]
    show Except.ok (SplitResult.mk (c0 :: cs) nl (querySplit (fragSplit (P' ++ OPT)).1).1
        (querySplit (fragSplit (P' ++ OPT)).1).2 (fragSplit (P' ++ OPT)).2) = _
    rw [hfsX]
    show Except.ok (SplitResult.mk (c0 :: cs) nl (querySplit (P' ++ OPT)).1
        (querySplit (P' ++ OPT)).2 []) = _
    rw [hqsX]

/-- Re-splitting a reconstructed URL without an authority marker:
the components are recovered verbatim. -/
theorem urlsplitCore_assemble_plain {sch P q OPT : Chars}
    (hS : sch = [] ∨ ∃ c0 cs, sch = c0 :: cs ∧ c0.isAlpha = true ∧
      (∀ c ∈ sch, schemeChar c = true) ∧ lowerChars sch = sch)
    (hNoS : sch = [] → schemeSplit (P ++ OPT) = none)
    (hP2 : (P ++ OPT).take 2 ≠ ['/', '/'])
    (hPh : '#' ∉ P) (hPq : '?' ∉ P) (hPu : ∀ c ∈ P, unsafeByte c = false)
    (hQh : '#' ∉ q) (hQu : ∀ c ∈ q, unsafeByte c = false)
    (hOPT : (OPT = [] ∧ q = []) ∨ (OPT = '?' :: q ∧ q ≠ [])) :
    urlsplitCore ((if sch ≠ [] then sch ++ ':' :: P else P) ++ OPT) [] =
      .ok ⟨sch, [], P, q, []⟩ := by
  have hfsX : fragSplit (P ++ OPT) = (P ++ OPT, []) := by
    apply fragSplit_no_hash
    intro hc
    rcases List.mem_append.mp hc with h1 | h1
    · exact hPh h1
    · rcases hOPT with ⟨ho, -⟩ | ⟨ho, -⟩
      · rw [ho] at h1; exact absurd h1 (List.not_mem_nil _)
      · rw [ho] at h1
        rcases List.mem_cons.mp h1 with h2 | h2
        · exact absurd h2 (by decide)
        · exact hQh h2
  have hqsX : querySplit (P ++ OPT) = (P, q) := by
    rcases hOPT with ⟨ho, hq0⟩ | ⟨ho, -⟩
    · rw [ho, hq0, List.append_nil]
      exact querySplit_no_query hPq
    · rw [ho]
      exact querySplit_append q hPq
  have hns : netSplit (P ++ OPT) = ([], P ++ OPT) := netSplit_not_slash2 hP2
  have htailu : ∀ c ∈ P ++ OPT, unsafeByte c = false := by
    intro c hc
    rcases List.mem_append.mp hc with h1 | h1
    · exact hPu c h1
    · rcases hOPT with ⟨ho, -⟩ | ⟨ho, -⟩
      · rw [ho] at h1; exact absurd h1 (List.not_mem_nil _)
      · rw [ho] at h1
        rcases List.mem_cons.mp h1 with rfl | h2
        · decide
        · exact hQu c h2
  rcases hS with hsch | ⟨c0, cs, hsch, ha, hall, hlow⟩
  · subst hsch
    rw [if_neg (by simp)]
    have hclean : removeUnsafe (P ++ OPT) = P ++ OPT := removeUnsafe_eq_self htailu
    have hsd : schemeDefSplit (P ++ OPT) [] = ([], P ++ OPT) := by
      unfold schemeDefSplit
      rw [hNoS rfl]
    have hb2 : netSplit (schemeDefSplit (removeUnsafe (P ++ OPT))
        (removeUnsafe ([] : Chars))).2 = ([], P ++ OPT) := by
      rw [show removeUnsafe ([] : Chars) = [] from rfl, hclean, hsd]
      exact hns
    have hb : bracketMismatch (netSplit (schemeDefSplit (removeUnsafe (P ++ OPT))
        (removeUnsafe ([] : Chars))).2).1 = false := by
      rw [hb2]
      rfl
    have hnfk : checknetlocError (netSplit (schemeDefSplit (removeUnsafe (P ++ OPT))
        (removeUnsafe ([] : Chars))).2).1 = false := by
      rw [hb2]
      rfl
    rw [urlsplitCore_build hb hnfk, show removeUnsafe ([] : Chars) = [] from rfl, hclean, hsd]
    show Except.ok (SplitResult.mk [] (netSplit (P ++ OPT)).1
        (querySplit (fragSplit (netSplit (P ++ OPT)).2).1).1
        (querySplit (fragSplit (netSplit (P ++ OPT)).2).1).2
        (fragSplit (netSplit (P ++ OPT)).2).2) = _
    rw [hns]
    show Except.ok (SplitResult.mk [] [] (querySplit (fragSplit (P ++ OPT)).1).1
        (querySplit (fragSplit (P ++ OPT)).1).2 (fragSplit (P ++ OPT)).2) = _
    rw [hfsX]
    show Except.ok (SplitResult.mk [] [] (querySplit (P ++ OPT)).1
        (querySplit (P ++ OPT)).2 []) = _
    rw [hqsX]
  · subst hsch
    rw [if_pos (by simp)]
    have hVe : ((c0 :: cs) ++ ':' :: P) ++ OPT = (c0 :: cs) ++ ':' :: (P ++ OPT) := by
      rw [List.append_assoc]
      rfl
    rw [hVe]
    have hclean : removeUnsafe ((c0 :: cs) ++ ':' :: (P ++ OPT)) =
        (c0 :: cs) ++ ':' :: (P ++ OPT) := by
      apply removeUnsafe_eq_self
      intro c hc
      rcases List.mem_append.mp hc with h1 | h1
      · exact schemeChar_not_unsafe (hall c h1)
      · rcases List.mem_cons.mp h1 with rfl | h2
        · decide
        · exact htailu c h2
    have hss : schemeSplit ((c0 :: cs) ++ ':' :: (P ++ OPT)) =
        some (c0 :: cs, P ++ OPT) := by
      rw [schemeSplit_build _ ha hall, hlow]
    have hsd : schemeDefSplit ((c0 :: cs) ++ ':' :: (P ++ OPT)) [] =
        (c0 :: cs, P ++ OPT) := by
      unfold schemeDefSplit
      rw [hss]
    have hb2 : netSplit (schemeDefSplit (removeUnsafe ((c0 :: cs) ++ ':' :: (P ++ OPT)))
        (removeUnsafe ([] : Chars))).2 = ([], P ++ OPT) := by
      rw [show removeUnsafe ([] : Chars) = [] from rfl, hclean, hsd]
      exact hns
    have hb : bracketMismatch (netSplit (schemeDefSplit
        (removeUnsafe ((c0 :: cs) ++ ':' :: (P ++ OPT)))
        (removeUnsafe ([] : Chars))).2).1 = false := by
      rw [hb2]
      rfl
    have hnfk : checknetlocError (netSplit (schemeDefSplit
        (removeUnsafe ((c0 :: cs) ++ ':' :: (P ++ OPT)))
        (removeUnsafe ([] : Chars))).2).1 = false := by
      rw [hb2]
      rfl
    rw [urlsplitCore_build hb hnfk, show removeUnsafe ([] : Chars) = [] from rfl, hclean, hsd]
    show Except.ok (SplitResult.mk (c0 :: cs) (netSplit (P ++ OPT)).1
        (querySplit (fragSplit (netSplit (P ++ OPT)).2).1).1
        (querySplit (fragSplit (netSplit (P ++ OPT)).2).1).2
        (fragSplit (netSplit (P ++ OPT)).2).2) = _
    rw [hns]
    show Except.ok (SplitResult.mk (c0 :: cs) [] (querySplit (fragSplit (P ++ OPT)).1).1
        (querySplit (fragSplit (P ++ OPT)).1).2 (fragSplit (P ++ OPT)).2) = _
    rw [hfsX]
    show Except.ok (SplitResult.mk (c0 :: cs) [] (querySplit (P ++ OPT)).1
        (querySplit (P ++ OPT)).2 []) = _
    rw [hqsX]

/-- Re-splitting the fragment-stripped reconstruction of a parsed URL:
whenever the parse produced a netloc or a re-joined path not starting
with `//`, `urlsplit` recovers the components verbatim (slash-prepended
when an authority marker is emitted). -/
theorem urlsplitCore_resplit {u : Chars} {p : ParseResult}
    (hpu : urlparseCore u [] = .ok p)
    (hcond : p.netloc ≠ [] ∨ (rejoinedPath p).take 2 ≠ ['/', '/']) :
    urlsplitCore (urlunparse { p with fragment := [] }) [] =
      .ok ⟨p.scheme, p.netloc,
        (if p.netloc ≠ [] ∨ (p.scheme ≠ [] ∧ p.scheme ∈ usesNetloc ∧
            (rejoinedPath p).take 2 ≠ ['/', '/']) then prepSlash (rejoinedPath p)
         else rejoinedPath p), p.query, []⟩ := by
  obtain ⟨r, hr, hs, hn, hq, -, hshape0⟩ := urlparseCore_path_shape hpu
  have hshape : rejoinedPath p = r.path ∨ r.path = rejoinedPath p ++ [';'] := hshape0
  obtain ⟨wfS, wfN, wfB, wfNF, wfP1, wfP2, wfP3, wfQ1, wfQ2, wfNoS⟩ := urlsplitCore_wf hr
  have hPmem : ∀ c ∈ rejoinedPath p, c ∈ r.path := by
    intro c hc
    rcases hshape with h1 | h1
    · exact h1 ▸ hc
    · exact h1 ▸ List.mem_append_left _ hc
  have hPh : '#' ∉ rejoinedPath p := fun hc => wfP1 (hPmem _ hc)
  have hPq : '?' ∉ rejoinedPath p := fun hc => wfP2 (hPmem _ hc)
  have hPu : ∀ c ∈ rejoinedPath p, unsafeByte c = false := fun c hc => wfP3 c (hPmem c hc)
  have hS' : p.scheme = [] ∨ ∃ c0 cs, p.scheme = c0 :: cs ∧ c0.isAlpha = true ∧
      (∀ c ∈ p.scheme, schemeChar c = true) ∧ lowerChars p.scheme = p.scheme := by
    rw [hs]
    exact wfS
  have hN' : ∀ c ∈ p.netloc, netlocDelim c = false ∧ unsafeByte c = false := by
    rw [hn]
    exact wfN
  have hB' : bracketMismatch p.netloc = false := by
    rw [hn]
    exact wfB
  have hQh : '#' ∉ p.query := by
    rw [hq]
    exact wfQ1
  have hQu : ∀ c ∈ p.query, unsafeByte c = false := by
    rw [hq]
    exact wfQ2
  have hOPTfact : ((if p.query ≠ [] then '?' :: p.query else []) = [] ∧ p.query = []) ∨
      ((if p.query ≠ [] then '?' :: p.query else []) = '?' :: p.query ∧ p.query ≠ []) := by
    by_cases hqe : p.query = []
    · exact Or.inl ⟨by rw [if_neg (by simp [hqe])], hqe⟩
    · exact Or.inr ⟨by rw [if_pos hqe], hqe⟩
  rw [urlunparse_eq, urlunsplit_explicit]
  by_cases hUC : p.netloc ≠ [] ∨ (p.scheme ≠ [] ∧ p.scheme ∈ usesNetloc ∧
      (rejoinedPath p).take 2 ≠ ['/', '/'])
  · simp only [if_pos hUC]
    have hwrap : (if p.query ≠ [] then
        (if p.scheme ≠ [] then
          p.scheme ++ ':' :: ('/' :: '/' :: (p.netloc ++ prepSlash (rejoinedPath p)))
         else '/' :: '/' :: (p.netloc ++ prepSlash (rejoinedPath p))) ++ '?' :: p.query
      else
        (if p.scheme ≠ [] then
          p.scheme ++ ':' :: ('/' :: '/' :: (p.netloc ++ prepSlash (rejoinedPath p)))
         else '/' :: '/' :: (p.netloc ++ prepSlash (rejoinedPath p)))) =
      (if p.scheme ≠ [] then
        p.scheme ++ ':' :: ('/' :: '/' :: (p.netloc ++ prepSlash (rejoinedPath p)))
       else '/' :: '/' :: (p.netloc ++ prepSlash (rejoinedPath p))) ++
        (if p.query ≠ [] then '?' :: p.query else []) := by
      by_cases hqe : p.query = []
      · rw [if_neg (show ¬(p.query ≠ []) by simp [hqe]),
            if_neg (show ¬(p.query ≠ []) by simp [hqe]), List.append_nil]
      · rw [if_pos hqe, if_pos hqe]
    rw [hwrap]
    have hP'head : prepSlash (rejoinedPath p) = [] ∨
        ∃ t, prepSlash (rejoinedPath p) = '/' :: t := by
      rcases prepSlash_cases (rejoinedPath p) with ⟨-, h1⟩ | h1
      · exact Or.inl h1
      · exact Or.inr h1
    have hP'h : '#' ∉ prepSlash (rejoinedPath p) := by
      intro hc
      rcases mem_prepSlash hc with h1 | h1
      · exact hPh h1
      · exact absurd h1 (by decide)
    have hP'q : '?' ∉ prepSlash (rejoinedPath p) := by
      intro hc
      rcases mem_prepSlash hc with h1 | h1
      · exact hPq h1
      · exact absurd h1 (by decide)
    have hP'u : ∀ c ∈ prepSlash (rejoinedPath p), unsafeByte c = false := by
      intro c hc
      rcases mem_prepSlash hc with h1 | h1
      · exact hPu c h1
      · subst h1
        decide
    have hNF' : checknetlocError p.netloc = false := by
      rw [hn]
      exact wfNF
    exact urlsplitCore_assemble_netloc hS' hN' hB' hNF' hP'head hP'h hP'q hP'u hQh hQu hOPTfact
  · simp only [if_neg hUC]
    have hnl0 : p.netloc = [] := by
      by_contra hne
      exact hUC (Or.inl hne)
    have hP2 : (rejoinedPath p).take 2 ≠ ['/', '/'] := by
      rcases hcond with h1 | h1
      · exact absurd h1 (by simp [hnl0])
      · exact h1
    have hwrap2 : (if p.query ≠ [] then
        (if p.scheme ≠ [] then p.scheme ++ ':' :: rejoinedPath p
         else rejoinedPath p) ++ '?' :: p.query
      else
        (if p.scheme ≠ [] then p.scheme ++ ':' :: rejoinedPath p
         else rejoinedPath p)) =
      (if p.scheme ≠ [] then p.scheme ++ ':' :: rejoinedPath p else rejoinedPath p) ++
        (if p.query ≠ [] then '?' :: p.query else []) := by
      by_cases hqe : p.query = []
      · rw [if_neg (show ¬(p.query ≠ []) by simp [hqe]),
            if_neg (show ¬(p.query ≠ []) by simp [hqe]), List.append_nil]
      · rw [if_pos hqe, if_pos hqe]
    rw [hwrap2, hnl0]
    have hNoS' : p.scheme = [] →
        schemeSplit (rejoinedPath p ++ (if p.query ≠ [] then '?' :: p.query else [])) =
          none := by
      intro hs0
      have hrs : r.scheme = [] := by
        rw [← hs]
        exact hs0
      have hrn : r.netloc = [] := by
        rw [← hn]
        exact hnl0
      have base := wfNoS hrs hrn
      have hopt_eq : (if r.query = [] then [] else '?' :: r.query) =
          (if p.query ≠ [] then '?' :: p.query else []) := by
        rw [← hq]
        by_cases hqe : p.query = []
        · rw [if_pos hqe, if_neg (by simp [hqe])]
        · rw [if_neg hqe, if_pos hqe]
      rw [hopt_eq] at base
      rcases hshape with hsh | hsh
      · rw [hsh]
        exact base
      · rw [hsh, List.append_assoc] at base
        refine schemeSplit_none_transfer ?_ base
        by_cases hqe : p.query = []
        · exact Or.inl (by rw [if_neg (by simp [hqe])])
        · exact Or.inr ⟨'?', p.query, by rw [if_pos hqe], by decide, by decide⟩
    have hP2' : (rejoinedPath p ++ (if p.query ≠ [] then '?' :: p.query else [])).take 2 ≠
        ['/', '/'] := by
      apply take2_append_opt hP2
      by_cases hqe : p.query = []
      · exact Or.inl (by rw [if_neg (by simp [hqe])])
      · exact Or.inr ⟨p.query, by rw [if_pos hqe]⟩
    exact urlsplitCore_assemble_plain hS' hNoS' hP2' hPh hPq hPu hQh hQu hOPTfact

/-- `prepSlash` is idempotent. -/
theorem prepSlash_prepSlash (l : Chars) : prepSlash (prepSlash l) = prepSlash l := by
  rcases prepSlash_cases l with ⟨-, h⟩ | ⟨t, h⟩
  · rw [h]
    rfl
  · rw [h]
    unfold prepSlash
    rw [if_neg (by simp [List.take])]

/-- `prepSlash` preserves not starting with `//`. -/
theorem prepSlash_take2 {l : Chars} (h : l.take 2 ≠ ['/', '/']) :
    (prepSlash l).take 2 ≠ ['/', '/'] := by
  unfold prepSlash
  split
  · rename_i hc
    intro he
    apply hc.2
    have h2 : '/' :: l.take 1 = ['/', '/'] := he
    exact (List.cons.injEq .. ▸ h2).2
  · exact h

/-- Stability of `prepSlash` output under the params round trip. -/
theorem canonPath_prepSlash {P : Chars} (h : canonPath P = P) :
    canonPath (prepSlash P) = prepSlash P := by
  unfold prepSlash
  split
  · exact canonPath_cons_slash h
  · exact h

/-- The re-joined path of a `urlparse` result is stable under the params
round trip whenever the scheme is in `uses_params`. -/
theorem rejoined_canon_stable {u : Chars} {p : ParseResult}
    (h : urlparseCore u [] = .ok p) (hsch : p.scheme ∈ usesParams) :
    canonPath (rejoinedPath p) = rejoinedPath p := by
  unfold urlparseCore at h
  cases hr : urlsplitCore u [] with
  | error e => simp [hr, exbind_error] at h
  | ok r =>
    simp only [hr, exbind_ok, Except.ok.injEq] at h
    subst h
    by_cases hg : r.scheme ∈ usesParams ∧ r.path.contains ';'
    · have hRJ : rejoinedPath ⟨r.scheme, r.netloc,
          (if r.scheme ∈ usesParams ∧ r.path.contains ';' then splitparams r.path
            else (r.path, [])).1,
          (if r.scheme ∈ usesParams ∧ r.path.contains ';' then splitparams r.path
            else (r.path, [])).2, r.query, r.fragment⟩ = canonPath r.path := by
        unfold rejoinedPath
        rw [if_pos hg]
        rcases hsp : splitparams r.path with ⟨a, b⟩
        rw [canonPath_eq_of_splitparams hg.2 hsp]
      rw [hRJ, canonPath_canonPath]
    · have hRJ : rejoinedPath ⟨r.scheme, r.netloc,
          (if r.scheme ∈ usesParams ∧ r.path.contains ';' then splitparams r.path
            else (r.path, [])).1,
          (if r.scheme ∈ usesParams ∧ r.path.contains ';' then splitparams r.path
            else (r.path, [])).2, r.query, r.fragment⟩ = r.path := by
        unfold rejoinedPath
        rw [if_neg hg]
        show (if ([] : Chars) ≠ [] then _ else _) = _
        rw [if_neg (by simp)]
      rw [hRJ]
      apply canonPath_no_semi
      intro hct
      exact hg ⟨hsch, hct⟩

/-- The re-joined path of the parse built from components: the params
round trip applied when the scheme is in `uses_params`. -/
theorem rejoinedPath_pp (sch nl q fg P : Chars) :
    rejoinedPath ⟨sch, nl,
      (if sch ∈ usesParams ∧ P.contains ';' then splitparams P else (P, [])).1,
      (if sch ∈ usesParams ∧ P.contains ';' then splitparams P else (P, [])).2, q, fg⟩ =
    (if sch ∈ usesParams then canonPath P else P) := by
  unfold rejoinedPath
  by_cases hg : sch ∈ usesParams ∧ P.contains ';'
  · rw [if_pos hg]
    rcases hsp : splitparams P with ⟨a, b⟩
    rw [if_pos hg.1, canonPath_eq_of_splitparams hg.2 hsp]
  · rw [if_neg hg]
    show (if ([] : Chars) ≠ [] then P ++ ';' :: [] else P) = _
    rw [if_neg (by simp)]
    by_cases hs : sch ∈ usesParams
    · rw [if_pos hs, canonPath_no_semi (fun hct => hg ⟨hs, hct⟩)]
    · rw [if_neg hs]

/-- Conditional idempotence of normalization: when the parse of `u` has a
netloc or a re-joined path not starting with `//`, the normalized URL is
a fixed point of normalization. -/
theorem normalizeUrl_stable {u v : String} (h : normalizeUrl u = .ok v)
    (hcond : ∀ p, urlparseCore u.data [] = .ok p →
      p.netloc ≠ [] ∨ (rejoinedPath p).take 2 ≠ ['/', '/']) :
    normalizeUrl v = .ok v := by
  unfold normalizeUrl at h
  cases hp : urlparseCore u.data [] with
  | error e => simp [hp, exbind_error] at h
  | ok p =>
    simp only [hp, exbind_ok, Except.ok.injEq] at h
    subst h
    have hc := hcond p hp
    have hsplit2 := urlsplitCore_resplit hp hc
    have hsplit2' : urlsplitCore (String.mk (urlunparse { p with fragment := [] })).data [] =
        .ok (⟨p.scheme, p.netloc,
          (if p.netloc ≠ [] ∨ (p.scheme ≠ [] ∧ p.scheme ∈ usesNetloc ∧
              (rejoinedPath p).take 2 ≠ ['/', '/']) then prepSlash (rejoinedPath p)
           else rejoinedPath p), p.query, []⟩ : SplitResult) := hsplit2
    have hparse2 : urlparseCore (String.mk (urlunparse { p with fragment := [] })).data [] =
        .ok (⟨p.scheme, p.netloc,
          (if p.scheme ∈ usesParams ∧
              (if p.netloc ≠ [] ∨ (p.scheme ≠ [] ∧ p.scheme ∈ usesNetloc ∧
                  (rejoinedPath p).take 2 ≠ ['/', '/']) then prepSlash (rejoinedPath p)
               else rejoinedPath p).contains ';' then
            splitparams (if p.netloc ≠ [] ∨ (p.scheme ≠ [] ∧ p.scheme ∈ usesNetloc ∧
                (rejoinedPath p).take 2 ≠ ['/', '/']) then prepSlash (rejoinedPath p)
              else rejoinedPath p)
           else ((if p.netloc ≠ [] ∨ (p.scheme ≠ [] ∧ p.scheme ∈ usesNetloc ∧
                (rejoinedPath p).take 2 ≠ ['/', '/']) then prepSlash (rejoinedPath p)
              else rejoinedPath p), [])).1,
          (if p.scheme ∈ usesParams ∧
              (if p.netloc ≠ [] ∨ (p.scheme ≠ [] ∧ p.scheme ∈ usesNetloc ∧
                  (rejoinedPath p).take 2 ≠ ['/', '/']) then prepSlash (rejoinedPath p)
               else rejoinedPath p).contains ';' then
            splitparams (if p.netloc ≠ [] ∨ (p.scheme ≠ [] ∧ p.scheme ∈ usesNetloc ∧
                (rejoinedPath p).take 2 ≠ ['/', '/']) then prepSlash (rejoinedPath p)
              else rejoinedPath p)
           else ((if p.netloc ≠ [] ∨ (p.scheme ≠ [] ∧ p.scheme ∈ usesNetloc ∧
                (rejoinedPath p).take 2 ≠ ['/', '/']) then prepSlash (rejoinedPath p)
              else rejoinedPath p), [])).2,
          p.query, []⟩ : ParseResult) := by
      unfold urlparseCore
      rw [hsplit2', exbind_ok]
    have hstabPP : (if p.scheme ∈ usesParams then
        canonPath (if p.netloc ≠ [] ∨ (p.scheme ≠ [] ∧ p.scheme ∈ usesNetloc ∧
            (rejoinedPath p).take 2 ≠ ['/', '/']) then prepSlash (rejoinedPath p)
          else rejoinedPath p)
      else (if p.netloc ≠ [] ∨ (p.scheme ≠ [] ∧ p.scheme ∈ usesNetloc ∧
            (rejoinedPath p).take 2 ≠ ['/', '/']) then prepSlash (rejoinedPath p)
          else rejoinedPath p)) =
      (if p.netloc ≠ [] ∨ (p.scheme ≠ [] ∧ p.scheme ∈ usesNetloc ∧
          (rejoinedPath p).take 2 ≠ ['/', '/']) then prepSlash (rejoinedPath p)
       else rejoinedPath p) := by
      by_cases hg : p.scheme ∈ usesParams
      · rw [if_pos hg]
        have hstab := rejoined_canon_stable hp hg
        by_cases hUC : p.netloc ≠ [] ∨ (p.scheme ≠ [] ∧ p.scheme ∈ usesNetloc ∧
            (rejoinedPath p).take 2 ≠ ['/', '/'])
        · rw [if_pos hUC]
          exact canonPath_prepSlash hstab
        · rw [if_neg hUC]
          exact hstab
      · rw [if_neg hg]
    have hfinal : urlunsplit ⟨p.scheme, p.netloc,
        (if p.netloc ≠ [] ∨ (p.scheme ≠ [] ∧ p.scheme ∈ usesNetloc ∧
            (rejoinedPath p).take 2 ≠ ['/', '/']) then prepSlash (rejoinedPath p)
         else rejoinedPath p), p.query, []⟩ =
        urlunsplit ⟨p.scheme, p.netloc, rejoinedPath p, p.query, []⟩ := by
      by_cases hUC : p.netloc ≠ [] ∨ (p.scheme ≠ [] ∧ p.scheme ∈ usesNetloc ∧
          (rejoinedPath p).take 2 ≠ ['/', '/'])
      · rw [if_pos hUC, urlunsplit_explicit, urlunsplit_explicit]
        have hUC2 : p.netloc ≠ [] ∨ (p.scheme ≠ [] ∧ p.scheme ∈ usesNetloc ∧
            (prepSlash (rejoinedPath p)).take 2 ≠ ['/', '/']) := by
          rcases hUC with h1 | ⟨h1, h2, h3⟩
          · exact Or.inl h1
          · exact Or.inr ⟨h1, h2, prepSlash_take2 h3⟩
        simp only [if_pos hUC2, if_pos hUC, prepSlash_prepSlash]
      · rw [if_neg hUC]
    unfold normalizeUrl
    rw [hparse2, exbind_ok]
    show Except.ok (String.mk (urlunsplit ⟨p.scheme, p.netloc,
        rejoinedPath ⟨p.scheme, p.netloc,
          (if p.scheme ∈ usesParams ∧
              (if p.netloc ≠ [] ∨ (p.scheme ≠ [] ∧ p.scheme ∈ usesNetloc ∧
                  (rejoinedPath p).take 2 ≠ ['/', '/']) then prepSlash (rejoinedPath p)
               else rejoinedPath p).contains ';' then
            splitparams (if p.netloc ≠ [] ∨ (p.scheme ≠ [] ∧ p.scheme ∈ usesNetloc ∧
                (rejoinedPath p).take 2 ≠ ['/', '/']) then prepSlash (rejoinedPath p)
              else rejoinedPath p)
           else ((if p.netloc ≠ [] ∨ (p.scheme ≠ [] ∧ p.scheme ∈ usesNetloc ∧
                (rejoinedPath p).take 2 ≠ ['/', '/']) then prepSlash (rejoinedPath p)
              else rejoinedPath p), [])).1,
          (if p.scheme ∈ usesParams ∧
              (if p.netloc ≠ [] ∨ (p.scheme ≠ [] ∧ p.scheme ∈ usesNetloc ∧
                  (rejoinedPath p).take 2 ≠ ['/', '/']) then prepSlash (rejoinedPath p)
               else rejoinedPath p).contains ';' then
            splitparams (if p.netloc ≠ [] ∨ (p.scheme ≠ [] ∧ p.scheme ∈ usesNetloc ∧
                (rejoinedPath p).take 2 ≠ ['/', '/']) then prepSlash (rejoinedPath p)
              else rejoinedPath p)
           else ((if p.netloc ≠ [] ∨ (p.scheme ≠ [] ∧ p.scheme ∈ usesNetloc ∧
                (rejoinedPath p).take 2 ≠ ['/', '/']) then prepSlash (rejoinedPath p)
              else rejoinedPath p), [])).2,
          p.query, []⟩, p.query, []⟩)) = _
    rw [rejoinedPath_pp, hstabPP, hfinal]
    rfl

/-- Removing unsafe bytes distributes over a `'#'`-joined concatenation. -/
theorem removeUnsafe_hash_append (u f : Chars) :
    removeUnsafe (u ++ '#' :: f) = removeUnsafe u ++ '#' :: removeUnsafe f := by
  unfold removeUnsafe
  rw [List.filter_append, List.filter_cons]
  rfl

/-- A detected scheme survives appending to the URL. -/
theorem schemeSplit_append_some {U s rest : Chars} (X : Chars)
    (h : schemeSplit U = some (s, rest)) :
    schemeSplit (U ++ X) = some (s, rest ++ X) := by
  obtain ⟨c0, cs, hU, ha, hall, hsl, -⟩ := schemeSplit_eq_some h
  rw [hU, List.append_assoc]
  have : (':' :: rest) ++ X = ':' :: (rest ++ X) := rfl
  rw [this, schemeSplit_build _ ha hall, ← hsl]

/-- Scheme non-detection survives appending a `'#'`-headed tail. -/
theorem schemeSplit_hash_none {U : Chars} (F : Chars)
    (h : schemeSplit U = none) : schemeSplit (U ++ '#' :: F) = none := by
  cases hU : splitFirst ':' U with
  | some pr =>
    obtain ⟨pre, rest⟩ := pr
    obtain ⟨h1, h2⟩ := splitFirst_eq_some hU
    have hsf : splitFirst ':' (U ++ '#' :: F) = some (pre, rest ++ '#' :: F) := by
      rw [h1, List.append_assoc]
      exact splitFirst_append _ h2
    unfold schemeSplit at h ⊢
    rw [hU] at h
    rw [hsf]
    cases pre with
    | nil => rfl
    | cons c cs =>
      simp only [] at h ⊢
      split at h
      · exact absurd h (by simp)
      · rw [if_neg (by assumption)]
  | none =>
    have hUn : ':' ∉ U := splitFirst_eq_none.mp hU
    unfold schemeSplit
    cases hsf : splitFirst ':' (U ++ '#' :: F) with
    | none => rfl
    | some pr =>
      obtain ⟨pre, rest⟩ := pr
      obtain ⟨h1, h2⟩ := splitFirst_eq_some hsf
      have hmem : '#' ∈ pre := by
        rcases List.append_eq_append_iff.mp h1 with ⟨a', ha1, ha2⟩ | ⟨c', hc1, hc2⟩
        · cases a' with
          | nil =>
            exfalso
            have : '#' = ':' := by
              have := congrArg (fun l => l.head?) ha2
              simpa using this
            exact absurd this (by decide)
          | cons d ds =>
            have hd : d = '#' := by
              have := congrArg (fun l => l.head?) ha2
              simpa using this.symm
            subst hd
            rw [ha1]
            exact List.mem_append_right _ (List.mem_cons_self _ _)
        · cases c' with
          | nil =>
            exfalso
            have : '#' = ':' := by
              have := congrArg (fun l => l.head?) hc2
              simpa using this
            exact absurd this (by decide)
          | cons d ds =>
            exfalso
            have hd : d = ':' := by
              have := congrArg (fun l => l.head?) hc2
              exact (by simpa using this : ':' = d).symm
            apply hUn
            rw [hc1, hd]
            exact List.mem_append_right _ (List.mem_cons_self _ _)
      cases pre with
      | nil => rfl
      | cons c cs =>
        simp only []
        rw [if_neg]
        intro hcond
        have hallc := (Bool.and_eq_true_iff.mp hcond).2
        have := List.all_eq_true.mp hallc '#' hmem
        simp [schemeChar] at this

/-- A list not starting with `//` keeps that property when a
`'#'`-headed tail is appended. -/
theorem take2_append_hash {R : Chars} (F : Chars) (h : R.take 2 ≠ ['/', '/']) :
    (R ++ '#' :: F).take 2 ≠ ['/', '/'] := by
  match R with
  | [] =>
    intro hc
    simp [List.take] at hc
  | [c] =>
    intro hc
    simp [List.take] at hc
  | c1 :: c2 :: rest =>
    intro hc
    apply h
    simp only [List.cons_append, List.take] at hc ⊢
    exact hc

/-- `netSplit` after appending a `'#'`-headed tail: the netloc is
unchanged and the tail lands after the netloc. -/
theorem netSplit_hash (R F : Chars) :
    netSplit (R ++ '#' :: F) = ((netSplit R).1, (netSplit R).2 ++ '#' :: F) := by
  by_cases h2 : R.take 2 = ['/', '/']
  · obtain ⟨X, hX⟩ := take2_shape h2
    subst hX
    have he : ('/' :: '/' :: X) ++ '#' :: F = '/' :: '/' :: (X ++ '#' :: F) := rfl
    rw [he, netSplit_cons2, netSplit_cons2]
    have hp : (fun c => !netlocDelim c) '#' = false := by decide
    rw [takeWhile_append_stop hp, dropWhile_append_stop hp]
  · rw [netSplit_not_slash2 h2, netSplit_not_slash2 (take2_append_hash F h2)]

/-- The pre-fragment part is unchanged by appending a `'#'`-headed tail. -/
theorem fragSplit_fst_hash (Y F : Chars) :
    (fragSplit (Y ++ '#' :: F)).1 = (fragSplit Y).1 := by
  cases hf : splitFirst '#' Y with
  | none =>
    have hY : '#' ∉ Y := splitFirst_eq_none.mp hf
    rw [fragSplit_no_hash hY]
    unfold fragSplit
    rw [splitFirst_append F hY]
  | some pr =>
    obtain ⟨a, b⟩ := pr
    obtain ⟨h1, h2⟩ := splitFirst_eq_some hf
    have hfa : fragSplit Y = (a, b) := by
      unfold fragSplit
      rw [hf]
    rw [hfa]
    unfold fragSplit
    rw [h1, List.append_assoc,
        show ('#' :: b) ++ '#' :: F = '#' :: (b ++ '#' :: F) from rfl,
        splitFirst_append _ h2]

/-- `urlsplit` fails when the detected netloc has mismatched brackets. -/
theorem urlsplitCore_error_build {u s0 : Chars}
    (hb : bracketMismatch (netSplit (schemeDefSplit (removeUnsafe u) (removeUnsafe s0)).2).1 = true) :
    urlsplitCore u s0 = .error "Invalid IPv6 URL" := by
  simp only [urlsplitCore]
  rw [if_pos (by simp [hb])]

/-- `urlsplit` fails with the NFKC message when the bracket check passes
but the netloc fails `_checknetloc`. -/
theorem urlsplitCore_error_build_nfkc {u s0 : Chars}
    (hb : bracketMismatch (netSplit (schemeDefSplit (removeUnsafe u) (removeUnsafe s0)).2).1 = false)
    (hn : checknetlocError (netSplit (schemeDefSplit (removeUnsafe u) (removeUnsafe s0)).2).1 = true) :
    urlsplitCore u s0 =
      .error (nfkcErrorMsg (netSplit (schemeDefSplit (removeUnsafe u) (removeUnsafe s0)).2).1) := by
  simp only [urlsplitCore]
  rw [if_neg (by simp [hb]), if_pos (by simp [hn])]

/-- Appending a fragment to a URL: `urlsplit` agrees on every component
except the fragment, and fails in exactly the same cases. -/
theorem urlsplitCore_fragment_append (u f : Chars) :
    (∃ r r', urlsplitCore u [] = .ok r ∧ urlsplitCore (u ++ '#' :: f) [] = .ok r' ∧
      r'.scheme = r.scheme ∧ r'.netloc = r.netloc ∧ r'.path = r.path ∧ r'.query = r.query) ∨
    (∃ e, urlsplitCore u [] = .error e ∧ urlsplitCore (u ++ '#' :: f) [] = .error e) := by
  have hru : removeUnsafe (u ++ '#' :: f) = removeUnsafe u ++ '#' :: removeUnsafe f :=
    removeUnsafe_hash_append u f
  have hsd2 : schemeDefSplit (removeUnsafe u ++ '#' :: removeUnsafe f) [] =
      ((schemeDefSplit (removeUnsafe u) []).1,
       (schemeDefSplit (removeUnsafe u) []).2 ++ '#' :: removeUnsafe f) := by
    cases hss : schemeSplit (removeUnsafe u) with
    | none =>
      unfold schemeDefSplit
      rw [hss, schemeSplit_hash_none _ hss]
    | some pr =>
      obtain ⟨a, b⟩ := pr
      unfold schemeDefSplit
      rw [hss, schemeSplit_append_some _ hss]
  have hns2 : netSplit (schemeDefSplit (removeUnsafe (u ++ '#' :: f)) (removeUnsafe ([] : Chars))).2 =
      ((netSplit (schemeDefSplit (removeUnsafe u) (removeUnsafe ([] : Chars))).2).1,
       (netSplit (schemeDefSplit (removeUnsafe u) (removeUnsafe ([] : Chars))).2).2 ++
         '#' :: removeUnsafe f) := by
    rw [show removeUnsafe ([] : Chars) = [] from rfl, hru, hsd2]
    exact netSplit_hash _ _
  by_cases hbm : bracketMismatch
      (netSplit (schemeDefSplit (removeUnsafe u) (removeUnsafe ([] : Chars))).2).1 = true
  · right
    refine ⟨"Invalid IPv6 URL", urlsplitCore_error_build hbm, urlsplitCore_error_build ?_⟩
    rw [hns2]
    exact hbm
  · have hbm' : bracketMismatch
        (netSplit (schemeDefSplit (removeUnsafe u) (removeUnsafe ([] : Chars))).2).1 = false :=
      Bool.not_eq_true _ ▸ (by simpa using hbm)
    have hbm2 : bracketMismatch
        (netSplit (schemeDefSplit (removeUnsafe (u ++ '#' :: f)) (removeUnsafe ([] : Chars))).2).1 =
        false := by
      rw [hns2]
      exact hbm'
    by_cases hnm : checknetlocError
        (netSplit (schemeDefSplit (removeUnsafe u) (removeUnsafe ([] : Chars))).2).1 = true
    · refine Or.inr ⟨nfkcErrorMsg
          (netSplit (schemeDefSplit (removeUnsafe u) (removeUnsafe ([] : Chars))).2).1,
        urlsplitCore_error_build_nfkc hbm' hnm, ?_⟩
      have h2 := urlsplitCore_error_build_nfkc hbm2
        (show checknetlocError (netSplit (schemeDefSplit (removeUnsafe (u ++ '#' :: f))
          (removeUnsafe ([] : Chars))).2).1 = true by rw [hns2]; exact hnm)
      rw [h2, hns2]
    · have hnm' : checknetlocError
          (netSplit (schemeDefSplit (removeUnsafe u) (removeUnsafe ([] : Chars))).2).1 = false := by
        simpa using hnm
      have hnm2 : checknetlocError
          (netSplit (schemeDefSplit (removeUnsafe (u ++ '#' :: f)) (removeUnsafe ([] : Chars))).2).1 =
          false := by
        rw [hns2]
        exact hnm'
      refine Or.inl ⟨_, _, urlsplitCore_build hbm' hnm', urlsplitCore_build hbm2 hnm2,
        ?_, ?_, ?_, ?_⟩
      · show (schemeDefSplit (removeUnsafe (u ++ '#' :: f)) (removeUnsafe ([] : Chars))).1 = _
        rw [show removeUnsafe ([] : Chars) = [] from rfl, hru, hsd2]
      · show (netSplit (schemeDefSplit (removeUnsafe (u ++ '#' :: f)) (removeUnsafe ([] : Chars))).2).1 = _
        rw [hns2]
      · show (querySplit (fragSplit (netSplit (schemeDefSplit (removeUnsafe (u ++ '#' :: f))
          (removeUnsafe ([] : Chars))).2).2).1).1 = _
        rw [hns2]
        show (querySplit (fragSplit ((netSplit (schemeDefSplit (removeUnsafe u)
          (removeUnsafe ([] : Chars))).2).2 ++ '#' :: removeUnsafe f)).1).1 = _
        rw [fragSplit_fst_hash]
      · show (querySplit (fragSplit (netSplit (schemeDefSplit (removeUnsafe (u ++ '#' :: f))
          (removeUnsafe ([] : Chars))).2).2).1).2 = _
        rw [hns2]
        show (querySplit (fragSplit ((netSplit (schemeDefSplit (removeUnsafe u)
          (removeUnsafe ([] : Chars))).2).2 ++ '#' :: removeUnsafe f)).1).2 = _
        rw [fragSplit_fst_hash]

/-- Fragment erasure: appending `#f` to any URL does not change its
normalization. -/
theorem normalizeUrl_fragment_append (u f : String) :
    normalizeUrl (String.mk (u.data ++ '#' :: f.data)) = normalizeUrl u := by
  rcases urlsplitCore_fragment_append u.data f.data with
    ⟨r, r', hok, hok', hsc, hnl, hpa, hqu⟩ | ⟨e, herr, herr'⟩
  · have hp : urlparseCore u.data [] =
        .ok ⟨r.scheme, r.netloc,
          (if r.scheme ∈ usesParams ∧ r.path.contains ';' then splitparams r.path
            else (r.path, [])).1,
          (if r.scheme ∈ usesParams ∧ r.path.contains ';' then splitparams r.path
            else (r.path, [])).2, r.query, r.fragment⟩ := by
      unfold urlparseCore
      rw [hok, exbind_ok]
    have hp' : urlparseCore (String.mk (u.data ++ '#' :: f.data)).data [] =
        .ok ⟨r.scheme, r.netloc,
          (if r.scheme ∈ usesParams ∧ r.path.contains ';' then splitparams r.path
            else (r.path, [])).1,
          (if r.scheme ∈ usesParams ∧ r.path.contains ';' then splitparams r.path
            else (r.path, [])).2, r.query, r'.fragment⟩ := by
      unfold urlparseCore
      rw [show (String.mk (u.data ++ '#' :: f.data)).data = u.data ++ '#' :: f.data from rfl,
          hok', exbind_ok, hsc, hnl, hpa, hqu]
    unfold normalizeUrl
    rw [hp, hp', exbind_ok, exbind_ok]
  · have hpe : urlparseCore u.data [] = .error e := by
      unfold urlparseCore
      rw [herr, exbind_error]
    have hpe' : urlparseCore (u.data ++ '#' :: f.data) [] = .error e := by
      unfold urlparseCore
      rw [herr', exbind_error]
    unfold normalizeUrl
    rw [show (String.mk (u.data ++ '#' :: f.data)).data = u.data ++ '#' :: f.data from rfl,
        hpe, hpe', exbind_error]

/-- C7 (corrected): normalization is idempotent for every URL whose parse
yields a netloc or a re-joined path that does not begin with `//` (the
unrestricted statement is refuted by `normalize_not_idempotent`), and
fragment erasure holds unconditionally: appending `#f` to any URL leaves
its normalization unchanged. -/
theorem normalize_idempotent_amended :
    (∀ u v : String, normalizeUrl u = .ok v →
      (∀ p, urlparseCore u.data [] = .ok p →
        p.netloc ≠ [] ∨ (rejoinedPath p).take 2 ≠ ['/', '/']) →
      normalizeUrl v = .ok v) ∧
    (∀ u f : String, normalizeUrl (String.mk (u.data ++ '#' :: f.data)) = normalizeUrl u) :=
  ⟨fun _ _ h hc => normalizeUrl_stable h hc, normalizeUrl_fragment_append⟩

/-- Witness for `normalize_idempotent_amended` at a concrete URL. -/
theorem normalize_idempotent_amended_witness :
    normalizeUrl "http://example.com/a" = .ok "http://example.com/a" ∧
    normalizeUrl (String.mk ("http://example.com".data ++ '#' :: "x".data)) =
      normalizeUrl "http://example.com" := by
  constructor
  · apply normalize_idempotent_amended.1 "http://example.com/a" "http://example.com/a"
    · rfl
    · intro p hp
      have h0 : urlparseCore "http://example.com/a".data [] =
          .ok ⟨"http".data, "example.com".data, "/a".data, [], [], []⟩ := by rfl
      rw [h0] at hp
      injection hp with h
      subst h
      decide
  · exact normalize_idempotent_amended.2 "http://example.com" "x"

/-- Filtering with a stronger predicate yields a list at most as long. -/
theorem filter_length_mono {p q : String → Bool}
    (hpq : ∀ a, q a = true → p a = true) :
    ∀ l : List String, (l.filter q).length ≤ (l.filter p).length := by
  intro l
  induction l with
  | nil => simp
  | cons a t ih =>
    by_cases hq : q a = true
    · rw [List.filter_cons_of_pos hq, List.filter_cons_of_pos (hpq a hq)]
      simpa using ih
    · rw [List.filter_cons_of_neg (by simpa using hq)]
      by_cases hp : p a = true
      · rw [List.filter_cons_of_pos hp]
        exact Nat.le_succ_of_le ih
      · rw [List.filter_cons_of_neg (by simpa using hp)]
        exact ih

/-- Filtering with a strictly stronger predicate that rejects a list
member accepted by the weaker one is strictly shorter. -/
theorem filter_length_lt {p q : String → Bool} {x : String} :
    ∀ {l : List String}, x ∈ l → q x = false → p x = true →
      (∀ a, q a = true → p a = true) →
      (l.filter q).length < (l.filter p).length := by
  intro l
  induction l with
  | nil => intro hx; exact absurd hx (List.not_mem_nil x)
  | cons a t ih =>
    intro hx hqx hpx hpq
    rcases List.mem_cons.mp hx with rfl | hxt
    · rw [List.filter_cons_of_neg (by simp [hqx]), List.filter_cons_of_pos hpx]
      exact Nat.lt_succ_of_le (filter_length_mono hpq t)
    · by_cases hq : q a = true
      · rw [List.filter_cons_of_pos hq, List.filter_cons_of_pos (hpq a hq)]
        simpa using ih hxt hqx hpx hpq
      · rw [List.filter_cons_of_neg (by simpa using hq)]
        by_cases hp : p a = true
        · rw [List.filter_cons_of_pos hp]
          exact Nat.lt_succ_of_lt (ih hxt hqx hpx hpq)
        · rw [List.filter_cons_of_neg (by simpa using hp)]
          exact ih hxt hqx hpx hpq

/-- The last element reported by `getLast?` is a member of the list. -/
theorem mem_of_getLast? {l : List String} {a : String}
    (h : l.getLast? = some a) : a ∈ l := by
  induction l with
  | nil => simp [List.getLast?] at h
  | cons b t ih =>
    cases t with
    | nil =>
      simp only [List.getLast?_singleton, Option.some.injEq] at h
      subst h
      exact List.mem_singleton_self _
    | cons c ts =>
      rw [List.getLast?_cons_cons] at h
      exact List.mem_cons_of_mem b (ih h)

/-- The link-extraction loop appends at most one Frontier entry per href. -/
theorem pushLinks_length {domain sp base : String} {exclude visited : List String} :
    ∀ (hrefs tv tv' : List String),
      pushLinks domain sp exclude visited base hrefs tv = .ok tv' →
      tv'.length ≤ tv.length + hrefs.length := by
  intro hrefs
  induction hrefs with
  | nil =>
    intro tv tv' h
    simp only [pushLinks, Except.ok.injEq] at h
    subst h
    simp
  | cons href rest ih =>
    intro tv tv' h
    simp only [pushLinks] at h
    cases hc : linkCandidate base href with
    | error e => simp [hc, exbind_error] at h
    | ok cand =>
      simp only [hc, exbind_ok] at h
      cases cand with
      | none =>
        have := ih tv tv' h
        simp only [List.length_cons]
        omega
      | some full =>
        cases ha : admitLink domain sp exclude visited full with
        | error e => simp [ha, exbind_error] at h
        | ok adm =>
          simp only [ha, exbind_ok] at h
          cases adm with
          | false =>
            simp only [if_false, Bool.false_eq_true, if_neg] at h
            have := ih tv tv' (by simpa using h)
            simp only [List.length_cons]
            omega
          | true =>
            simp only [if_true] at h
            have := ih (tv ++ [full]) tv' (by simpa using h)
            simp only [List.length_append, List.length_cons, List.length_nil] at this ⊢
            omega

/-- Every Frontier entry produced by the link-extraction loop either was
already present or is a candidate resolved from one of the hrefs. -/
theorem pushLinks_mem_hrefs {domain sp base : String} {exclude visited : List String} :
    ∀ (hrefs tv tv' : List String),
      pushLinks domain sp exclude visited base hrefs tv = .ok tv' →
      ∀ u ∈ tv', u ∈ tv ∨ ∃ href ∈ hrefs, linkCandidate base href = .ok (some u) := by
  intro hrefs
  induction hrefs with
  | nil =>
    intro tv tv' h u hu
    simp only [pushLinks, Except.ok.injEq] at h
    subst h
    exact Or.inl hu
  | cons href rest ih =>
    intro tv tv' h u hu
    simp only [pushLinks] at h
    cases hc : linkCandidate base href with
    | error e => simp [hc, exbind_error] at h
    | ok cand =>
      simp only [hc, exbind_ok] at h
      cases cand with
      | none =>
        rcases ih tv tv' h u hu with h1 | ⟨hr, hm, hcand⟩
        · exact Or.inl h1
        · exact Or.inr ⟨hr, List.mem_cons_of_mem href hm, hcand⟩
      | some full =>
        cases ha : admitLink domain sp exclude visited full with
        | error e => simp [ha, exbind_error] at h
        | ok adm =>
          simp only [ha, exbind_ok] at h
          cases adm with
          | false =>
            simp only [if_false, Bool.false_eq_true, if_neg] at h
            rcases ih tv tv' (by simpa using h) u hu with h1 | ⟨hr, hm, hcand⟩
            · exact Or.inl h1
            · exact Or.inr ⟨hr, List.mem_cons_of_mem href hm, hcand⟩
          | true =>
            simp only [if_true] at h
            rcases ih (tv ++ [full]) tv' (by simpa using h) u hu with h1 | ⟨hr, hm, hcand⟩
            · rcases List.mem_append.mp h1 with h2 | h2
              · exact Or.inl h2
              · rcases List.mem_singleton.mp h2 with rfl
                exact Or.inr ⟨href, List.mem_cons_self href rest, hc⟩
            · exact Or.inr ⟨hr, List.mem_cons_of_mem href hm, hcand⟩

/-- Every Frontier entry newly produced by the link-extraction loop is a
resolved candidate from one of the hrefs that passed the admission test. -/
theorem pushLinks_mem_admitted {domain sp base : String} {exclude visited : List String}
    {hrefs tv tv' : List String}
    (h : pushLinks domain sp exclude visited base hrefs tv = .ok tv') {u : String}
    (hu : u ∈ tv') :
    u ∈ tv ∨ ((∃ href ∈ hrefs, linkCandidate base href = .ok (some u)) ∧
      admitLink domain sp exclude visited u = .ok true) := by
  by_cases htv : u ∈ tv
  · exact Or.inl htv
  · rcases pushLinks_mem hrefs tv tv' h u hu with h1 | h1
    · exact absurd h1 htv
    · rcases pushLinks_mem_hrefs hrefs tv tv' h u hu with h2 | h2
      · exact absurd h2 htv
      · exact Or.inr ⟨h2, h1⟩

/-- One successful crawl step preserves Frontier soundness and strictly
decreases the termination measure.  The universe `U` need only absorb the
normalizations of candidates that pass the domain and subpath predicates,
and the link bound `L` need only cover pages fetched from `U`. -/
theorem crawlStep_progress {domain sp : String} {exclude : List String} {C : Collab}
    {U : List String} {L : Nat} {s s2 : CWState}
    (hL : ∀ v ∈ U, ∀ body, C.http v = some body → (C.extractLinks body).length ≤ L)
    (hlinks : ∀ v ∈ U, ∀ body, C.http v = some body → ∀ href ∈ C.extractLinks body,
      ∀ full, linkCandidate v href = .ok (some full) →
      is_internal_link full domain = .ok true → is_in_subpath full sp = .ok true →
      ∀ w, normalizeUrl full = .ok w → w ∈ U)
    (hInv : FrontierInU U s) (hne : s.to_visit ≠ [])
    (h : crawlStep domain sp exclude C s = .ok s2) :
    FrontierInU U s2 ∧ measureCW U L s2 < measureCW U L s := by
  have hlen : 0 < s.to_visit.length := List.length_pos.mpr hne
  unfold crawlStep at h
  cases hp : popLast s.to_visit with
  | none =>
    exfalso
    unfold popLast at hp
    cases hgl : s.to_visit.getLast? with
    | some a => simp [hgl] at hp
    | none =>
      cases hl : s.to_visit with
      | nil => exact hne hl
      | cons a t =>
        rw [hl] at hgl
        have := List.getLast?_isSome (l := a :: t)
        simp [hgl] at this
  | some pr =>
    obtain ⟨cur, rest⟩ := pr
    obtain ⟨hgl, hrest⟩ := popLast_some hp
    have hcur : cur ∈ s.to_visit := mem_of_getLast? hgl
    have hrlen : rest.length + 1 = s.to_visit.length := by
      rw [hrest, List.length_dropLast]
      omega
    have hrest_mem : ∀ x ∈ rest, x ∈ s.to_visit := by
      intro x hx
      rw [hrest] at hx
      exact mem_of_mem_dropLast hx
    simp only [hp] at h
    cases hn : normalizeUrl cur with
    | error e => simp [hn, exbind_error] at h
    | ok v =>
      simp only [hn, exbind_ok] at h
      have hvU : v ∈ U := hInv cur hcur v hn
      by_cases hv : v ∈ s.visited
      · simp only [hv, if_true, Except.ok.injEq] at h
        subst h
        refine ⟨fun x hx w hw => hInv x (hrest_mem x hx) w hw, ?_⟩
        unfold measureCW
        simp only []
        exact Nat.add_lt_add_left (by omega) _
      · simp only [hv, if_false] at h
        have hflt : (U.filter (fun x => decide (x ∉ v :: s.visited))).length <
            (U.filter (fun x => decide (x ∉ s.visited))).length := by
          refine filter_length_lt hvU (by simp) (by simp [hv]) ?_
          intro a ha
          simp only [decide_eq_true_eq] at ha ⊢
          intro hmem
          exact ha (List.mem_cons_of_mem v hmem)
        cases hh : C.http v with
        | none =>
          simp only [hh, Except.ok.injEq] at h
          subst h
          refine ⟨fun x hx w hw => hInv x (hrest_mem x hx) w hw, ?_⟩
          unfold measureCW
          simp only []
          exact Nat.add_lt_add (Nat.mul_lt_mul_of_pos_right hflt (Nat.succ_pos L)) (by omega)
        | some body =>
          simp only [hh] at h
          cases ht : pushLinks domain sp exclude (v :: s.visited) v
              (C.extractLinks body) rest with
          | error e => simp [ht, exbind_error] at h
          | ok tv =>
            simp only [ht, exbind_ok, Except.ok.injEq] at h
            subst h
            constructor
            · intro x hx w hw
              rcases pushLinks_mem_admitted ht hx with h1 | ⟨⟨href, hm, hcand⟩, hadm⟩
              · exact hInv x (hrest_mem x h1) w hw
              · obtain ⟨hint, -, hsub, -⟩ := admitLink_ok_true hadm
                exact hlinks v hvU body hh href hm x hcand hint hsub w hw
            · unfold measureCW
              simp only []
              have hlen1 : tv.length ≤ rest.length + (C.extractLinks body).length :=
                pushLinks_length _ _ _ ht
              have hlen2 : (C.extractLinks body).length ≤ L := hL v hvU body hh
              have hf1 : (U.filter (fun x => decide (x ∉ v :: s.visited))).length + 1 ≤
                  (U.filter (fun x => decide (x ∉ s.visited))).length := hflt
              have hmul : ((U.filter (fun x => decide (x ∉ v :: s.visited))).length + 1) *
                  (L + 1) ≤
                  (U.filter (fun x => decide (x ∉ s.visited))).length * (L + 1) :=
                Nat.mul_le_mul_right _ hf1
              rw [Nat.succ_mul] at hmul
              generalize (U.filter (fun x => decide (x ∉ v :: s.visited))).length * (L + 1) = A
                at hmul ⊢
              generalize (U.filter (fun x => decide (x ∉ s.visited))).length * (L + 1) = B
                at hmul ⊢
              omega

/-- The fuel-indexed crawl loop reaches a terminal outcome from any state
whose Frontier is sound for a finite universe: enough fuel exhausts the
Frontier or aborts with an error. -/
theorem runCW_terminates {domain sp : String} {exclude : List String} {C : Collab}
    {U : List String} {L : Nat}
    (hL : ∀ v ∈ U, ∀ body, C.http v = some body → (C.extractLinks body).length ≤ L)
    (hlinks : ∀ v ∈ U, ∀ body, C.http v = some body → ∀ href ∈ C.extractLinks body,
      ∀ full, linkCandidate v href = .ok (some full) →
      is_internal_link full domain = .ok true → is_in_subpath full sp = .ok true →
      ∀ w, normalizeUrl full = .ok w → w ∈ U) :
    ∀ (k : Nat) (s : CWState), FrontierInU U s → measureCW U L s ≤ k →
      ∃ n, (∃ e, runCW domain sp exclude C n s = .error e) ∨
        (∃ s', runCW domain sp exclude C n s = .ok s' ∧ s'.to_visit = []) := by
  intro k
  induction k with
  | zero =>
    intro s hInv hm
    have hz : s.to_visit = [] := by
      unfold measureCW at hm
      have h0 := Nat.le_zero.mp hm
      exact List.length_eq_zero.mp (by omega)
    exact ⟨1, Or.inr ⟨s, by simp [runCW, hz], hz⟩⟩
  | succ k ih =>
    intro s hInv hm
    by_cases hz : s.to_visit = []
    · exact ⟨1, Or.inr ⟨s, by simp [runCW, hz], hz⟩⟩
    · cases hs : crawlStep domain sp exclude C s with
      | error e =>
        refine ⟨1, Or.inl ⟨e, ?_⟩⟩
        simp [runCW, hz, hs, exbind_error]
      | ok s2 =>
        obtain ⟨hInv2, hlt⟩ := crawlStep_progress hL hlinks hInv hz hs
        obtain ⟨n, hterm⟩ := ih s2 hInv2 (by omega)
        refine ⟨n + 1, ?_⟩
        have hrun : runCW domain sp exclude C (n + 1) s =
            runCW domain sp exclude C n s2 := by
          simp [runCW, hz, hs, exbind_ok]
        rw [hrun]
        exact hterm

/-- The `list_paths` link-extraction loop appends at most one Frontier
entry per href. -/
theorem pushLinksLP_length {domain sp base : String} {visited : List String} :
    ∀ (hrefs tv urls : List String) (r : List String × List String),
      pushLinksLP domain sp visited base hrefs tv urls = .ok r →
      r.1.length ≤ tv.length + hrefs.length := by
  intro hrefs
  induction hrefs with
  | nil =>
    intro tv urls r h
    simp only [pushLinksLP, Except.ok.injEq] at h
    subst h
    simp
  | cons href rest ih =>
    intro tv urls r h
    simp only [pushLinksLP] at h
    cases hc : linkCandidate base href with
    | error e => simp [hc, exbind_error] at h
    | ok cand =>
      simp only [hc, exbind_ok] at h
      cases cand with
      | none =>
        have := ih tv urls r h
        simp only [List.length_cons]
        omega
      | some full =>
        cases hi : is_internal_link full domain with
        | error e => simp [hi, exbind_error] at h
        | ok internal =>
          simp only [hi, exbind_ok] at h
          by_cases hcond : internal = true ∧ full ∉ visited
          · rw [if_pos hcond] at h
            cases hsub : is_in_subpath full sp with
            | error e => simp [hsub, exbind_error] at h
            | ok sub =>
              simp only [hsub, exbind_ok] at h
              cases sub with
              | false =>
                simp only [Bool.false_eq_true, if_neg] at h
                have := ih _ _ r (by simpa using h)
                simp only [List.length_cons]
                omega
              | true =>
                simp only [if_true] at h
                have := ih (tv ++ [full]) _ r (by simpa using h)
                simp only [List.length_append, List.length_cons, List.length_nil] at this ⊢
                omega
          · rw [if_neg hcond] at h
            have := ih _ _ r h
            simp only [List.length_cons]
            omega

/-- Every Frontier entry newly produced by the `list_paths`
link-extraction loop is a resolved candidate from one of the hrefs that
passed the same-domain and within-subpath predicates. -/
theorem pushLinksLP_mem_admitted {domain sp base : String} {visited : List String} :
    ∀ (hrefs tv urls : List String) (r : List String × List String),
      pushLinksLP domain sp visited base hrefs tv urls = .ok r →
      ∀ u ∈ r.1, u ∈ tv ∨ ((∃ href ∈ hrefs, linkCandidate base href = .ok (some u)) ∧
        is_internal_link u domain = .ok true ∧ is_in_subpath u sp = .ok true) := by
  intro hrefs
  induction hrefs with
  | nil =>
    intro tv urls r h u hu
    simp only [pushLinksLP, Except.ok.injEq] at h
    subst h
    exact Or.inl hu
  | cons href rest ih =>
    intro tv urls r h u hu
    simp only [pushLinksLP] at h
    cases hc : linkCandidate base href with
    | error e => simp [hc, exbind_error] at h
    | ok cand =>
      simp only [hc, exbind_ok] at h
      cases cand with
      | none =>
        rcases ih tv urls r h u hu with h1 | ⟨⟨hr, hm, hcand⟩, hrest⟩
        · exact Or.inl h1
        · exact Or.inr ⟨⟨hr, List.mem_cons_of_mem href hm, hcand⟩, hrest⟩
      | some full =>
        cases hi : is_internal_link full domain with
        | error e => simp [hi, exbind_error] at h
        | ok internal =>
          simp only [hi, exbind_ok] at h
          by_cases hcond : internal = true ∧ full ∉ visited
          · rw [if_pos hcond] at h
            cases hsub : is_in_subpath full sp with
            | error e => simp [hsub, exbind_error] at h
            | ok sub =>
              simp only [hsub, exbind_ok] at h
              cases sub with
              | false =>
                simp only [Bool.false_eq_true, if_neg] at h
                rcases ih _ _ r (by simpa using h) u hu with h1 | ⟨⟨hr, hm, hcand⟩, hrest⟩
                · exact Or.inl h1
                · exact Or.inr ⟨⟨hr, List.mem_cons_of_mem href hm, hcand⟩, hrest⟩
              | true =>
                simp only [if_true] at h
                rcases ih _ _ r (by simpa using h) u hu with h1 | ⟨⟨hr, hm, hcand⟩, hrest⟩
                · rcases List.mem_append.mp h1 with h2 | h2
                  · exact Or.inl h2
                  · rcases List.mem_singleton.mp h2 with rfl
                    exact Or.inr ⟨⟨href, List.mem_cons_self href rest, hc⟩,
                      hcond.1 ▸ hi, hsub⟩
                · exact Or.inr ⟨⟨hr, List.mem_cons_of_mem href hm, hcand⟩, hrest⟩
          · rw [if_neg hcond] at h
            rcases ih _ _ r h u hu with h1 | ⟨⟨hr, hm, hcand⟩, hrest⟩
            · exact Or.inl h1
            · exact Or.inr ⟨⟨hr, List.mem_cons_of_mem href hm, hcand⟩, hrest⟩

/-- One successful `list_paths` step preserves Frontier soundness and
strictly decreases the termination measure. -/
theorem lpStep_progress {domain sp : String} {C : Collab}
    {U : List String} {L : Nat} {s s2 : LPState}
    (hL : ∀ v ∈ U, ∀ body, C.http v = some body → (C.extractLinks body).length ≤ L)
    (hlinks : ∀ v ∈ U, ∀ body, C.http v = some body → ∀ href ∈ C.extractLinks body,
      ∀ full, linkCandidate v href = .ok (some full) →
      is_internal_link full domain = .ok true → is_in_subpath full sp = .ok true →
      ∀ w, normalizeUrl full = .ok w → w ∈ U)
    (hInv : FrontierInULP U s) (hne : s.to_visit ≠ [])
    (h : listPathsStep domain sp C s = .ok s2) :
    FrontierInULP U s2 ∧ measureLP U L s2 < measureLP U L s := by
  have hlen : 0 < s.to_visit.length := List.length_pos.mpr hne
  unfold listPathsStep at h
  cases hp : popLast s.to_visit with
  | none =>
    exfalso
    unfold popLast at hp
    cases hgl : s.to_visit.getLast? with
    | some a => simp [hgl] at hp
    | none =>
      cases hl : s.to_visit with
      | nil => exact hne hl
      | cons a t =>
        rw [hl] at hgl
        have := List.getLast?_isSome (l := a :: t)
        simp [hgl] at this
  | some pr =>
    obtain ⟨cur, rest⟩ := pr
    obtain ⟨hgl, hrest⟩ := popLast_some hp
    have hcur : cur ∈ s.to_visit := mem_of_getLast? hgl
    have hrlen : rest.length + 1 = s.to_visit.length := by
      rw [hrest, List.length_dropLast]
      omega
    have hrest_mem : ∀ x ∈ rest, x ∈ s.to_visit := by
      intro x hx
      rw [hrest] at hx
      exact mem_of_mem_dropLast hx
    simp only [hp] at h
    cases hn : normalizeUrl cur with
    | error e => simp [hn, exbind_error] at h
    | ok v =>
      simp only [hn, exbind_ok] at h
      have hvU : v ∈ U := hInv cur hcur v hn
      by_cases hv : v ∈ s.visited
      · simp only [hv, if_true, Except.ok.injEq] at h
        subst h
        refine ⟨fun x hx w hw => hInv x (hrest_mem x hx) w hw, ?_⟩
        unfold measureLP
        simp only []
        exact Nat.add_lt_add_left (by omega) _
      · simp only [hv, if_false] at h
        have hflt : (U.filter (fun x => decide (x ∉ v :: s.visited))).length <
            (U.filter (fun x => decide (x ∉ s.visited))).length := by
          refine filter_length_lt hvU (by simp) (by simp [hv]) ?_
          intro a ha
          simp only [decide_eq_true_eq] at ha ⊢
          intro hmem
          exact ha (List.mem_cons_of_mem v hmem)
        cases hh : C.http v with
        | none =>
          simp only [hh, Except.ok.injEq] at h
          subst h
          refine ⟨fun x hx w hw => hInv x (hrest_mem x hx) w hw, ?_⟩
          unfold measureLP
          simp only []
          exact Nat.add_lt_add (Nat.mul_lt_mul_of_pos_right hflt (Nat.succ_pos L)) (by omega)
        | some body =>
          simp only [hh] at h
          cases ht : pushLinksLP domain sp (v :: s.visited) v (C.extractLinks body) rest
              (s.urls_found ++ [v]) with
          | error e => simp [ht, exbind_error] at h
          | ok r =>
            simp only [ht, exbind_ok, Except.ok.injEq] at h
            subst h
            constructor
            · intro x hx w hw
              rcases pushLinksLP_mem_admitted _ _ _ _ ht x hx with
                h1 | ⟨⟨href, hm, hcand⟩, hint, hsub⟩
              · exact hInv x (hrest_mem x h1) w hw
              · exact hlinks v hvU body hh href hm x hcand hint hsub w hw
            · unfold measureLP
              simp only []
              have hlen1 : r.1.length ≤ rest.length + (C.extractLinks body).length :=
                pushLinksLP_length _ _ _ _ ht
              have hlen2 : (C.extractLinks body).length ≤ L := hL v hvU body hh
              have hf1 : (U.filter (fun x => decide (x ∉ v :: s.visited))).length + 1 ≤
                  (U.filter (fun x => decide (x ∉ s.visited))).length := hflt
              have hmul : ((U.filter (fun x => decide (x ∉ v :: s.visited))).length + 1) *
                  (L + 1) ≤
                  (U.filter (fun x => decide (x ∉ s.visited))).length * (L + 1) :=
                Nat.mul_le_mul_right _ hf1
              rw [Nat.succ_mul] at hmul
              generalize (U.filter (fun x => decide (x ∉ v :: s.visited))).length * (L + 1) = A
                at hmul ⊢
              generalize (U.filter (fun x => decide (x ∉ s.visited))).length * (L + 1) = B
                at hmul ⊢
              omega

/-- The fuel-indexed `list_paths` loop reaches a terminal outcome from
any state whose Frontier is sound for a finite universe. -/
theorem runLP_terminates {domain sp : String} {C : Collab}
    {U : List String} {L : Nat}
    (hL : ∀ v ∈ U, ∀ body, C.http v = some body → (C.extractLinks body).length ≤ L)
    (hlinks : ∀ v ∈ U, ∀ body, C.http v = some body → ∀ href ∈ C.extractLinks body,
      ∀ full, linkCandidate v href = .ok (some full) →
      is_internal_link full domain = .ok true → is_in_subpath full sp = .ok true →
      ∀ w, normalizeUrl full = .ok w → w ∈ U) :
    ∀ (k : Nat) (s : LPState), FrontierInULP U s → measureLP U L s ≤ k →
      ∃ n, (∃ e, runLP domain sp C n s = .error e) ∨
        (∃ t', runLP domain sp C n s = .ok t' ∧ t'.to_visit = []) := by
  intro k
  induction k with
  | zero =>
    intro s hInv hm
    have hz : s.to_visit = [] := by
      unfold measureLP at hm
      have h0 := Nat.le_zero.mp hm
      exact List.length_eq_zero.mp (by omega)
    exact ⟨1, Or.inr ⟨s, by simp [runLP, hz], hz⟩⟩
  | succ k ih =>
    intro s hInv hm
    by_cases hz : s.to_visit = []
    · exact ⟨1, Or.inr ⟨s, by simp [runLP, hz], hz⟩⟩
    · cases hs : listPathsStep domain sp C s with
      | error e =>
        refine ⟨1, Or.inl ⟨e, ?_⟩⟩
        simp [runLP, hz, hs, exbind_error]
      | ok s2 =>
        obtain ⟨hInv2, hlt⟩ := lpStep_progress hL hlinks hInv hz hs
        obtain ⟨n, hterm⟩ := ih s2 hInv2 (by omega)
        refine ⟨n + 1, ?_⟩
        have hrun : runLP domain sp C (n + 1) s = runLP domain sp C n s2 := by
          simp [runLP, hz, hs, exbind_ok]
        rw [hrun]
        exact hterm

/-- C4: both traversal loops terminate whenever the link graph reachable
from the start URL under the domain and subpath restrictions is finite —
if the start URL normalizes into a finite universe `U`, every page
fetched from `U` yields at most `L` links, and every discovered candidate
that passes the same-domain and within-subpath predicates normalizes back
into `U`, then some fuel makes `crawl_website`, and likewise
`list_paths`, reach a terminal outcome: an empty Frontier, or an abort
carried by an error.  Candidates rejected by the two predicates are
unconstrained. -/
theorem crawl_website_terminates (start : String) (exclude : List String) (C : Collab)
    (U : List String) (L : Nat)
    (hstart : ∀ w, normalizeUrl start = .ok w → w ∈ U)
    (hL : ∀ v ∈ U, ∀ body, C.http v = some body → (C.extractLinks body).length ≤ L)
    (hlinks : ∀ d p, get_domain start = .ok d → get_path start = .ok p →
      ∀ v ∈ U, ∀ body, C.http v = some body → ∀ href ∈ C.extractLinks body,
      ∀ full, linkCandidate v href = .ok (some full) →
      is_internal_link full d = .ok true → is_in_subpath full p = .ok true →
      ∀ w, normalizeUrl full = .ok w → w ∈ U) :
    (∃ fuel, (∃ e, crawl_website fuel start exclude C = .error e) ∨
      (∃ s', crawl_website fuel start exclude C = .ok s' ∧ s'.to_visit = [])) ∧
    (∃ fuel, (∃ e, list_paths fuel start C = .error e) ∨
      (∃ t', list_paths fuel start C = .ok t' ∧ t'.to_visit = [])) := by
  constructor
  · cases hd : get_domain start with
    | error e =>
      refine ⟨0, Or.inl ⟨e, ?_⟩⟩
      unfold crawl_website
      rw [hd, exbind_error]
    | ok d =>
      cases hp : get_path start with
      | error e =>
        refine ⟨0, Or.inl ⟨e, ?_⟩⟩
        unfold crawl_website
        rw [hd, exbind_ok, hp, exbind_error]
      | ok pth =>
        have hInv0 : FrontierInU U (initCW start) := by
          intro v hv w hw
          simp only [initCW, List.mem_singleton] at hv
          subst hv
          exact hstart w hw
        obtain ⟨n, hterm⟩ := @runCW_terminates d pth exclude C U L
          hL (hlinks d pth hd hp) (measureCW U L (initCW start)) (initCW start) hInv0
          (Nat.le_refl _)
        refine ⟨n, ?_⟩
        have hcw : crawl_website n start exclude C =
            runCW d pth exclude C n (initCW start) := by
          unfold crawl_website
          rw [hd, exbind_ok, hp, exbind_ok]
        rw [hcw]
        exact hterm
  · cases hd : get_domain start with
    | error e =>
      refine ⟨0, Or.inl ⟨e, ?_⟩⟩
      unfold list_paths
      rw [hd, exbind_error]
    | ok d =>
      cases hp : get_path start with
      | error e =>
        refine ⟨0, Or.inl ⟨e, ?_⟩⟩
        unfold list_paths
        rw [hd, exbind_ok, hp, exbind_error]
      | ok pth =>
        have hInv0 : FrontierInULP U ⟨[start], [], [], []⟩ := by
          intro v hv w hw
          simp only [List.mem_singleton] at hv
          subst hv
          exact hstart w hw
        obtain ⟨n, hterm⟩ := @runLP_terminates d pth C U L
          hL (hlinks d pth hd hp) (measureLP U L ⟨[start], [], [], []⟩)
          ⟨[start], [], [], []⟩ hInv0 (Nat.le_refl _)
        refine ⟨n, ?_⟩
        have hlp : list_paths n start C = runLP d pth C n ⟨[start], [], [], []⟩ := by
          unfold list_paths
          rw [hd, exbind_ok, hp, exbind_ok]
        rw [hlp]
        exact hterm

/-- Witness for `crawl_website_terminates` on a one-page universe. -/
theorem crawl_website_terminates_witness :
    ((∃ fuel, (∃ e, crawl_website fuel "http://example.com/" [] failCollab = .error e) ∨
      (∃ s', crawl_website fuel "http://example.com/" [] failCollab = .ok s' ∧
        s'.to_visit = []))) ∧
    ((∃ fuel, (∃ e, list_paths fuel "http://example.com/" failCollab = .error e) ∨
      (∃ t', list_paths fuel "http://example.com/" failCollab = .ok t' ∧
        t'.to_visit = []))) :=
  crawl_website_terminates "http://example.com/" [] failCollab ["http://example.com/"] 0
    (fun w hw => by
      rw [show normalizeUrl "http://example.com/" = .ok "http://example.com/" from rfl] at hw
      injection hw with h
      subst h
      exact List.mem_singleton_self _)
    (fun _ _ _ hb => Option.noConfusion hb)
    (fun _ _ _ _ _ _ _ hb => Option.noConfusion hb)
